import Mathlib

/-!
MBMapSplitter: the AABB conflict graph and its DSATUR colouring

A shallow embedding of `src/MBMapSplitter/aabbcolor.cpp`.

* The C++ `Graph` owns a `vector<GraphNode>`; every `GraphNode*` held in a
  neighbour list points at a slot of that vector.  A pointer is therefore
  modelled by the *storage position* (a `Nat`) of the slot it points at.
  Erasing a node moves the later nodes one slot down, so a position then
  denotes the node that moved into the slot, as the pointer does.
  Positions are exact as long as the vector stays in its buffer while
  pointers are stored, which is the case when all nodes are added before any
  edge (as `getCollisions` and `testPetersen` do).  A `push_back` that moves
  the vector leaves the stored pointers dangling; the section "The graph with
  real pointers" embeds the mutators and the colouring with pointers that
  name their buffer, and shows what the program does then.  On graphs built
  nodes first the two embeddings agree (`applyOpsA_nodes_first`,
  `toGraph_colorDSATUR`).
* `int` values are unbounded integers (`Int`); counts are `Nat`.  Where the
  width of `int` decides what `getColorSets` does, `Graph.getColorSetArrays`
  carries the bound `INT_MAX`.
* `double` coordinates are modelled by an arbitrary type carrying a decidable
  strict comparison `<` (the source only ever uses `>` and `<` on them); the
  type `Fp` adds the unordered value NaN to a linearly ordered type.
* The two unbounded loops of `colorDSATUR` take an explicit iteration budget;
  running out of budget is the result `none`.
-/

namespace MBMapSplitter

/-! ## Data model -/

/-- The class `GraphNode`: an index, a color (`-1` is "no color") and the
neighbour pointers, each pointer being a storage position in the owning graph. -/
structure GraphNode where
  index : Int
  color : Int
  neighbors : List Nat
deriving DecidableEq

/-- The class `Graph`: the vector of nodes, in storage order. -/
structure Graph where
  nodes : List GraphNode
deriving DecidableEq

/-- The class `AABB`: six scalar bounds. -/
structure AABB (α : Type) where
  x1 : α
  y1 : α
  z1 : α
  x2 : α
  y2 : α
  z2 : α

/-! ## GraphNode -/

/-- The constructor `GraphNode::GraphNode(int index)`. -/
def GraphNode.new (index : Int) : GraphNode :=
  { index := index, color := -1, neighbors := [] }

/-- The accessor `GraphNode::getIndex`. -/
def GraphNode.getIndex (n : GraphNode) : Int := n.index

/-- The accessor `GraphNode::getColor`. -/
def GraphNode.getColor (n : GraphNode) : Int := n.color

/-- The mutator `GraphNode::setColor`. -/
def GraphNode.setColor (n : GraphNode) (color : Int) : GraphNode :=
  { n with color := color }

/-- The method `GraphNode::getDegree`. -/
def GraphNode.getDegree (n : GraphNode) : Nat := n.neighbors.length

/-- The method `GraphNode::isNeighbor`: a linear search of the neighbour list. -/
def GraphNode.isNeighbor (n : GraphNode) (neighbor : Nat) : Bool :=
  n.neighbors.contains neighbor

/-- Reading `(*it)->getColor()` through a neighbour pointer.  A pointer that
points at no slot of the vector reads as "no color"; no graph built by
`addNode` and `addEdge` contains such a pointer. -/
def colorAt (nodes : List GraphNode) (p : Nat) : Int :=
  match nodes[p]? with
  | some n => n.getColor
  | none => -1

/-- The loop of `GraphNode::getSaturation` over the neighbour list, carrying
the set `uniqueColors` (kept as a duplicate-free list). -/
def getSaturationLoop (nodes : List GraphNode) : List Nat → List Int → List Int
  | [], uniqueColors => uniqueColors
  | it :: rest, uniqueColors =>
    let color := colorAt nodes it
    if color < 0 then getSaturationLoop nodes rest uniqueColors
    else if color ∈ uniqueColors then getSaturationLoop nodes rest uniqueColors
    else getSaturationLoop nodes rest (color :: uniqueColors)

/-- The method `GraphNode::getSaturation`. -/
def GraphNode.getSaturation (nodes : List GraphNode) (n : GraphNode) : Nat :=
  (getSaturationLoop nodes n.neighbors []).length

/-- The loop of `GraphNode::isValidColor` over the neighbour list. -/
def isValidColorLoop (nodes : List GraphNode) : List Nat → Int → Bool
  | [], _ => true
  | it :: rest, color =>
    let neighborColor := colorAt nodes it
    if neighborColor < 0 then isValidColorLoop nodes rest color
    else if neighborColor = color then false
    else isValidColorLoop nodes rest color

/-- The method `GraphNode::isValidColor`. -/
def GraphNode.isValidColor (nodes : List GraphNode) (n : GraphNode) (color : Int) : Bool :=
  isValidColorLoop nodes n.neighbors color

/-- Writing through a pointer: replace the node stored at position `p`. -/
def updateNode (nodes : List GraphNode) (p : Nat) (f : GraphNode → GraphNode) :
    List GraphNode :=
  match nodes[p]? with
  | some n => nodes.set p (f n)
  | none => nodes

/-- One half of `GraphNode::addNeighbor`, executed on the node at position
`self`: `if (!this->isNeighbor(neighbor)) this->neighbors.push_back(neighbor);`. -/
def pushNeighbor (nodes : List GraphNode) (self neighbor : Nat) : List GraphNode :=
  if (nodes[self]?.map (fun n => n.isNeighbor neighbor)) = some true then nodes
  else updateNode nodes self (fun n => { n with neighbors := n.neighbors ++ [neighbor] })

/-- The method `GraphNode::addNeighbor`, called on the node at position `self`
with the pointer `neighbor`; returns the new degree and the updated vector. -/
def addNeighbor (nodes : List GraphNode) (self neighbor : Nat) : Nat × List GraphNode :=
  let nodes1 := pushNeighbor nodes self neighbor
  let nodes2 := pushNeighbor nodes1 neighbor self
  ((nodes2[self]?.map GraphNode.getDegree).getD 0, nodes2)

/-- The private method `GraphNode::vectorRemove`, executed on the node at
position `self`: erase every occurrence of the pointer `node` from the
neighbour list. -/
def vectorRemove (nodes : List GraphNode) (self node : Nat) : List GraphNode :=
  updateNode nodes self (fun n => { n with neighbors := n.neighbors.filter (fun q => q != node) })

/-- The method `GraphNode::removeNeighbor`, called on the node at position
`self` with the pointer `neighbor`; returns the new degree and the updated
vector. -/
def removeNeighbor (nodes : List GraphNode) (self neighbor : Nat) : Nat × List GraphNode :=
  let nodes1 := vectorRemove nodes self neighbor
  let nodes2 := vectorRemove nodes1 neighbor self
  ((nodes2[self]?.map GraphNode.getDegree).getD 0, nodes2)

/-! ## Graph -/

/-- The constructor `Graph::Graph()`. -/
def Graph.empty : Graph := { nodes := [] }

/-- The method `Graph::getSize`. -/
def Graph.getSize (g : Graph) : Nat := g.nodes.length

/-- The method `Graph::containsNode`. -/
def Graph.containsNode (g : Graph) (index : Int) : Bool :=
  g.nodes.any (fun n => n.getIndex == index)

/-- The method `Graph::findNode`: the position of the first node having the
given index, `none` for `NULL`. -/
def Graph.findNode (g : Graph) (index : Int) : Option Nat :=
  g.nodes.findIdx? (fun n => n.getIndex == index)

/-- The method `Graph::addNode` on storage positions; returns the new size and
the updated graph.  Exact on a graph that holds no edge, which is how
`getCollisions` and `testPetersen` call it; on a graph that holds edges the
`push_back` of the source can move the vector and leave the stored pointers
dangling, which `AGraph.addNode` embeds. -/
def Graph.addNode (g : Graph) (index : Int) : Nat × Graph :=
  let g1 : Graph :=
    if g.containsNode index then g else { nodes := g.nodes ++ [GraphNode.new index] }
  (g1.getSize, g1)

/-- The method `Graph::addEdge`.  Calling a method through the `NULL` that
`findNode` returns for an absent index is the failure `none`. -/
def Graph.addEdge (g : Graph) (index1 index2 : Int) : Option Graph :=
  match g.findNode index1, g.findNode index2 with
  | some p1, some p2 => some { nodes := (addNeighbor g.nodes p1 p2).2 }
  | _, _ => none

/-- The method `Graph::removeEdge`; `none` is, as for `addEdge`, a call
through the `NULL` returned by `findNode`. -/
def Graph.removeEdge (g : Graph) (index1 index2 : Int) : Option Graph :=
  match g.findNode index1, g.findNode index2 with
  | some p1, some p2 => some { nodes := (removeNeighbor g.nodes p1 p2).2 }
  | _, _ => none

/-- The method `Graph::isEdge` (its trace output left out).  An absent
`index1` is a call through `NULL`, the failure `none`; for an absent `index2`
the neighbour list is searched for `NULL`, which no list built by `addEdge`
holds, so the answer is `false`. -/
def Graph.isEdge (g : Graph) (index1 index2 : Int) : Option Bool :=
  match g.findNode index1 with
  | none => none
  | some p1 =>
    match g.findNode index2 with
    | none => some false
    | some p2 => g.nodes[p1]?.map (fun n => n.isNeighbor p2)

/-- The loop of `Graph::removeNode(int)`.  `kept` holds the nodes stored
before the iterator `it`, the second list the nodes from `it` to `end()`.
`it = nodes.erase(it)` leaves `it` at the node that followed the erased one,
and the loop's `it++` then steps over that node; after erasing the last node
`it` is `end()` and `it++` steps past it, which is the failure `none`.
Erasing moves the later nodes one slot down and touches no neighbour list. -/
def removeNodeLoop (index : Int) : List GraphNode → List GraphNode → Option (List GraphNode)
  | kept, [] => some kept
  | kept, [it] => if it.getIndex = index then none else some (kept ++ [it])
  | kept, it :: skipped :: rest =>
    if it.getIndex = index then removeNodeLoop index (kept ++ [skipped]) rest
    else removeNodeLoop index (kept ++ [it]) (skipped :: rest)

/-- The method `Graph::removeNode(int index)`; returns the new size and the
updated graph. -/
def Graph.removeNode (g : Graph) (index : Int) : Option (Nat × Graph) :=
  (removeNodeLoop index [] g.nodes).map (fun nodes => (nodes.length, { nodes := nodes }))

/-- The loop of `Graph::getEdgeCount`: add every node's degree to
`totalDegree`. -/
def totalDegreeLoop : List GraphNode → Nat → Nat
  | [], totalDegree => totalDegree
  | it :: rest, totalDegree => totalDegreeLoop rest (totalDegree + it.getDegree)

/-- The method `Graph::getEdgeCount`: `totalDegree/2`, the integer division
of a non-negative total. -/
def Graph.getEdgeCount (g : Graph) : Nat :=
  totalDegreeLoop g.nodes 0 / 2

/-! ## colorDSATUR -/

/-- The first loop of `Graph::colorDSATUR`: remove all vertex colors. -/
def resetColors (nodes : List GraphNode) : List GraphNode :=
  nodes.map (fun n => n.setColor (-1))

/-- The saturation of the node stored at position `p`. -/
def satAt (nodes : List GraphNode) (p : Nat) : Nat :=
  match nodes[p]? with
  | some n => n.getSaturation nodes
  | none => 0

/-- The neighbour list of the node stored at position `p`. -/
def neighborsAt (nodes : List GraphNode) (p : Nat) : List Nat :=
  match nodes[p]? with
  | some n => n.neighbors
  | none => []

/-- The degree of the node stored at position `p`. -/
def degAt (nodes : List GraphNode) (p : Nat) : Nat :=
  match nodes[p]? with
  | some n => n.getDegree
  | none => 0

/-- One iteration of the selection scan of `Graph::colorDSATUR`: `next` is the
candidate so far (`none` for `NULL`), `it` the position being visited. -/
def scanStep (nodes : List GraphNode) (next : Option Nat) (it : Nat) : Option Nat :=
  if colorAt nodes it ≠ -1 then next
  else
    match next with
    | none => some it
    | some nx =>
      if satAt nodes it > satAt nodes nx then some it
      else if satAt nodes it = satAt nodes nx ∧ degAt nodes it > degAt nodes nx then some it
      else some nx

/-- The selection scan of `Graph::colorDSATUR` over the whole vector. -/
def selectNext (nodes : List GraphNode) : Option Nat :=
  (List.range nodes.length).foldl (scanStep nodes) none

/-- The test `next->isValidColor(color)` for the node stored at position `p`. -/
def validAt (nodes : List GraphNode) (p : Nat) (color : Int) : Bool :=
  match nodes[p]? with
  | some n => n.isValidColor nodes color
  | none => true

/-- The probe `while (!next->isValidColor(color)) color++;`, allowed at most
`fuel` tests; `none` when the budget is used up. -/
def probeColor (nodes : List GraphNode) (next : Nat) : Nat → Int → Option Int
  | 0, _ => none
  | fuel + 1, color =>
    if validAt nodes next color then some color
    else probeColor nodes next fuel (color + 1)

/-- The `while (true)` loop of `Graph::colorDSATUR`, allowed at most `fuel`
scans, each probe being allowed `limit` tests. -/
def colorLoop (limit : Nat) : Nat → List GraphNode → Option (List GraphNode)
  | 0, _ => none
  | fuel + 1, nodes =>
    match selectNext nodes with
    | none => some nodes
    | some next =>
      match probeColor nodes next limit 0 with
      | none => none
      | some color =>
        colorLoop limit fuel (updateNode nodes next (fun n => n.setColor color))

/-- The method `Graph::colorDSATUR` with iteration budget `fuel` for each of
its two unbounded loops. -/
def Graph.colorDSATUR (fuel : Nat) (g : Graph) : Option Graph :=
  (colorLoop fuel fuel (resetColors g.nodes)).map (fun nodes => { nodes := nodes })

/-! ## getColorSets -/

/-- The first loop of `Graph::getColorSets`: the largest color, starting from
`maxColor`; `none` is the early `return NULL`. -/
def maxColorLoop : List GraphNode → Int → Option Int
  | [], maxColor => some maxColor
  | it :: rest, maxColor =>
    let color := it.getColor
    if color < 0 then none
    else if color > maxColor then maxColorLoop rest color
    else maxColorLoop rest maxColor

/-- The fill loop of `Graph::getColorSets` for one color: the indices of the
nodes of that color, in storage order. -/
def colorSet : List GraphNode → Int → List Int
  | [], _ => []
  | it :: rest, currentColor =>
    if it.getColor = currentColor then it.getIndex :: colorSet rest currentColor
    else colorSet rest currentColor

/-- The index lists that `Graph::getColorSets` writes, one for each color from
`0` to `maxColor`; `none` is `NULL`.  These are the contents of the inner
arrays before their terminators.  They are what a reader of the arrays
obtains when no node has the index `-1`, and the arrays are allocated when
`maxColor+2` fits in an `int`; `Graph.getColorSetArrays` embeds the arrays
themselves and `ColorSets.read` the reading. -/
def Graph.getColorSets (g : Graph) : Option (List (List Int)) :=
  match maxColorLoop g.nodes 0 with
  | none => none
  | some maxColor =>
    some ((List.range (maxColor.toNat + 1)).map (fun (currentColor : Nat) =>
      colorSet g.nodes (currentColor : Int)))

/-- The largest value of the 32-bit `int`. -/
def INT_MAX : Int := 2147483647

/-- What a call of `Graph::getColorSets` yields. -/
inductive ColorSets where
  /-- The early `return NULL`. -/
  | null
  /-- The size `maxColor+2` of the outer array does not fit in an `int`: the
  addition overflows and no array is returned. -/
  | overflow
  /-- The inner arrays in the order of the outer array, each with its
  terminator `-1`; the `NULL` that ends the outer array is left out. -/
  | arrays (outer : List (List Int))
deriving DecidableEq

/-- The inner array that `Graph::getColorSets` fills for one color:
`new int[setSize+1]`, the indices of the nodes of that color in storage
order, then `colorSet[setSize] = -1`. -/
def colorSetArray (nodes : List GraphNode) (currentColor : Int) : List Int :=
  colorSet nodes currentColor ++ [-1]

/-- The method `Graph::getColorSets` with the arrays it returns. -/
def Graph.getColorSetArrays (g : Graph) : ColorSets :=
  match maxColorLoop g.nodes 0 with
  | none => ColorSets.null
  | some maxColor =>
    if maxColor + 2 > INT_MAX then ColorSets.overflow
    else ColorSets.arrays ((List.range (maxColor.toNat + 1)).map
      (fun (currentColor : Nat) => colorSetArray g.nodes (currentColor : Int)))

/-- Reading one inner array the way `main` does, and the only way an array
without a length can be read: `for (j = 0; colorSets[i][j] != -1; j++)`. -/
def readGroup (colorSet : List Int) : List Int :=
  colorSet.takeWhile (fun x => x != -1)

/-- The groups a reader of the returned arrays obtains; `none` when no array
is returned. -/
def ColorSets.read : ColorSets → Option (List (List Int))
  | ColorSets.arrays outer => some (outer.map readGroup)
  | _ => none

/-! ## AABB and getCollisions -/

/-- The method `AABB::intersects`. -/
def AABB.intersects {α : Type} [LT α] [DecidableRel (fun a b : α => a < b)]
    (self other : AABB α) : Bool :=
  if self.x1 > other.x2 then false
  else if self.x2 < other.x1 then false
  else if self.y1 > other.y2 then false
  else if self.y2 < other.y1 then false
  else if self.z1 > other.z2 then false
  else if self.z2 < other.z1 then false
  else true

/-- The first loop of `getCollisions`: `graph.addNode(i)` for `i` below `n`. -/
def addNodes (graph : Graph) (n : Nat) : Graph :=
  (List.range n).foldl (fun (g : Graph) (i : Nat) => (g.addNode (i : Int)).2) graph

/-- The inner loop of `getCollisions`: `self` is the box `*it1` with counter
`i`; the list holds the boxes from `it2` up to, excluding, `it1`, and `j` is
the counter of `it2`. -/
def collideRow {α : Type} [LT α] [DecidableRel (fun a b : α => a < b)]
    (self : AABB α) (i : Nat) : List (AABB α) → Nat → Graph → Option Graph
  | [], _, graph => some graph
  | other :: rest, j, graph =>
    if self.intersects other then
      match graph.addEdge (i : Int) (j : Int) with
      | none => none
      | some graph1 => collideRow self i rest (j + 1) graph1
    else collideRow self i rest (j + 1) graph

/-- The outer loop of `getCollisions`: the list holds the boxes from `it1` to
the end of `AABBs`, and `i` is the counter of `it1`. -/
def collideAll {α : Type} [LT α] [DecidableRel (fun a b : α => a < b)]
    (AABBs : List (AABB α)) : List (AABB α) → Nat → Graph → Option Graph
  | [], _, graph => some graph
  | self :: rest, i, graph =>
    match collideRow self i (AABBs.take i) 0 graph with
    | none => none
    | some graph1 => collideAll AABBs rest (i + 1) graph1

/-- The function `getCollisions`; `none` would be a failed `addEdge`. -/
def getCollisions {α : Type} [LT α] [DecidableRel (fun a b : α => a < b)]
    (AABBs : List (AABB α)) : Option Graph :=
  collideAll AABBs AABBs 0 (addNodes Graph.empty AABBs.length)

/-- The pipeline of `main`: `getCollisions`, `colorDSATUR`, `getColorSets`. -/
def splitGroups {α : Type} [LT α] [DecidableRel (fun a b : α => a < b)]
    (fuel : Nat) (AABBs : List (AABB α)) : Option (List (List Int)) :=
  (getCollisions AABBs).bind (fun graph =>
    (graph.colorDSATUR fuel).bind (fun colored => colored.getColorSets))

/-! ## Coordinates with NaN -/

/-- A `double` as far as `<` and `<=` see it: NaN, or a number of a linearly
ordered type (in which `-0` and `+0` are one number). -/
inductive Fp (α : Type) where
  | nan
  | num (x : α)
deriving DecidableEq

/-- The comparison `<` of `double`: false as soon as one side is NaN. -/
def Fp.lt {α : Type} [LT α] : Fp α → Fp α → Prop
  | Fp.num x, Fp.num y => x < y
  | _, _ => False

/-- The comparison `<=` of `double`: false as soon as one side is NaN. -/
def Fp.le {α : Type} [LE α] : Fp α → Fp α → Prop
  | Fp.num x, Fp.num y => x ≤ y
  | _, _ => False

instance {α : Type} [LT α] : LT (Fp α) := ⟨Fp.lt⟩

instance {α : Type} [LE α] : LE (Fp α) := ⟨Fp.le⟩

instance {α : Type} [LT α] [DecidableRel (fun a b : α => a < b)] :
    DecidableRel (fun a b : Fp α => a < b)
  | Fp.num x, Fp.num y => inferInstanceAs (Decidable (x < y))
  | Fp.nan, _ => isFalse (fun h => h)
  | Fp.num _, Fp.nan => isFalse (fun h => h)

instance {α : Type} [LE α] [DecidableRel (fun a b : α => a ≤ b)] :
    DecidableRel (fun a b : Fp α => a ≤ b)
  | Fp.num x, Fp.num y => inferInstanceAs (Decidable (x ≤ y))
  | Fp.nan, _ => isFalse (fun h => h)
  | Fp.num _, Fp.nan => isFalse (fun h => h)

/-- A `GraphNode*` into the vector of a graph: the number of the buffer it
points into and the slot in that buffer.  The buffers of the vector are
numbered in the order in which the vector takes them, `0` being the empty
storage of a new vector.  A vector that grows takes its new buffer before it
gives the old one back, so the two lie at different addresses; that a later
buffer may lie where an earlier one was is not modelled. -/
structure Ptr where
  buf : Nat
  slot : Nat
deriving DecidableEq

/-- The class `GraphNode`, its neighbours held as pointers. -/
structure ANode where
  index : Int
  color : Int
  neighbors : List Ptr
deriving DecidableEq

/-- The class `Graph` with the memory of its `vector<GraphNode>`: the
capacity and the contents of the buffer in use, and the buffers the vector
has given back, oldest first, each with the nodes as the move left them
(index and color in place, the neighbour vector moved out). -/
structure AGraph where
  capacity : Nat
  nodes : List ANode
  freed : List (List ANode)
deriving DecidableEq

/-- The constructor `Graph::Graph()`: an empty vector, no buffer taken yet. -/
def AGraph.empty : AGraph := { capacity := 0, nodes := [], freed := [] }

/-- The number of the buffer in use. -/
def AGraph.buf (g : AGraph) : Nat := g.freed.length

/-- The method `Graph::getSize`. -/
def AGraph.getSize (g : AGraph) : Nat := g.nodes.length

/-- The method `Graph::containsNode`. -/
def AGraph.containsNode (g : AGraph) (index : Int) : Bool :=
  g.nodes.any (fun n => n.index == index)

/-- The method `Graph::findNode`: the pointer `&(*it)` to the first node with
the given index, `none` for `NULL`. -/
def AGraph.findNode (g : AGraph) (index : Int) : Option Ptr :=
  (g.nodes.findIdx? (fun n => n.index == index)).map (fun slot => { buf := g.buf, slot := slot })

/-- Reading the node a pointer points at.  A pointer into a buffer that the
vector has given back is dangling: the read is undefined in C++ and is taken
to return what the buffer held when it was given back. -/
def AGraph.deref (g : AGraph) (p : Ptr) : Option ANode :=
  if p.buf = g.buf then g.nodes[p.slot]?
  else (g.freed[p.buf]?).bind (fun buffer => buffer[p.slot]?)

/-- The growth of libstdc++'s `vector`: a full vector of `n` elements moves
to a buffer for `n + max(n, 1)` elements. -/
def doubling (n : Nat) : Nat := n + max n 1

/-- The method `Graph::addNode`.  `push_back` on a vector with spare capacity
writes the node behind the others; on a full vector it takes a buffer of
capacity `grow size`, moves the nodes there, writes the new node behind them
and gives the old buffer back, after which every pointer into the old buffer
is dangling. -/
def AGraph.addNode (grow : Nat → Nat) (g : AGraph) (index : Int) : Nat × AGraph :=
  if g.containsNode index then (g.getSize, g)
  else if g.nodes.length < g.capacity then
    (g.nodes.length + 1,
      { g with nodes := g.nodes ++ [{ index := index, color := -1, neighbors := [] }] })
  else
    (g.nodes.length + 1,
      { capacity := grow g.nodes.length,
        nodes := g.nodes ++ [{ index := index, color := -1, neighbors := [] }],
        freed := g.freed ++ [g.nodes.map (fun n => { n with neighbors := [] })] })

/-- Writing through a pointer into the buffer in use. -/
def AGraph.updateSlot (g : AGraph) (slot : Nat) (f : ANode → ANode) : AGraph :=
  match g.nodes[slot]? with
  | some n => { g with nodes := g.nodes.set slot (f n) }
  | none => g

/-- One half of `GraphNode::addNeighbor`, executed on the node that `self`
points at in the buffer in use:
`if (!this->isNeighbor(neighbor)) this->neighbors.push_back(neighbor);`,
`isNeighbor` comparing pointers. -/
def AGraph.pushNeighbor (g : AGraph) (self neighbor : Ptr) : AGraph :=
  if (g.nodes[self.slot]?.map (fun n => n.neighbors.contains neighbor)) = some true then g
  else g.updateSlot self.slot (fun n => { n with neighbors := n.neighbors ++ [neighbor] })

/-- The method `Graph::addEdge`; `none` is a call through `NULL`. -/
def AGraph.addEdge (g : AGraph) (index1 index2 : Int) : Option AGraph :=
  match g.findNode index1, g.findNode index2 with
  | some p1, some p2 => some ((g.pushNeighbor p1 p2).pushNeighbor p2 p1)
  | _, _ => none

/-- The private method `GraphNode::vectorRemove`, executed on the node that
`self` points at in the buffer in use: erase every occurrence of the pointer
`node` from the neighbour list. -/
def AGraph.vectorRemove (g : AGraph) (self node : Ptr) : AGraph :=
  g.updateSlot self.slot (fun n => { n with neighbors := n.neighbors.filter (fun q => q != node) })

/-- The method `Graph::removeEdge`; `none` is a call through `NULL`. -/
def AGraph.removeEdge (g : AGraph) (index1 index2 : Int) : Option AGraph :=
  match g.findNode index1, g.findNode index2 with
  | some p1, some p2 => some ((g.vectorRemove p1 p2).vectorRemove p2 p1)
  | _, _ => none

/-- The method `Graph::isEdge` (its trace output left out). -/
def AGraph.isEdge (g : AGraph) (index1 index2 : Int) : Option Bool :=
  match g.findNode index1 with
  | none => none
  | some p1 =>
    match g.findNode index2 with
    | none => some false
    | some p2 => g.nodes[p1.slot]?.map (fun n => n.neighbors.contains p2)

/-- The method `Graph::getEdgeCount`. -/
def AGraph.getEdgeCount (g : AGraph) : Nat :=
  (g.nodes.map (fun n => n.neighbors.length)).sum / 2

/-- Reading `(*it)->getColor()` through a neighbour pointer. -/
def AGraph.colorOf (g : AGraph) (p : Ptr) : Int :=
  match g.deref p with
  | some n => n.color
  | none => -1

/-- The loop of `GraphNode::getSaturation`. -/
def AGraph.getSaturationLoop (g : AGraph) : List Ptr → List Int → List Int
  | [], uniqueColors => uniqueColors
  | it :: rest, uniqueColors =>
    let color := g.colorOf it
    if color < 0 then g.getSaturationLoop rest uniqueColors
    else if color ∈ uniqueColors then g.getSaturationLoop rest uniqueColors
    else g.getSaturationLoop rest (color :: uniqueColors)

/-- The saturation of the node in slot `p` of the buffer in use. -/
def AGraph.satAt (g : AGraph) (p : Nat) : Nat :=
  match g.nodes[p]? with
  | some n => (g.getSaturationLoop n.neighbors []).length
  | none => 0

/-- The degree of the node in slot `p` of the buffer in use. -/
def AGraph.degAt (g : AGraph) (p : Nat) : Nat :=
  match g.nodes[p]? with
  | some n => n.neighbors.length
  | none => 0

/-- The loop of `GraphNode::isValidColor`. -/
def AGraph.isValidColorLoop (g : AGraph) : List Ptr → Int → Bool
  | [], _ => true
  | it :: rest, color =>
    let neighborColor := g.colorOf it
    if neighborColor < 0 then g.isValidColorLoop rest color
    else if neighborColor = color then false
    else g.isValidColorLoop rest color

/-- The test `next->isValidColor(color)` for the node in slot `p`. -/
def AGraph.validAt (g : AGraph) (p : Nat) (color : Int) : Bool :=
  match g.nodes[p]? with
  | some n => g.isValidColorLoop n.neighbors color
  | none => true

/-- Reading `it->getColor()` in slot `it` of the buffer in use. -/
def AGraph.colorAt (g : AGraph) (it : Nat) : Int :=
  match g.nodes[it]? with
  | some n => n.color
  | none => -1

/-- One iteration of the selection scan of `Graph::colorDSATUR`: `next` is the
candidate so far (`none` for `NULL`), `it` the slot being visited. -/
def AGraph.scanStep (g : AGraph) (next : Option Nat) (it : Nat) : Option Nat :=
  if g.colorAt it ≠ -1 then next
  else
    match next with
    | none => some it
    | some nx =>
      if g.satAt it > g.satAt nx then some it
      else if g.satAt it = g.satAt nx ∧ g.degAt it > g.degAt nx then some it
      else some nx

/-- The selection scan of `Graph::colorDSATUR` over the whole vector. -/
def AGraph.selectNext (g : AGraph) : Option Nat :=
  (List.range g.nodes.length).foldl g.scanStep none

/-- The probe `while (!next->isValidColor(color)) color++;` with a budget. -/
def AGraph.probeColor (g : AGraph) (next : Nat) : Nat → Int → Option Int
  | 0, _ => none
  | fuel + 1, color =>
    if g.validAt next color then some color
    else g.probeColor next fuel (color + 1)

/-- The `while (true)` loop of `Graph::colorDSATUR` with a budget. -/
def AGraph.colorLoop (limit : Nat) : Nat → AGraph → Option AGraph
  | 0, _ => none
  | fuel + 1, g =>
    match g.selectNext with
    | none => some g
    | some next =>
      match g.probeColor next limit 0 with
      | none => none
      | some color =>
        AGraph.colorLoop limit fuel (g.updateSlot next (fun n => { n with color := color }))

/-- The method `Graph::colorDSATUR` with iteration budget `fuel`. -/
def AGraph.colorDSATUR (fuel : Nat) (g : AGraph) : Option AGraph :=
  AGraph.colorLoop fuel fuel { g with nodes := g.nodes.map (fun n => { n with color := -1 }) }

/-! ## Specification-side measures -/

/-- The number of stored nodes whose color is `-1` ("no color"). -/
def uncoloredCount (nodes : List GraphNode) : Nat :=
  nodes.countP (fun n => n.getColor == -1)

/-- The selection key of the node stored at position `p`: the pair
(saturation, degree), ordered lexicographically. -/
def selKey (nodes : List GraphNode) (p : Nat) : Lex (Nat × Nat) :=
  toLex (satAt nodes p, degAt nodes p)

/-- A sample graph: the path `0 - 1 - 2` plus the isolated node `3`, uncolored,
as `addNode 0..3`, `addEdge(0,1)`, `addEdge(1,2)` build it. -/
def samplePath : Graph :=
  { nodes := [⟨0, -1, [1]⟩, ⟨1, -1, [0, 2]⟩, ⟨2, -1, [1]⟩, ⟨3, -1, []⟩] }

/-- The sample path graph with the colors `1, 0, 1, 0`. -/
def sampleColored : Graph :=
  { nodes := [⟨0, 1, [1]⟩, ⟨1, 0, [0, 2]⟩, ⟨2, 1, [1]⟩, ⟨3, 0, []⟩] }

/-- The state of the coloring loop on the sample path graph after its first
round, which gave node `1` the color `0`. -/
def sampleRound : List GraphNode :=
  [⟨0, -1, [1]⟩, ⟨1, 0, [0, 2]⟩, ⟨2, -1, [1]⟩, ⟨3, -1, []⟩]

/-- A call of one of the three graph mutators `addNode`, `addEdge`,
`removeEdge`. -/
inductive GraphOp where
  | addNode (index : Int)
  | addEdge (index1 index2 : Int)
  | removeEdge (index1 index2 : Int)
deriving DecidableEq

/-- Executing one mutator call; `none` when the call fails. -/
def applyOp (g : Graph) : GraphOp → Option Graph
  | GraphOp.addNode index => some (g.addNode index).2
  | GraphOp.addEdge index1 index2 => g.addEdge index1 index2
  | GraphOp.removeEdge index1 index2 => g.removeEdge index1 index2

/-- Executing a sequence of mutator calls from left to right. -/
def applyOps (g : Graph) : List GraphOp → Option Graph
  | [] => some g
  | op :: rest =>
    match applyOp g op with
    | none => none
    | some g1 => applyOps g1 rest

/-- A sample graph: nodes `0, 1, 2` and the single edge `1 - 2`, as
`addNode 0..2`, `addEdge(1,2)` build it. -/
def sampleEdge : Graph :=
  { nodes := [⟨0, -1, []⟩, ⟨1, -1, [2]⟩, ⟨2, -1, [1]⟩] }

/-- The calls of `testPetersen` that build the graph: `addNode(i)` for `i`
from `0` to `9`, then the fifteen `addEdge` calls in the order of the source. -/
def petersenOps : List GraphOp :=
  (List.range 10).map (fun (i : Nat) => GraphOp.addNode (i : Int)) ++
    [GraphOp.addEdge 0 1, GraphOp.addEdge 1 2, GraphOp.addEdge 2 3, GraphOp.addEdge 3 4,
      GraphOp.addEdge 4 0, GraphOp.addEdge 0 5, GraphOp.addEdge 1 6, GraphOp.addEdge 2 7,
      GraphOp.addEdge 3 8, GraphOp.addEdge 4 9, GraphOp.addEdge 5 7, GraphOp.addEdge 7 9,
      GraphOp.addEdge 9 6, GraphOp.addEdge 6 8, GraphOp.addEdge 8 5]

/-- The number of unordered pairs of adjacent nodes: the pairs of positions
`v < u` with `v` in the neighbour list of `u`. -/
def adjacentPairs (nodes : List GraphNode) : Nat :=
  Finset.sum (Finset.range nodes.length) (fun u =>
    ((Finset.range u).filter (fun v => v ∈ neighborsAt nodes u)).card)

/-- The test `AABBs[i].intersects(AABBs[j])` on positions; false when a
position holds no box. -/
def boxesIntersect {α : Type} [LT α] [DecidableRel (fun a b : α => a < b)]
    (AABBs : List (AABB α)) (i j : Nat) : Bool :=
  match AABBs[i]?, AABBs[j]? with
  | some a, some b => a.intersects b
  | _, _ => false

/-- The number of pairs of positions `j < i` whose boxes intersect. -/
def intersectingPairs {α : Type} [LT α] [DecidableRel (fun a b : α => a < b)]
    (AABBs : List (AABB α)) : Nat :=
  Finset.sum (Finset.range AABBs.length) (fun i =>
    ((Finset.range i).filter (fun j => boxesIntersect AABBs i j = true)).card)

/-- Executing one mutator call on the graph with real pointers, the vector
growing by `grow`; `none` when the call fails. -/
def applyOpA (grow : Nat → Nat) (g : AGraph) : GraphOp → Option AGraph
  | GraphOp.addNode index => some (g.addNode grow index).2
  | GraphOp.addEdge index1 index2 => g.addEdge index1 index2
  | GraphOp.removeEdge index1 index2 => g.removeEdge index1 index2

/-- Executing a sequence of mutator calls on the graph with real pointers. -/
def applyOpsA (grow : Nat → Nat) (g : AGraph) : List GraphOp → Option AGraph
  | [] => some g
  | op :: rest =>
    match applyOpA grow g op with
    | none => none
    | some g1 => applyOpsA grow g1 rest

/-- A node with real pointers read on positions: every pointer becomes its
slot. -/
def ANode.toNode (n : ANode) : GraphNode :=
  { index := n.index, color := n.color, neighbors := n.neighbors.map Ptr.slot }

/-- The graph with real pointers read on positions, which is exact when no
stored pointer is dangling. -/
def AGraph.toGraph (g : AGraph) : Graph :=
  { nodes := g.nodes.map ANode.toNode }

/-- Every stored pointer points into the buffer in use: none is dangling. -/
def AGraph.live (g : AGraph) : Prop :=
  ∀ n ∈ g.nodes, ∀ p ∈ n.neighbors, p.buf = g.buf

/-- The neighbour pointers of the node in slot `u` of the buffer in use. -/
def AGraph.neighborsAt (g : AGraph) (u : Nat) : List Ptr :=
  match g.nodes[u]? with
  | some n => n.neighbors
  | none => []

/-- Whether a call is an `addNode`. -/
def GraphOp.isAddNode : GraphOp → Bool
  | GraphOp.addNode _ => true
  | _ => false

/-- The color of the vertex with the given index, `none` when there is none. -/
def AGraph.colorOfIndex (g : AGraph) (index : Int) : Option Int :=
  (g.findNode index).map g.colorOf

/-- The calls `addNode(0)`, `addNode(1)`, `addEdge(0,1)`, `addNode(2)`: a node
is added after an edge. -/
def interleavedOps : List GraphOp :=
  [GraphOp.addNode 0, GraphOp.addNode 1, GraphOp.addEdge 0 1, GraphOp.addNode 2]

/-- The graph that `addNode(0)`, `addNode(1)`, `addEdge(0,1)` build in a vector
that doubles: both nodes in buffer `2`, each holding the pointer to the other. -/
def edgeGraph : AGraph :=
  { capacity := 2,
    nodes := [⟨0, -1, [⟨2, 1⟩]⟩, ⟨1, -1, [⟨2, 0⟩]⟩],
    freed := [[], [⟨0, -1, []⟩]] }

/-- The graph that `addNode 0..2`, `addEdge(1,2)`, `addEdge(2,1)`,
`addEdge(0,1)`, `removeEdge(1,0)` build in a vector that doubles: the three
nodes in buffer `3`, the single edge `1 - 2`. -/
def sampleEdgeA : AGraph :=
  { capacity := 4,
    nodes := [⟨0, -1, []⟩, ⟨1, -1, [⟨3, 2⟩]⟩, ⟨2, -1, [⟨3, 1⟩]⟩],
    freed := [[], [⟨0, -1, []⟩], [⟨0, -1, []⟩, ⟨1, -1, []⟩]] }

/-- The path `0 - 1 - 2 - 3` that `addNode 0..3`, `addEdge(0,1)`, `addEdge(1,2)`,
`addEdge(2,3)` build in a vector that doubles: the four nodes in buffer `3`. -/
def samplePathA : AGraph :=
  { capacity := 4,
    nodes := [⟨0, -1, [⟨3, 1⟩]⟩, ⟨1, -1, [⟨3, 0⟩, ⟨3, 2⟩]⟩, ⟨2, -1, [⟨3, 1⟩, ⟨3, 3⟩]⟩,
      ⟨3, -1, [⟨3, 2⟩]⟩],
    freed := [[], [⟨0, -1, []⟩], [⟨0, -1, []⟩, ⟨1, -1, []⟩]] }

/-- The graph that `interleavedOps` build in a vector that doubles: the third
node moved the vector to buffer `3`, the pointers stored by `addEdge(0,1)`
still point into buffer `2`. -/
def interleavedGraph : AGraph :=
  { capacity := 4,
    nodes := [⟨0, -1, [⟨2, 1⟩]⟩, ⟨1, -1, [⟨2, 0⟩]⟩, ⟨2, -1, []⟩],
    freed := [[], [⟨0, -1, []⟩], [⟨0, -1, []⟩, ⟨1, -1, []⟩]] }

/-- Three nodes with the indices `4, -1, 6`, all of color `0`, as
`addNode(4)`, `addNode(-1)`, `addNode(6)` and `setColor(0)` build them. -/
def sentinelGraph : Graph :=
  { nodes := [⟨4, 0, []⟩, ⟨-1, 0, []⟩, ⟨6, 0, []⟩] }

/-- The graph that `addNode(-1)` builds from the empty graph. -/
def minusOneGraph : Graph := (Graph.empty.addNode (-1)).2

/-- One node whose color was set to `INT_MAX - 1` with `setColor`. -/
def overflowGraph : Graph := { nodes := [⟨0, 2147483646, []⟩] }

/-! ## Reading and writing through positions -/

theorem length_updateNode (nodes : List GraphNode) (p : Nat) (f : GraphNode → GraphNode) :
    (updateNode nodes p f).length = nodes.length := by
  unfold updateNode
  split <;> simp

theorem getElem?_updateNode (nodes : List GraphNode) (p q : Nat) (f : GraphNode → GraphNode) :
    (updateNode nodes p f)[q]? = if q = p then nodes[p]?.map f else nodes[q]? := by
  unfold updateNode
  cases h : nodes[p]? with
  | none =>
    by_cases hq : q = p
    · subst hq; simp [h]
    · simp [hq]
  | some n =>
    have hp : p < nodes.length := by
      rcases List.getElem?_eq_some_iff.mp h with ⟨hp, _⟩
      exact hp
    by_cases hq : q = p
    · subst hq; simp [List.getElem?_set, hp]
    · have hq2 : ¬ p = q := fun e => hq e.symm
      simp [List.getElem?_set, hq, hq2]

theorem getElem?_updateNode_ne (nodes : List GraphNode) (p q : Nat) (f : GraphNode → GraphNode)
    (h : q ≠ p) : (updateNode nodes p f)[q]? = nodes[q]? := by
  rw [getElem?_updateNode, if_neg h]

theorem colorAt_setColor (nodes : List GraphNode) (p q : Nat) (c : Int) :
    colorAt (updateNode nodes p (fun n => n.setColor c)) q
      = if q = p ∧ p < nodes.length then c else colorAt nodes q := by
  unfold colorAt
  rw [getElem?_updateNode]
  by_cases hq : q = p
  · subst hq
    by_cases hp : q < nodes.length
    · simp [hp, GraphNode.setColor, GraphNode.getColor]
    · have : nodes[q]? = none := List.getElem?_eq_none (by omega)
      simp [hp, this]
  · simp [hq]

theorem neighborsAt_setColor (nodes : List GraphNode) (p q : Nat) (c : Int) :
    neighborsAt (updateNode nodes p (fun n => n.setColor c)) q = neighborsAt nodes q := by
  unfold neighborsAt
  rw [getElem?_updateNode]
  by_cases hq : q = p
  · subst hq
    cases h : nodes[q]? <;> simp [GraphNode.setColor]
  · simp [hq]

theorem colorAt_resetColors (nodes : List GraphNode) (p : Nat) :
    colorAt (resetColors nodes) p = -1 := by
  unfold colorAt resetColors
  rw [List.getElem?_map]
  cases nodes[p]? <;> simp [GraphNode.setColor, GraphNode.getColor]

theorem neighborsAt_resetColors (nodes : List GraphNode) (p : Nat) :
    neighborsAt (resetColors nodes) p = neighborsAt nodes p := by
  unfold neighborsAt resetColors
  rw [List.getElem?_map]
  cases nodes[p]? <;> simp [GraphNode.setColor]

theorem length_resetColors (nodes : List GraphNode) :
    (resetColors nodes).length = nodes.length := by
  simp [resetColors]

theorem degAt_eq (nodes : List GraphNode) (p : Nat) :
    degAt nodes p = (neighborsAt nodes p).length := by
  unfold degAt neighborsAt
  cases nodes[p]? <;> simp [GraphNode.getDegree]

/-! ## isValidColor and the probe -/

theorem isValidColorLoop_iff (nodes : List GraphNode) (l : List Nat) (c : Int) :
    isValidColorLoop nodes l c = true ↔ ∀ p ∈ l, 0 ≤ colorAt nodes p → colorAt nodes p ≠ c := by
  induction l with
  | nil => simp [isValidColorLoop]
  | cons x rest ih =>
    simp only [isValidColorLoop, List.mem_cons, forall_eq_or_imp]
    by_cases h1 : colorAt nodes x < 0
    · simp only [h1, if_true, ih]
      constructor
      · intro h
        exact ⟨fun h0 => absurd h0 (by omega), h⟩
      · intro h
        exact h.2
    · by_cases h2 : colorAt nodes x = c
      · rw [if_neg h1, if_pos h2]
        constructor
        · intro h; cases h
        · intro h
          exact absurd h2 (h.1 (by omega))
      · rw [if_neg h1, if_neg h2, ih]
        constructor
        · intro h
          exact ⟨fun _ => h2, h⟩
        · intro h
          exact h.2

theorem validAt_iff (nodes : List GraphNode) (p : Nat) (c : Int) :
    validAt nodes p c = true ↔
      ∀ q ∈ neighborsAt nodes p, 0 ≤ colorAt nodes q → colorAt nodes q ≠ c := by
  unfold validAt neighborsAt
  cases nodes[p]? with
  | none => simp
  | some n => simp only [GraphNode.isValidColor, isValidColorLoop_iff]

theorem validAt_false_iff (nodes : List GraphNode) (p : Nat) (c : Int) :
    validAt nodes p c = false ↔ ∃ q ∈ neighborsAt nodes p, 0 ≤ colorAt nodes q ∧ colorAt nodes q = c := by
  rw [← Bool.not_eq_true, validAt_iff]
  push_neg
  rfl

theorem probeColor_spec (nodes : List GraphNode) (next : Nat) :
    ∀ (fuel : Nat) (c0 c : Int), probeColor nodes next fuel c0 = some c →
      c0 ≤ c ∧ validAt nodes next c = true ∧
        ∀ c', c0 ≤ c' → c' < c → validAt nodes next c' = false := by
  intro fuel
  induction fuel with
  | zero => intro c0 c h; simp [probeColor] at h
  | succ fuel ih =>
    intro c0 c h
    simp only [probeColor] at h
    by_cases hv : validAt nodes next c0 = true
    · simp only [hv, if_true, Option.some.injEq] at h
      subst h
      exact ⟨le_refl _, hv, fun c' h1 h2 => absurd h2 (by omega)⟩
    · simp only [hv] at h
      obtain ⟨h1, h2, h3⟩ := ih (c0 + 1) c h
      refine ⟨by omega, h2, ?_⟩
      intro c' hc1 hc2
      by_cases he : c' = c0
      · subst he; simpa using hv
      · exact h3 c' (by omega) hc2

theorem countP_lt_of_witness {α : Type} (P Q : α → Bool) (l : List α)
    (himp : ∀ x ∈ l, P x = true → Q x = true) (x : α) (hx : x ∈ l) (hq : Q x = true)
    (hp : P x = false) : l.countP P < l.countP Q := by
  induction l with
  | nil => simp at hx
  | cons y rest ih =>
    have hle : rest.countP P ≤ rest.countP Q :=
      List.countP_mono_left (fun z hz => himp z (List.mem_cons_of_mem _ hz))
    rcases List.mem_cons.mp hx with rfl | hmem
    · simp only [List.countP_cons, hq, hp, if_true]
      simp
      omega
    · have := ih (fun z hz => himp z (List.mem_cons_of_mem _ hz)) hmem
      simp only [List.countP_cons]
      have hy := himp y (List.mem_cons_self _ _)
      by_cases hpy : P y = true
      · simp [hpy, hy hpy]; omega
      · simp [hpy]; omega

theorem probeColor_some (nodes : List GraphNode) (next : Nat) :
    ∀ (fuel : Nat) (c0 : Int),
      (neighborsAt nodes next).countP (fun q => decide (c0 ≤ colorAt nodes q)) < fuel →
      ∃ c, probeColor nodes next fuel c0 = some c := by
  intro fuel
  induction fuel with
  | zero => intro c0 h; omega
  | succ fuel ih =>
    intro c0 h
    simp only [probeColor]
    by_cases hv : validAt nodes next c0 = true
    · exact ⟨c0, by simp [hv]⟩
    · simp only [hv]
      have hv2 : validAt nodes next c0 = false := by simpa using hv
      obtain ⟨q, hq, hq0, hqc⟩ := (validAt_false_iff nodes next c0).mp hv2
      have hlt := countP_lt_of_witness (fun q => decide (c0 + 1 ≤ colorAt nodes q))
        (fun q => decide (c0 ≤ colorAt nodes q)) (neighborsAt nodes next)
        (by intro x _ hx; simp at hx ⊢; omega) q hq (by simp; omega) (by simp; omega)
      exact ih (c0 + 1) (by omega)

theorem probeColor_of_degree (nodes : List GraphNode) (next fuel : Nat)
    (h : degAt nodes next < fuel) : ∃ c, probeColor nodes next fuel 0 = some c := by
  apply probeColor_some
  rw [degAt_eq] at h
  exact lt_of_le_of_lt (List.countP_le_length _) h

/-! ## The selection scan -/

theorem scan_succ (nodes : List GraphNode) (k : Nat) :
    (List.range (k + 1)).foldl (scanStep nodes) none
      = scanStep nodes ((List.range k).foldl (scanStep nodes) none) k := by
  rw [List.range_succ, List.foldl_append]
  rfl

theorem scan_none_iff (nodes : List GraphNode) (k : Nat) :
    (List.range k).foldl (scanStep nodes) none = none ↔ ∀ q < k, colorAt nodes q ≠ -1 := by
  induction k with
  | zero => simp
  | succ k ih =>
    rw [scan_succ]
    generalize (List.range k).foldl (scanStep nodes) none = prev at ih ⊢
    unfold scanStep
    by_cases hc : colorAt nodes k ≠ -1
    · rw [if_pos hc, ih]
      constructor
      · intro h q hq
        by_cases hqk : q = k
        · subst hqk; exact hc
        · exact h q (by omega)
      · intro h q hq
        exact h q (by omega)
    · rw [if_neg hc]
      constructor
      · intro h
        split at h
        · cases h
        · split_ifs at h
      · intro h
        exact absurd (h k (by omega)) hc

theorem scan_some (nodes : List GraphNode) (k p : Nat)
    (h : (List.range k).foldl (scanStep nodes) none = some p) :
    p < k ∧ colorAt nodes p = -1 ∧
      ∀ q < k, colorAt nodes q = -1 →
        (satAt nodes q < satAt nodes p ∨
            (satAt nodes q = satAt nodes p ∧ degAt nodes q ≤ degAt nodes p)) ∧
          (q < p → satAt nodes q < satAt nodes p ∨
            (satAt nodes q = satAt nodes p ∧ degAt nodes q < degAt nodes p)) := by
  induction k generalizing p with
  | zero => simp at h
  | succ k ih =>
    rw [scan_succ] at h
    have hnone := scan_none_iff nodes k
    generalize (List.range k).foldl (scanStep nodes) none = prev at ih h hnone
    unfold scanStep at h
    by_cases hc : colorAt nodes k ≠ -1
    · rw [if_pos hc] at h
      obtain ⟨h1, h2, h3⟩ := ih p h
      refine ⟨by omega, h2, ?_⟩
      intro q hq hqc
      have hqk : q ≠ k := fun e => hc (e ▸ hqc)
      exact h3 q (by omega) hqc
    · rw [if_neg hc] at h
      have hck : colorAt nodes k = -1 := by
        by_contra hne; exact hc hne
      cases prev with
      | none =>
        simp only [Option.some.injEq] at h
        subst h
        have hall := hnone.mp rfl
        refine ⟨by omega, hck, ?_⟩
        intro q hq hqc
        have hqk : q = k := by
          by_contra hne
          exact hall q (by omega) hqc
        subst hqk
        exact ⟨Or.inr ⟨rfl, le_refl _⟩, fun hlt => absurd hlt (lt_irrefl _)⟩
      | some nx =>
        obtain ⟨h1, h2, h3⟩ := ih nx rfl
        simp only at h
        by_cases hs : satAt nodes k > satAt nodes nx
        · rw [if_pos hs] at h
          simp only [Option.some.injEq] at h
          subst h
          refine ⟨by omega, hck, ?_⟩
          intro q hq hqc
          by_cases hqk : q = k
          · subst hqk
            exact ⟨Or.inr ⟨rfl, le_refl _⟩, fun hlt => absurd hlt (lt_irrefl _)⟩
          · have hq3 := (h3 q (by omega) hqc).1
            have : satAt nodes q < satAt nodes k := by
              rcases hq3 with hq3 | ⟨hq3, _⟩ <;> omega
            exact ⟨Or.inl this, fun _ => Or.inl this⟩
        · rw [if_neg hs] at h
          by_cases hd : satAt nodes k = satAt nodes nx ∧ degAt nodes k > degAt nodes nx
          · rw [if_pos hd] at h
            simp only [Option.some.injEq] at h
            subst h
            refine ⟨by omega, hck, ?_⟩
            intro q hq hqc
            by_cases hqk : q = k
            · subst hqk
              exact ⟨Or.inr ⟨rfl, le_refl _⟩, fun hlt => absurd hlt (lt_irrefl _)⟩
            · have hq3 := (h3 q (by omega) hqc).1
              have : satAt nodes q < satAt nodes k ∨
                  (satAt nodes q = satAt nodes k ∧ degAt nodes q < degAt nodes k) := by
                rcases hq3 with hq3 | ⟨hq3, hq4⟩
                · left; omega
                · right; exact ⟨by omega, by omega⟩
              refine ⟨?_, fun _ => this⟩
              rcases this with h5 | ⟨h5, h6⟩
              · exact Or.inl h5
              · exact Or.inr ⟨h5, by omega⟩
          · rw [if_neg hd] at h
            simp only [Option.some.injEq] at h
            subst h
            refine ⟨by omega, h2, ?_⟩
            intro q hq hqc
            by_cases hqk : q = k
            · subst hqk
              refine ⟨?_, fun hlt => absurd hlt (by omega)⟩
              by_cases h7 : satAt nodes q = satAt nodes nx
              · right
                refine ⟨h7, ?_⟩
                by_contra h8
                exact hd ⟨h7, by omega⟩
              · left; omega
            · exact h3 q (by omega) hqc

theorem selectNext_none_iff (nodes : List GraphNode) :
    selectNext nodes = none ↔ ∀ q < nodes.length, colorAt nodes q ≠ -1 :=
  scan_none_iff nodes nodes.length

theorem selectNext_some (nodes : List GraphNode) (p : Nat) (h : selectNext nodes = some p) :
    p < nodes.length ∧ colorAt nodes p = -1 :=
  ⟨(scan_some nodes _ p h).1, (scan_some nodes _ p h).2.1⟩


/-! ## The colouring loop: invariants -/

theorem colorLoop_induct (limit : Nat) (P : List GraphNode → Prop)
    (hstep : ∀ nodes next c, P nodes → selectNext nodes = some next →
      probeColor nodes next limit 0 = some c →
      P (updateNode nodes next (fun n => n.setColor c))) :
    ∀ (fuel : Nat) (nodes res : List GraphNode), P nodes →
      colorLoop limit fuel nodes = some res → P res ∧ selectNext res = none := by
  intro fuel
  induction fuel with
  | zero => intro nodes res _ h; simp [colorLoop] at h
  | succ fuel ih =>
    intro nodes res hP h
    simp only [colorLoop] at h
    cases hsel : selectNext nodes with
    | none =>
      rw [hsel] at h
      simp only [Option.some.injEq] at h
      subst h
      exact ⟨hP, hsel⟩
    | some next =>
      rw [hsel] at h
      simp only at h
      cases hpr : probeColor nodes next limit 0 with
      | none => rw [hpr] at h; simp at h
      | some c =>
        rw [hpr] at h
        simp only at h
        exact ih _ res (hstep nodes next c hP hsel hpr) h

theorem index_setColor (nodes : List GraphNode) (p q : Nat) (c : Int) :
    ((updateNode nodes p (fun n => n.setColor c))[q]?).map GraphNode.index
      = (nodes[q]?).map GraphNode.index := by
  rw [getElem?_updateNode]
  by_cases hq : q = p
  · subst hq
    cases nodes[q]? <;> simp [GraphNode.setColor]
  · simp [hq]

theorem neighbors_setColor (nodes : List GraphNode) (p q : Nat) (c : Int) :
    ((updateNode nodes p (fun n => n.setColor c))[q]?).map GraphNode.neighbors
      = (nodes[q]?).map GraphNode.neighbors := by
  rw [getElem?_updateNode]
  by_cases hq : q = p
  · subst hq
    cases nodes[q]? <;> simp [GraphNode.setColor]
  · simp [hq]

/-- The loop never touches an index or a neighbour list. -/
theorem colorLoop_shape (limit fuel : Nat) (nodes res : List GraphNode)
    (h : colorLoop limit fuel nodes = some res) :
    res.map GraphNode.index = nodes.map GraphNode.index ∧
      res.map GraphNode.neighbors = nodes.map GraphNode.neighbors := by
  have key := colorLoop_induct limit
    (fun cur => cur.map GraphNode.index = nodes.map GraphNode.index ∧
      cur.map GraphNode.neighbors = nodes.map GraphNode.neighbors)
    (by
      intro cur next c hP _ _
      constructor
      · rw [← hP.1]
        apply List.ext_getElem?
        intro q
        rw [List.getElem?_map, List.getElem?_map, index_setColor]
      · rw [← hP.2]
        apply List.ext_getElem?
        intro q
        rw [List.getElem?_map, List.getElem?_map, neighbors_setColor])
    fuel nodes res ⟨rfl, rfl⟩ h
  exact key.1

theorem neighborsAt_of_map_eq (a b : List GraphNode)
    (h : a.map GraphNode.neighbors = b.map GraphNode.neighbors) (p : Nat) :
    neighborsAt a p = neighborsAt b p := by
  have h2 : (a.map GraphNode.neighbors)[p]? = (b.map GraphNode.neighbors)[p]? := by rw [h]
  rw [List.getElem?_map, List.getElem?_map] at h2
  unfold neighborsAt
  cases ha : a[p]? <;> cases hb : b[p]? <;> simp_all

theorem length_of_map_eq (a b : List GraphNode)
    (h : a.map GraphNode.neighbors = b.map GraphNode.neighbors) : a.length = b.length := by
  have := congrArg List.length h
  simpa using this

/-- Colors stay in `{-1} ∪ ℕ` once they are. -/
theorem colorLoop_colors (limit fuel : Nat) (nodes res : List GraphNode)
    (h0 : ∀ p, colorAt nodes p = -1 ∨ 0 ≤ colorAt nodes p)
    (h : colorLoop limit fuel nodes = some res) :
    ∀ p < res.length, 0 ≤ colorAt res p := by
  have key := colorLoop_induct limit
    (fun cur => ∀ p, colorAt cur p = -1 ∨ 0 ≤ colorAt cur p)
    (by
      intro cur next c hP _ hpr p
      rw [colorAt_setColor]
      have hc := (probeColor_spec cur next limit 0 c hpr).1
      split
      · exact Or.inr hc
      · exact hP p)
    fuel nodes res h0 h
  intro p hp
  rcases key.1 p with h1 | h1
  · exact absurd h1 ((selectNext_none_iff res).mp key.2 p hp)
  · exact h1

/-- The partial colouring stays proper on a symmetric, irreflexive graph. -/
theorem colorLoop_proper (limit fuel : Nat) (nodes res : List GraphNode)
    (hsym : ∀ u v, v ∈ neighborsAt nodes u → u ∈ neighborsAt nodes v)
    (hirr : ∀ u, u ∉ neighborsAt nodes u)
    (h0 : ∀ u v, v ∈ neighborsAt nodes u → 0 ≤ colorAt nodes u → 0 ≤ colorAt nodes v →
      colorAt nodes u ≠ colorAt nodes v)
    (h : colorLoop limit fuel nodes = some res) :
    ∀ u v, v ∈ neighborsAt res u → 0 ≤ colorAt res u → 0 ≤ colorAt res v →
      colorAt res u ≠ colorAt res v := by
  have key := colorLoop_induct limit
    (fun cur => (∀ p, neighborsAt cur p = neighborsAt nodes p) ∧
      ∀ u v, v ∈ neighborsAt cur u → 0 ≤ colorAt cur u → 0 ≤ colorAt cur v →
        colorAt cur u ≠ colorAt cur v)
    (by
      intro cur next c hP hsel hpr
      obtain ⟨hN, hC⟩ := hP
      have hnb : ∀ p, neighborsAt (updateNode cur next (fun n => n.setColor c)) p
          = neighborsAt nodes p := by
        intro p; rw [neighborsAt_setColor, hN]
      refine ⟨hnb, ?_⟩
      obtain ⟨hlen, hun⟩ := selectNext_some cur next hsel
      obtain ⟨hc0, hval, _⟩ := probeColor_spec cur next limit 0 c hpr
      rw [validAt_iff] at hval
      intro u v huv
      rw [hnb] at huv
      rw [colorAt_setColor, colorAt_setColor]
      by_cases hu : u = next
      · by_cases hv : v = next
        · subst hu; subst hv
          exact absurd huv (hirr _)
        · subst hu
          simp only [hlen, and_self, if_true, hv, false_and, if_false]
          intro _ hv0 heq
          exact hval v (by rw [hN]; exact huv) hv0 heq.symm
      · by_cases hv : v = next
        · subst hv
          simp only [hlen, and_self, if_true, hu, false_and, if_false]
          intro hu0 _ heq
          exact hval u (by rw [hN]; exact hsym u v huv) hu0 heq
        · simp only [hu, hv, false_and, if_false]
          exact hC u v (by rw [hN]; exact huv))
    fuel nodes res ⟨fun _ => rfl, h0⟩ h
  exact key.1.2

/-- No color value is skipped: every value below a used color is used. -/
theorem colorLoop_contiguous (limit fuel : Nat) (nodes res : List GraphNode)
    (h0 : ∀ u c, 0 ≤ c → c < colorAt nodes u → ∃ v, colorAt nodes v = c)
    (h : colorLoop limit fuel nodes = some res) :
    ∀ u c, 0 ≤ c → c < colorAt res u → ∃ v, colorAt res v = c := by
  have key := colorLoop_induct limit
    (fun cur => ∀ u c, 0 ≤ c → c < colorAt cur u → ∃ v, colorAt cur v = c)
    (by
      intro cur next c hP hsel hpr
      obtain ⟨hlen, hun⟩ := selectNext_some cur next hsel
      obtain ⟨hc0, _, hlow⟩ := probeColor_spec cur next limit 0 c hpr
      have keep : ∀ v k, 0 ≤ k → colorAt cur v = k →
          colorAt (updateNode cur next (fun n => n.setColor c)) v = k := by
        intro v k hk hv
        rw [colorAt_setColor]
        have : v ≠ next := by
          intro e; subst e; omega
        simp [this, hv]
      intro u k hk hku
      rw [colorAt_setColor] at hku
      by_cases hu : u = next ∧ next < cur.length
      · rw [if_pos hu] at hku
        obtain ⟨q, _, _, hq⟩ := (validAt_false_iff cur next k).mp (hlow k hk hku)
        exact ⟨q, keep q k hk hq⟩
      · rw [if_neg hu] at hku
        obtain ⟨v, hv⟩ := hP u k hk hku
        exact ⟨v, keep v k hk hv⟩)
    fuel nodes res h0 h
  exact key.1


/-! ## The colouring loop: termination -/

theorem uncoloredCount_eq_zero_iff (nodes : List GraphNode) :
    uncoloredCount nodes = 0 ↔ ∀ q < nodes.length, colorAt nodes q ≠ -1 := by
  unfold uncoloredCount
  rw [List.countP_eq_zero]
  constructor
  · intro h q hq hc
    have hmem : nodes[q] ∈ nodes := List.getElem_mem hq
    have := h _ hmem
    unfold colorAt at hc
    rw [List.getElem?_eq_getElem hq] at hc
    simp only at hc
    simp [hc] at this
  · intro h n hn
    obtain ⟨q, hq, rfl⟩ := List.getElem_of_mem hn
    have := h q hq
    unfold colorAt at this
    rw [List.getElem?_eq_getElem hq] at this
    simpa using this

theorem uncoloredCount_setColor (nodes : List GraphNode) (next : Nat) (c : Int)
    (hlen : next < nodes.length) (hun : colorAt nodes next = -1) (hc : 0 ≤ c) :
    uncoloredCount (updateNode nodes next (fun n => n.setColor c)) + 1
      = uncoloredCount nodes := by
  unfold uncoloredCount updateNode
  rw [List.getElem?_eq_getElem hlen]
  simp only
  rw [List.countP_set _ _ _ _ hlen]
  unfold colorAt at hun
  rw [List.getElem?_eq_getElem hlen] at hun
  simp only at hun
  have h1 : (nodes[next].getColor == -1) = true := by simp [hun]
  have h2 : ((nodes[next].setColor c).getColor == -1) = false := by
    simp only [GraphNode.setColor, GraphNode.getColor, beq_eq_false_iff_ne]
    omega
  have h3 := List.boole_getElem_le_countP (fun n : GraphNode => n.getColor == -1) nodes next hlen
  rw [h1] at h3 ⊢
  rw [h2]
  simp only [if_true] at h3
  simp
  omega

theorem uncoloredCount_resetColors (nodes : List GraphNode) :
    uncoloredCount (resetColors nodes) = nodes.length := by
  unfold uncoloredCount resetColors
  rw [List.countP_map]
  rw [List.countP_eq_length]
  intro n _
  simp [GraphNode.setColor, GraphNode.getColor]

theorem degAt_setColor (nodes : List GraphNode) (p q : Nat) (c : Int) :
    degAt (updateNode nodes p (fun n => n.setColor c)) q = degAt nodes q := by
  rw [degAt_eq, degAt_eq, neighborsAt_setColor]

theorem degAt_resetColors (nodes : List GraphNode) (p : Nat) :
    degAt (resetColors nodes) p = degAt nodes p := by
  rw [degAt_eq, degAt_eq, neighborsAt_resetColors]

/-- With a probe budget above every degree, the loop returns exactly when its
scan budget exceeds the number of uncolored nodes: one scan per uncolored node
and the final scan that finds none. -/
theorem colorLoop_isSome_iff (limit : Nat) :
    ∀ (fuel : Nat) (nodes : List GraphNode), (∀ p < nodes.length, degAt nodes p < limit) →
      ((colorLoop limit fuel nodes).isSome = true ↔ uncoloredCount nodes < fuel) := by
  intro fuel
  induction fuel with
  | zero => intro nodes _; simp [colorLoop]
  | succ fuel ih =>
    intro nodes hdeg
    simp only [colorLoop]
    cases hsel : selectNext nodes with
    | none =>
      have := (uncoloredCount_eq_zero_iff nodes).mpr ((selectNext_none_iff nodes).mp hsel)
      simp [this]
    | some next =>
      obtain ⟨hlen, hun⟩ := selectNext_some nodes next hsel
      obtain ⟨c, hc⟩ := probeColor_of_degree nodes next limit (hdeg next hlen)
      have hc0 := (probeColor_spec nodes next limit 0 c hc).1
      simp only [hc]
      rw [ih _ (fun p hp => by
        rw [degAt_setColor]
        rw [length_updateNode] at hp
        exact hdeg p hp)]
      have := uncoloredCount_setColor nodes next c hlen hun hc0
      omega

theorem degAt_lt_of_forall (nodes : List GraphNode) (limit : Nat)
    (h : ∀ n ∈ nodes, n.getDegree < limit) (p : Nat) (hp : p < nodes.length) :
    degAt nodes p < limit := by
  unfold degAt
  rw [List.getElem?_eq_getElem hp]
  exact h _ (List.getElem_mem hp)


/-! ## getColorSets -/

theorem maxColorLoop_none_iff (nodes : List GraphNode) :
    ∀ m : Int, maxColorLoop nodes m = none ↔ ∃ n ∈ nodes, n.color < 0 := by
  induction nodes with
  | nil => intro m; simp [maxColorLoop]
  | cons x rest ih =>
    intro m
    simp only [maxColorLoop, GraphNode.getColor, List.mem_cons, exists_eq_or_imp]
    by_cases h1 : x.color < 0
    · simp [h1]
    · rw [if_neg h1]
      by_cases h2 : x.color > m
      · rw [if_pos h2, ih]; simp [h1]
      · rw [if_neg h2, ih]; simp [h1]

theorem maxColorLoop_some (nodes : List GraphNode) :
    ∀ m M : Int, maxColorLoop nodes m = some M →
      m ≤ M ∧ (∀ n ∈ nodes, 0 ≤ n.color ∧ n.color ≤ M) ∧
        (M = m ∨ ∃ n ∈ nodes, n.color = M) := by
  induction nodes with
  | nil =>
    intro m M h
    simp only [maxColorLoop, Option.some.injEq] at h
    subst h
    simp
  | cons x rest ih =>
    intro m M h
    simp only [maxColorLoop, GraphNode.getColor] at h
    by_cases h1 : x.color < 0
    · rw [if_pos h1] at h; cases h
    · rw [if_neg h1] at h
      by_cases h2 : x.color > m
      · rw [if_pos h2] at h
        obtain ⟨a, b, c⟩ := ih _ _ h
        refine ⟨by omega, ?_, ?_⟩
        · intro n hn
          rcases List.mem_cons.mp hn with rfl | hn
          · exact ⟨by omega, a⟩
          · exact b n hn
        · right
          rcases c with c | ⟨n, hn, hc⟩
          · exact ⟨x, List.mem_cons_self _ _, c.symm⟩
          · exact ⟨n, List.mem_cons_of_mem _ hn, hc⟩
      · rw [if_neg h2] at h
        obtain ⟨a, b, c⟩ := ih _ _ h
        refine ⟨a, ?_, ?_⟩
        · intro n hn
          rcases List.mem_cons.mp hn with rfl | hn
          · exact ⟨by omega, by omega⟩
          · exact b n hn
        · rcases c with c | ⟨n, hn, hc⟩
          · exact Or.inl c
          · exact Or.inr ⟨n, List.mem_cons_of_mem _ hn, hc⟩

theorem colorSet_eq_filter (nodes : List GraphNode) (c : Int) :
    colorSet nodes c = (nodes.filter (fun n => decide (n.color = c))).map GraphNode.index := by
  induction nodes with
  | nil => simp [colorSet]
  | cons x rest ih =>
    simp only [colorSet, GraphNode.getColor, GraphNode.getIndex, List.filter_cons]
    by_cases h : x.color = c
    · simp [h, ih]
    · simp [h, ih]

/-- On a fully colored graph `getColorSets` returns one group per color value
from `0` to the largest color found by its scan. -/
theorem getColorSets_some (g : Graph) (h : ∀ n ∈ g.nodes, 0 ≤ n.color) :
    ∃ M : Nat, maxColorLoop g.nodes 0 = some (M : Int) ∧
      g.getColorSets = some ((List.range (M + 1)).map (fun c : Nat => colorSet g.nodes (c : Int))) := by
  cases hm : maxColorLoop g.nodes 0 with
  | none =>
    obtain ⟨n, hn, hc⟩ := (maxColorLoop_none_iff g.nodes 0).mp hm
    exact absurd (h n hn) (by omega)
  | some M =>
    obtain ⟨h0, _, _⟩ := maxColorLoop_some g.nodes 0 M hm
    refine ⟨M.toNat, ?_, ?_⟩
    · rw [Int.toNat_of_nonneg h0]
    · simp only [Graph.getColorSets, hm]

theorem join_colorSet_cons (x : GraphNode) (rest : List GraphNode) (cs : List Nat)
    (hcs : cs.Nodup) :
    List.Perm ((cs.map (fun c : Nat => colorSet (x :: rest) (c : Int))).flatten)
      ((if x.color ∈ cs.map (fun c : Nat => (c : Int)) then [x.index] else [])
        ++ (cs.map (fun c : Nat => colorSet rest (c : Int))).flatten) := by
  induction cs with
  | nil => simp
  | cons c cs ih =>
    have hnd := List.nodup_cons.mp hcs
    have ih2 := ih hnd.2
    simp only [List.map_cons, List.flatten_cons, List.mem_cons]
    by_cases hc : x.color = (c : Int)
    · have hnot : x.color ∉ cs.map (fun c : Nat => (c : Int)) := by
        intro hmem
        obtain ⟨d, hd, hdc⟩ := List.mem_map.mp hmem
        have : d = c := by
          have : (d : Int) = (c : Int) := by rw [hdc, hc]
          exact_mod_cast this
        exact hnd.1 (this ▸ hd)
      rw [if_neg hnot] at ih2
      rw [if_pos (Or.inl hc)]
      have hcs1 : colorSet (x :: rest) (c : Int) = x.index :: colorSet rest (c : Int) := by
        simp [colorSet, GraphNode.getColor, GraphNode.getIndex, hc]
      rw [hcs1]
      simp only [List.nil_append] at ih2
      simp only [List.singleton_append, List.cons_append]
      exact List.Perm.cons _ (List.Perm.append_left _ ih2)
    · have hcs1 : colorSet (x :: rest) (c : Int) = colorSet rest (c : Int) := by
        simp [colorSet, GraphNode.getColor, hc]
      rw [hcs1]
      by_cases hmem : x.color ∈ cs.map (fun c : Nat => (c : Int))
      · rw [if_pos hmem] at ih2
        rw [if_pos (Or.inr hmem)]
        refine List.Perm.trans (List.Perm.append_left _ ih2) ?_
        simp only [List.singleton_append]
        exact List.perm_middle
      · rw [if_neg hmem] at ih2
        have hno : ¬ (x.color = (c : Int) ∨ x.color ∈ cs.map (fun c : Nat => (c : Int))) := by
          intro h
          rcases h with h | h
          · exact hc h
          · exact hmem h
        rw [if_neg hno]
        simp only [List.nil_append] at ih2 ⊢
        exact List.Perm.append_left _ ih2

theorem join_colorSets_perm (nodes : List GraphNode) (M : Nat)
    (h : ∀ n ∈ nodes, 0 ≤ n.color ∧ n.color ≤ (M : Int)) :
    List.Perm (((List.range (M + 1)).map (fun c : Nat => colorSet nodes (c : Int))).flatten)
      (nodes.map GraphNode.index) := by
  induction nodes with
  | nil =>
    have : ∀ l : List Nat, (l.map (fun c : Nat => colorSet [] (c : Int))).flatten = [] := by
      intro l
      induction l with
      | nil => rfl
      | cons a l ih => simp [colorSet, ih]
    rw [this]
    simp
  | cons x rest ih =>
    have hx := h x (List.mem_cons_self _ _)
    have hmem : x.color ∈ (List.range (M + 1)).map (fun c : Nat => (c : Int)) := by
      refine List.mem_map.mpr ⟨x.color.toNat, ?_, ?_⟩
      · rw [List.mem_range]; omega
      · exact Int.toNat_of_nonneg hx.1
    have key := join_colorSet_cons x rest (List.range (M + 1)) (List.nodup_range _)
    rw [if_pos hmem] at key
    refine key.trans ?_
    simp only [List.singleton_append, List.map_cons]
    exact List.Perm.cons _ (ih (fun n hn => h n (List.mem_cons_of_mem _ hn)))


/-! ## Building the conflict graph -/

theorem length_pushNeighbor (nodes : List GraphNode) (a b : Nat) :
    (pushNeighbor nodes a b).length = nodes.length := by
  unfold pushNeighbor
  split
  · rfl
  · exact length_updateNode _ _ _

theorem index_pushNeighbor (nodes : List GraphNode) (a b : Nat) :
    (pushNeighbor nodes a b).map GraphNode.index = nodes.map GraphNode.index := by
  unfold pushNeighbor
  split
  · rfl
  · apply List.ext_getElem?
    intro q
    rw [List.getElem?_map, List.getElem?_map, getElem?_updateNode]
    by_cases hq : q = a
    · subst hq; cases nodes[q]? <;> simp
    · simp [hq]

theorem color_pushNeighbor (nodes : List GraphNode) (a b : Nat) :
    (pushNeighbor nodes a b).map GraphNode.color = nodes.map GraphNode.color := by
  unfold pushNeighbor
  split
  · rfl
  · apply List.ext_getElem?
    intro q
    rw [List.getElem?_map, List.getElem?_map, getElem?_updateNode]
    by_cases hq : q = a
    · subst hq; cases nodes[q]? <;> simp
    · simp [hq]

theorem mem_neighborsAt_pushNeighbor (nodes : List GraphNode) (a b : Nat)
    (ha : a < nodes.length) (s r : Nat) :
    r ∈ neighborsAt (pushNeighbor nodes a b) s ↔
      r ∈ neighborsAt nodes s ∨ (s = a ∧ r = b) := by
  have hget : nodes[a]? = some nodes[a] := List.getElem?_eq_getElem ha
  unfold pushNeighbor
  by_cases hin : (nodes[a]?.map (fun n => n.isNeighbor b)) = some true
  · rw [if_pos hin]
    constructor
    · intro h; exact Or.inl h
    · intro h
      rcases h with h | ⟨rfl, rfl⟩
      · exact h
      · rw [hget] at hin
        simp only [Option.map_some', Option.some.injEq, GraphNode.isNeighbor] at hin
        unfold neighborsAt
        rw [hget]
        simpa using hin
  · rw [if_neg hin]
    unfold neighborsAt
    rw [getElem?_updateNode]
    by_cases hs : s = a
    · subst hs
      rw [if_pos rfl, hget]
      simp only [Option.map_some', List.mem_append, List.mem_singleton, true_and]
    · rw [if_neg hs]
      simp [hs]

theorem length_addNeighbor (nodes : List GraphNode) (a b : Nat) :
    (addNeighbor nodes a b).2.length = nodes.length := by
  simp only [addNeighbor, length_pushNeighbor]

theorem index_addNeighbor (nodes : List GraphNode) (a b : Nat) :
    (addNeighbor nodes a b).2.map GraphNode.index = nodes.map GraphNode.index := by
  simp only [addNeighbor, index_pushNeighbor]

theorem color_addNeighbor (nodes : List GraphNode) (a b : Nat) :
    (addNeighbor nodes a b).2.map GraphNode.color = nodes.map GraphNode.color := by
  simp only [addNeighbor, color_pushNeighbor]

theorem mem_neighborsAt_addNeighbor (nodes : List GraphNode) (a b : Nat)
    (ha : a < nodes.length) (hb : b < nodes.length) (s r : Nat) :
    r ∈ neighborsAt (addNeighbor nodes a b).2 s ↔
      r ∈ neighborsAt nodes s ∨ (s = a ∧ r = b) ∨ (s = b ∧ r = a) := by
  simp only [addNeighbor]
  rw [mem_neighborsAt_pushNeighbor _ _ _ (by rw [length_pushNeighbor]; exact hb),
    mem_neighborsAt_pushNeighbor _ _ _ ha]
  tauto

theorem nodup_pushNeighbor (nodes : List GraphNode) (a b : Nat)
    (h : ∀ p, (neighborsAt nodes p).Nodup) :
    ∀ p, (neighborsAt (pushNeighbor nodes a b) p).Nodup := by
  intro p
  unfold pushNeighbor
  by_cases hin : (nodes[a]?.map (fun n => n.isNeighbor b)) = some true
  · rw [if_pos hin]; exact h p
  · rw [if_neg hin]
    have hp := h p
    unfold neighborsAt at hp ⊢
    rw [getElem?_updateNode]
    by_cases hpa : p = a
    · subst hpa
      rw [if_pos rfl]
      cases hn : nodes[p]? with
      | none => simp
      | some n =>
        rw [hn] at hin hp
        simp only [Option.map_some', Option.some.injEq, GraphNode.isNeighbor] at hin
        simp only [Option.map_some'] at hp ⊢
        rw [List.nodup_append]
        refine ⟨hp, List.nodup_singleton _, ?_⟩
        intro x hx hxb
        rw [List.mem_singleton] at hxb
        subst hxb
        exact hin (by simpa using hx)
    · rw [if_neg hpa]; exact hp

theorem nodup_addNeighbor (nodes : List GraphNode) (a b : Nat)
    (h : ∀ p, (neighborsAt nodes p).Nodup) :
    ∀ p, (neighborsAt (addNeighbor nodes a b).2 p).Nodup := by
  simp only [addNeighbor]
  exact nodup_pushNeighbor _ _ _ (nodup_pushNeighbor _ _ _ h)

/-- The nodes are stored in index order `0 .. n-1`. -/
theorem findNode_of_ordered (g : Graph) (n : Nat)
    (hord : g.nodes.map GraphNode.index = (List.range n).map (fun i : Nat => (i : Int)))
    (i : Nat) (hi : i < n) : g.findNode (i : Int) = some i := by
  have hlen : g.nodes.length = n := by
    have := congrArg List.length hord
    simpa using this
  have hidx : ∀ (k : Nat) (hk : k < g.nodes.length), (g.nodes[k]).index = (k : Int) := by
    intro k hk
    have h1 : (g.nodes.map GraphNode.index)[k]? = ((List.range n).map (fun i : Nat => (i : Int)))[k]? := by
      rw [hord]
    rw [List.getElem?_map, List.getElem?_map, List.getElem?_eq_getElem hk,
      List.getElem?_range (by omega)] at h1
    simpa using h1
  unfold Graph.findNode
  rw [List.findIdx?_eq_some_iff_getElem]
  refine ⟨by omega, ?_, ?_⟩
  · simp [GraphNode.getIndex, hidx i (by omega)]
  · intro j hj
    simp only [GraphNode.getIndex, hidx j (by omega), beq_iff_eq, Nat.cast_inj]
    omega

theorem addEdge_of_ordered (g : Graph) (n : Nat)
    (hord : g.nodes.map GraphNode.index = (List.range n).map (fun i : Nat => (i : Int)))
    (i j : Nat) (hi : i < n) (hj : j < n) :
    g.addEdge (i : Int) (j : Int) = some { nodes := (addNeighbor g.nodes i j).2 } := by
  unfold Graph.addEdge
  rw [findNode_of_ordered g n hord i hi, findNode_of_ordered g n hord j hj]

theorem addNodes_succ (g : Graph) (n : Nat) :
    addNodes g (n + 1) = ((addNodes g n).addNode (n : Int)).2 := by
  unfold addNodes
  rw [List.range_succ, List.foldl_append]
  rfl

theorem addNodes_empty (n : Nat) :
    (addNodes Graph.empty n).nodes = (List.range n).map (fun i : Nat => GraphNode.new (i : Int)) := by
  induction n with
  | zero => rfl
  | succ n ih =>
    rw [addNodes_succ]
    have hno : (addNodes Graph.empty n).containsNode (n : Int) = false := by
      unfold Graph.containsNode
      rw [ih, List.any_eq_false]
      intro x hx
      obtain ⟨i, hi, rfl⟩ := List.mem_map.mp hx
      rw [List.mem_range] at hi
      simp only [GraphNode.getIndex, GraphNode.new, beq_iff_eq, Nat.cast_inj]
      omega
    simp only [Graph.addNode, hno, Bool.false_eq_true, if_false]
    rw [ih, List.range_succ, List.map_append]
    rfl

theorem collideRow_spec {α : Type} [LT α] [DecidableRel (fun a b : α => a < b)]
    (self : AABB α) (i n : Nat) (hi : i < n) :
    ∀ (rest : List (AABB α)) (j : Nat) (g : Graph),
      g.nodes.map GraphNode.index = (List.range n).map (fun k : Nat => (k : Int)) →
      j + rest.length ≤ n →
      ∃ g', collideRow self i rest j g = some g' ∧
        g'.nodes.map GraphNode.index = g.nodes.map GraphNode.index ∧
        g'.nodes.map GraphNode.color = g.nodes.map GraphNode.color ∧
        ((∀ p, (neighborsAt g.nodes p).Nodup) → ∀ p, (neighborsAt g'.nodes p).Nodup) ∧
        ∀ s r, r ∈ neighborsAt g'.nodes s ↔
          (r ∈ neighborsAt g.nodes s ∨
            ∃ m b, rest[m]? = some b ∧ self.intersects b = true ∧
              ((s = i ∧ r = j + m) ∨ (s = j + m ∧ r = i))) := by
  intro rest
  induction rest with
  | nil =>
    intro j g _ _
    refine ⟨g, rfl, rfl, rfl, fun h => h, ?_⟩
    intro s r
    simp
  | cons b rest ih =>
    intro j g hord hlen
    have hlen2 : j + 1 + rest.length ≤ n := by
      simp only [List.length_cons] at hlen; omega
    have hjn : j < n := by
      simp only [List.length_cons] at hlen; omega
    have hgl : g.nodes.length = n := by
      have := congrArg List.length hord
      simpa using this
    simp only [collideRow]
    by_cases hint : self.intersects b = true
    · rw [if_pos hint, addEdge_of_ordered g n hord i j hi hjn]
      simp only
      have hord1 : (addNeighbor g.nodes i j).2.map GraphNode.index
          = (List.range n).map (fun k : Nat => (k : Int)) := by
        rw [index_addNeighbor]; exact hord
      obtain ⟨g', h1, h2, h3, hn, h4⟩ := ih (j + 1) { nodes := (addNeighbor g.nodes i j).2 } hord1 hlen2
      refine ⟨g', h1, ?_, ?_, ?_, ?_⟩
      · rw [h2]; exact index_addNeighbor _ _ _
      · rw [h3]; exact color_addNeighbor _ _ _
      · intro hnd; exact hn (nodup_addNeighbor _ _ _ hnd)
      · intro s r
        rw [h4, mem_neighborsAt_addNeighbor _ _ _ (by omega) (by omega)]
        constructor
        · intro h
          rcases h with (h | h | h) | ⟨m, b', hm, hb, hsr⟩
          · exact Or.inl h
          · exact Or.inr ⟨0, b, by simp, hint, Or.inl ⟨h.1, by omega⟩⟩
          · exact Or.inr ⟨0, b, by simp, hint, Or.inr ⟨by omega, h.2⟩⟩
          · refine Or.inr ⟨m + 1, b', by simpa using hm, hb, ?_⟩
            rcases hsr with hsr | hsr
            · exact Or.inl ⟨hsr.1, by omega⟩
            · exact Or.inr ⟨by omega, hsr.2⟩
        · intro h
          rcases h with h | ⟨m, b', hm, hb, hsr⟩
          · exact Or.inl (Or.inl h)
          · cases m with
            | zero =>
              rcases hsr with hsr | hsr
              · exact Or.inl (Or.inr (Or.inl ⟨hsr.1, by omega⟩))
              · exact Or.inl (Or.inr (Or.inr ⟨by omega, hsr.2⟩))
            | succ m =>
              refine Or.inr ⟨m, b', by simpa using hm, hb, ?_⟩
              rcases hsr with hsr | hsr
              · exact Or.inl ⟨hsr.1, by omega⟩
              · exact Or.inr ⟨by omega, hsr.2⟩
    · rw [if_neg hint]
      obtain ⟨g', h1, h2, h3, hn, h4⟩ := ih (j + 1) g hord hlen2
      refine ⟨g', h1, h2, h3, hn, ?_⟩
      intro s r
      rw [h4]
      constructor
      · intro h
        rcases h with h | ⟨m, b', hm, hb, hsr⟩
        · exact Or.inl h
        · refine Or.inr ⟨m + 1, b', by simpa using hm, hb, ?_⟩
          rcases hsr with hsr | hsr
          · exact Or.inl ⟨hsr.1, by omega⟩
          · exact Or.inr ⟨by omega, hsr.2⟩
      · intro h
        rcases h with h | ⟨m, b', hm, hb, hsr⟩
        · exact Or.inl h
        · cases m with
          | zero =>
            simp only [List.getElem?_cons_zero, Option.some.injEq] at hm
            subst hm
            exact absurd hb hint
          | succ m =>
            refine Or.inr ⟨m, b', by simpa using hm, hb, ?_⟩
            rcases hsr with hsr | hsr
            · exact Or.inl ⟨hsr.1, by omega⟩
            · exact Or.inr ⟨by omega, hsr.2⟩

theorem collideAll_spec {α : Type} [LT α] [DecidableRel (fun a b : α => a < b)]
    (AABBs : List (AABB α)) :
    ∀ (rest : List (AABB α)) (i : Nat) (g : Graph),
      AABBs.drop i = rest →
      g.nodes.map GraphNode.index = (List.range AABBs.length).map (fun k : Nat => (k : Int)) →
      ∃ g', collideAll AABBs rest i g = some g' ∧
        g'.nodes.map GraphNode.index = g.nodes.map GraphNode.index ∧
        g'.nodes.map GraphNode.color = g.nodes.map GraphNode.color ∧
        ((∀ p, (neighborsAt g.nodes p).Nodup) → ∀ p, (neighborsAt g'.nodes p).Nodup) ∧
        ∀ s r, r ∈ neighborsAt g'.nodes s ↔
          (r ∈ neighborsAt g.nodes s ∨
            ∃ i' j' a b, i ≤ i' ∧ j' < i' ∧ AABBs[i']? = some a ∧ AABBs[j']? = some b ∧
              a.intersects b = true ∧ ((s = i' ∧ r = j') ∨ (s = j' ∧ r = i'))) := by
  intro rest
  induction rest with
  | nil =>
    intro i g hdrop _
    refine ⟨g, rfl, rfl, rfl, fun h => h, ?_⟩
    intro s r
    constructor
    · intro h; exact Or.inl h
    · intro h
      rcases h with h | ⟨i', j', a, b, h1, _, h3, _⟩
      · exact h
      · have hlen := List.drop_eq_nil_iff.mp hdrop
        have : AABBs[i']? = none := List.getElem?_eq_none (by omega)
        rw [this] at h3
        cases h3
  | cons self rest ih =>
    intro i g hdrop hord
    have hself : AABBs[i]? = some self := by
      have := List.getElem?_drop AABBs i 0
      rw [hdrop] at this
      simpa using this.symm
    have hi : i < AABBs.length := by
      rcases List.getElem?_eq_some_iff.mp hself with ⟨h, _⟩
      exact h
    have hrest : AABBs.drop (i + 1) = rest := by
      rw [← List.drop_drop, hdrop]
      rfl
    obtain ⟨g1, r1, r2, r3, rn, r4⟩ := collideRow_spec self i AABBs.length hi (AABBs.take i) 0 g hord
      (by rw [List.length_take]; omega)
    obtain ⟨g', a1, a2, a3, an, a4⟩ := ih (i + 1) g1 hrest (by rw [r2]; exact hord)
    simp only [collideAll, r1]
    refine ⟨g', a1, by rw [a2, r2], by rw [a3, r3], fun h => an (rn h), ?_⟩
    intro s r
    rw [a4, r4]
    constructor
    · intro h
      rcases h with (h | ⟨m, b, hm, hb, hsr⟩) | ⟨i', j', a, b, h1, h2, h3, h4, h5, h6⟩
      · exact Or.inl h
      · rw [List.getElem?_take] at hm
        have hmi : m < i := by
          by_contra hne
          rw [if_neg hne] at hm
          cases hm
        rw [if_pos hmi] at hm
        refine Or.inr ⟨i, m, self, b, le_refl _, hmi, hself, hm, hb, ?_⟩
        simpa using hsr
      · exact Or.inr ⟨i', j', a, b, by omega, h2, h3, h4, h5, h6⟩
    · intro h
      rcases h with h | ⟨i', j', a, b, h1, h2, h3, h4, h5, h6⟩
      · exact Or.inl (Or.inl h)
      · by_cases hii : i' = i
        · subst hii
          rw [hself] at h3
          simp only [Option.some.injEq] at h3
          subst h3
          refine Or.inl (Or.inr ⟨j', b, ?_, h5, by simpa using h6⟩)
          rw [List.getElem?_take, if_pos h2]
          exact h4
        · exact Or.inr ⟨i', j', a, b, by omega, h2, h3, h4, h5, h6⟩

theorem intersects_comm {α : Type} [LT α] [DecidableRel (fun a b : α => a < b)]
    (a b : AABB α) : a.intersects b = b.intersects a := by
  unfold AABB.intersects
  simp only [gt_iff_lt]
  by_cases h1 : b.x2 < a.x1 <;> by_cases h2 : a.x2 < b.x1 <;>
    by_cases h3 : b.y2 < a.y1 <;> by_cases h4 : a.y2 < b.y1 <;>
    by_cases h5 : b.z2 < a.z1 <;> by_cases h6 : a.z2 < b.z1 <;>
    simp [h1, h2, h3, h4, h5, h6]

/-- The graph built by `getCollisions`: one uncolored node per box, stored in
index order, two positions being neighbours exactly when they are distinct
and their boxes intersect. -/
theorem getCollisions_spec {α : Type} [LT α] [DecidableRel (fun a b : α => a < b)]
    (AABBs : List (AABB α)) :
    ∃ g, getCollisions AABBs = some g ∧
      g.nodes.map GraphNode.index = (List.range AABBs.length).map (fun k : Nat => (k : Int)) ∧
      g.nodes.map GraphNode.color = (List.range AABBs.length).map (fun _ => (-1 : Int)) ∧
      (∀ p, (neighborsAt g.nodes p).Nodup) ∧
      ∀ s r, r ∈ neighborsAt g.nodes s ↔
        s ≠ r ∧ ∃ a b, AABBs[s]? = some a ∧ AABBs[r]? = some b ∧ a.intersects b = true := by
  have h0 := addNodes_empty AABBs.length
  have hord0 : (addNodes Graph.empty AABBs.length).nodes.map GraphNode.index
      = (List.range AABBs.length).map (fun k : Nat => (k : Int)) := by
    rw [h0, List.map_map]; rfl
  have hcol0 : (addNodes Graph.empty AABBs.length).nodes.map GraphNode.color
      = (List.range AABBs.length).map (fun _ => (-1 : Int)) := by
    rw [h0, List.map_map]; rfl
  have hnb0 : ∀ s, neighborsAt (addNodes Graph.empty AABBs.length).nodes s = [] := by
    intro s
    unfold neighborsAt
    rw [h0, List.getElem?_map]
    cases (List.range AABBs.length)[s]? <;> simp [GraphNode.new]
  obtain ⟨g, h1, h2, h3, hn, h4⟩ := collideAll_spec AABBs AABBs 0
    (addNodes Graph.empty AABBs.length) rfl hord0
  refine ⟨g, h1, by rw [h2, hord0], by rw [h3, hcol0],
    hn (fun p => by rw [hnb0]; exact List.nodup_nil), ?_⟩
  intro s r
  rw [h4, hnb0]
  constructor
  · intro h
    rcases h with h | ⟨i', j', a, b, _, h2, h3, h4, h5, h6⟩
    · simp at h
    · rcases h6 with ⟨rfl, rfl⟩ | ⟨rfl, rfl⟩
      · exact ⟨by omega, a, b, h3, h4, h5⟩
      · exact ⟨by omega, b, a, h4, h3, by rw [intersects_comm]; exact h5⟩
  · intro h
    obtain ⟨hne, a, b, ha, hb, hint⟩ := h
    right
    rcases Nat.lt_or_gt_of_ne hne with hlt | hgt
    · exact ⟨r, s, b, a, Nat.zero_le _, hlt, hb, ha, by rw [intersects_comm]; exact hint,
        Or.inr ⟨rfl, rfl⟩⟩
    · exact ⟨s, r, a, b, Nat.zero_le _, hgt, ha, hb, hint, Or.inl ⟨rfl, rfl⟩⟩


/-! ## colorDSATUR as a whole -/

theorem lt_of_mem_neighborsAt (nodes : List GraphNode) (u v : Nat)
    (h : v ∈ neighborsAt nodes u) : u < nodes.length := by
  unfold neighborsAt at h
  by_contra hlt
  rw [List.getElem?_eq_none (by omega)] at h
  simp at h

theorem colorAt_of_mem (nodes : List GraphNode) (n : GraphNode) (hn : n ∈ nodes) :
    ∃ p, p < nodes.length ∧ colorAt nodes p = n.color := by
  obtain ⟨p, hp, rfl⟩ := List.getElem_of_mem hn
  refine ⟨p, hp, ?_⟩
  unfold colorAt
  rw [List.getElem?_eq_getElem hp]
  rfl

theorem mem_of_colorAt (nodes : List GraphNode) (p : Nat) (hp : p < nodes.length) :
    ∃ n ∈ nodes, n.color = colorAt nodes p := by
  refine ⟨nodes[p], List.getElem_mem hp, ?_⟩
  unfold colorAt
  rw [List.getElem?_eq_getElem hp]
  rfl

theorem nodup_length_le (l : List Nat) (n : Nat) (hnd : l.Nodup) (h : ∀ x ∈ l, x < n) :
    l.length ≤ n := by
  have := (List.subperm_of_subset hnd (fun x hx => List.mem_range.mpr (h x hx))).length_le
  simpa using this

/-- With a budget above the node count and above every degree, `colorDSATUR`
returns; it changes colors only, leaves no node uncolored and skips no color. -/
theorem colorDSATUR_some (g : Graph) (fuel : Nat) (hfuel : g.nodes.length < fuel)
    (hdeg : ∀ n ∈ g.nodes, n.getDegree < fuel) :
    ∃ g', g.colorDSATUR fuel = some g' ∧
      colorLoop fuel fuel (resetColors g.nodes) = some g'.nodes ∧
      g'.nodes.map GraphNode.index = g.nodes.map GraphNode.index ∧
      g'.nodes.map GraphNode.neighbors = g.nodes.map GraphNode.neighbors ∧
      (∀ p < g'.nodes.length, 0 ≤ colorAt g'.nodes p) ∧
      (∀ u c, 0 ≤ c → c < colorAt g'.nodes u → ∃ v, colorAt g'.nodes v = c) := by
  have hd : ∀ p < (resetColors g.nodes).length, degAt (resetColors g.nodes) p < fuel := by
    intro p hp
    rw [degAt_resetColors]
    rw [length_resetColors] at hp
    exact degAt_lt_of_forall g.nodes fuel hdeg p hp
  have hsome := (colorLoop_isSome_iff fuel fuel (resetColors g.nodes) hd).mpr
    (by rw [uncoloredCount_resetColors]; exact hfuel)
  obtain ⟨res, hres⟩ := Option.isSome_iff_exists.mp hsome
  have hshape := colorLoop_shape fuel fuel _ res hres
  refine ⟨{ nodes := res }, by simp [Graph.colorDSATUR, hres], hres, ?_, ?_, ?_, ?_⟩
  · rw [hshape.1]; simp [resetColors, GraphNode.setColor]
  · rw [hshape.2]; simp [resetColors, GraphNode.setColor]
  · exact colorLoop_colors fuel fuel _ res
      (fun p => Or.inl (colorAt_resetColors g.nodes p)) hres
  · exact colorLoop_contiguous fuel fuel _ res
      (fun u c hc hlt => by rw [colorAt_resetColors] at hlt; omega) hres

/-- On a symmetric, irreflexive graph the coloring returned by `colorDSATUR`
gives adjacent positions different colors. -/
theorem colorDSATUR_proper (g g' : Graph) (fuel : Nat)
    (hsym : ∀ u v, v ∈ neighborsAt g.nodes u → u ∈ neighborsAt g.nodes v)
    (hirr : ∀ u, u ∉ neighborsAt g.nodes u)
    (h : g.colorDSATUR fuel = some g') :
    ∀ u v, v ∈ neighborsAt g'.nodes u → colorAt g'.nodes u ≠ colorAt g'.nodes v := by
  unfold Graph.colorDSATUR at h
  cases hres : colorLoop fuel fuel (resetColors g.nodes) with
  | none => rw [hres] at h; simp at h
  | some res =>
    rw [hres] at h
    simp only [Option.map_some', Option.some.injEq] at h
    subst h
    simp only
    have hnb : ∀ p, neighborsAt res p = neighborsAt g.nodes p := by
      intro p
      rw [neighborsAt_of_map_eq res _ (colorLoop_shape fuel fuel _ res hres).2,
        neighborsAt_resetColors]
    have hcol := colorLoop_colors fuel fuel _ res
      (fun p => Or.inl (colorAt_resetColors g.nodes p)) hres
    have hprop := colorLoop_proper fuel fuel (resetColors g.nodes) res
      (by intro u v; rw [neighborsAt_resetColors, neighborsAt_resetColors]; exact hsym u v)
      (by intro u; rw [neighborsAt_resetColors]; exact hirr u)
      (by intro u v _ hu; rw [colorAt_resetColors] at hu; omega) hres
    intro u v huv
    have hu : u < res.length := lt_of_mem_neighborsAt res u v huv
    have hvu : u ∈ neighborsAt res v := by
      rw [hnb] at huv ⊢; exact hsym u v huv
    have hv : v < res.length := lt_of_mem_neighborsAt res v u hvu
    exact hprop u v huv (hcol u hu) (hcol v hv)

/-- The pipeline `getCollisions`, `colorDSATUR` on any list of boxes: both
steps return, the colored graph keeps the index order and the adjacency of
the conflict graph, every color is non-negative, and adjacent positions get
different colors. -/
theorem pipeline_spec {α : Type} [LT α] [DecidableRel (fun a b : α => a < b)]
    (AABBs : List (AABB α)) (fuel : Nat) (hfuel : AABBs.length < fuel) :
    ∃ g g', getCollisions AABBs = some g ∧ g.colorDSATUR fuel = some g' ∧
      g'.nodes.length = AABBs.length ∧
      g'.nodes.map GraphNode.index = (List.range AABBs.length).map (fun k : Nat => (k : Int)) ∧
      (∀ n ∈ g'.nodes, 0 ≤ n.color) ∧
      (∀ s r, r ∈ neighborsAt g'.nodes s ↔
        s ≠ r ∧ ∃ a b, AABBs[s]? = some a ∧ AABBs[r]? = some b ∧ a.intersects b = true) ∧
      (∀ u v, v ∈ neighborsAt g'.nodes u → colorAt g'.nodes u ≠ colorAt g'.nodes v) := by
  obtain ⟨g, hg, hidx, _, hnd, hedge⟩ := getCollisions_spec AABBs
  have hlen : g.nodes.length = AABBs.length := by
    have := congrArg List.length hidx
    simpa using this
  have hdeg : ∀ n ∈ g.nodes, n.getDegree < fuel := by
    intro n hn
    obtain ⟨p, hp, rfl⟩ := List.getElem_of_mem hn
    have hnb : neighborsAt g.nodes p = (g.nodes[p]).neighbors := by
      unfold neighborsAt
      rw [List.getElem?_eq_getElem hp]
    have hle := nodup_length_le (neighborsAt g.nodes p) AABBs.length (hnd p) (by
      intro x hx
      obtain ⟨_, a, b, _, hb, _⟩ := (hedge p x).mp hx
      rcases List.getElem?_eq_some_iff.mp hb with ⟨h, _⟩
      exact h)
    rw [hnb] at hle
    unfold GraphNode.getDegree
    omega
  obtain ⟨g', h1, _, h2, h3, h4, _⟩ := colorDSATUR_some g fuel (by omega) hdeg
  have hnb : ∀ p, neighborsAt g'.nodes p = neighborsAt g.nodes p :=
    neighborsAt_of_map_eq _ _ h3
  have hlen' : g'.nodes.length = AABBs.length := by
    rw [length_of_map_eq _ _ h3, hlen]
  have hsym : ∀ u v, v ∈ neighborsAt g.nodes u → u ∈ neighborsAt g.nodes v := by
    intro u v huv
    obtain ⟨hne, a, b, ha, hb, hint⟩ := (hedge u v).mp huv
    exact (hedge v u).mpr ⟨fun e => hne e.symm, b, a, hb, ha, by rw [intersects_comm]; exact hint⟩
  have hirr : ∀ u, u ∉ neighborsAt g.nodes u := by
    intro u hu
    exact ((hedge u u).mp hu).1 rfl
  refine ⟨g, g', hg, h1, hlen', by rw [h2, hidx], ?_, ?_,
    colorDSATUR_proper g g' fuel hsym hirr h1⟩
  · intro n hn
    obtain ⟨p, hp, hc⟩ := colorAt_of_mem g'.nodes n hn
    rw [← hc]
    exact h4 p hp
  · intro s r
    rw [hnb, hedge]

theorem index_of_ordered (nodes : List GraphNode) (n : Nat)
    (hord : nodes.map GraphNode.index = (List.range n).map (fun k : Nat => (k : Int)))
    (p : Nat) (hp : p < nodes.length) : (nodes[p]).index = (p : Int) := by
  have hlen : nodes.length = n := by
    have := congrArg List.length hord
    simpa using this
  have h1 : (nodes.map GraphNode.index)[p]? = ((List.range n).map (fun i : Nat => (i : Int)))[p]? := by
    rw [hord]
  rw [List.getElem?_map, List.getElem?_map, List.getElem?_eq_getElem hp,
    List.getElem?_range (by omega)] at h1
  simpa using h1

theorem mem_colorSet_ordered (nodes : List GraphNode) (n : Nat)
    (hord : nodes.map GraphNode.index = (List.range n).map (fun k : Nat => (k : Int)))
    (c x : Int) :
    x ∈ colorSet nodes c ↔ ∃ p : Nat, p < nodes.length ∧ colorAt nodes p = c ∧ x = (p : Int) := by
  rw [colorSet_eq_filter]
  simp only [List.mem_map, List.mem_filter, decide_eq_true_eq]
  constructor
  · intro h
    obtain ⟨m, ⟨hm, hc⟩, hx⟩ := h
    obtain ⟨p, hp, rfl⟩ := List.getElem_of_mem hm
    refine ⟨p, hp, ?_, ?_⟩
    · unfold colorAt
      rw [List.getElem?_eq_getElem hp]
      exact hc
    · rw [← hx]
      exact index_of_ordered nodes n hord p hp
  · intro h
    obtain ⟨p, hp, hc, hx⟩ := h
    refine ⟨nodes[p], ⟨List.getElem_mem hp, ?_⟩, ?_⟩
    · unfold colorAt at hc
      rw [List.getElem?_eq_getElem hp] at hc
      exact hc
    · rw [hx]
      exact index_of_ordered nodes n hord p hp

/-! ## The claims -/

/-- C1. End to end: for every finite sequence of boxes (whatever the order of
each box's bounds) and every budget above their number, the pipeline
`getCollisions`, `colorDSATUR`, `getColorSets` returns groups; every member
of a group is the position of a box, and two distinct positions of one group
never hold intersecting boxes. -/
theorem splitGroups_no_overlap {α : Type} [LT α] [DecidableRel (fun a b : α => a < b)]
    (AABBs : List (AABB α)) (fuel : Nat) (hfuel : AABBs.length < fuel) :
    ∃ groups, splitGroups fuel AABBs = some groups ∧
      ∀ group ∈ groups,
        (∀ x ∈ group, ∃ i : Nat, i < AABBs.length ∧ x = (i : Int)) ∧
        ∀ i j : Nat, (i : Int) ∈ group → (j : Int) ∈ group → i ≠ j →
          ∀ a b, AABBs[i]? = some a → AABBs[j]? = some b → a.intersects b = false := by
  obtain ⟨g, g', hg, hg', hlen, hidx, hcol, hedge, hproper⟩ := pipeline_spec AABBs fuel hfuel
  obtain ⟨M, _, hsets⟩ := getColorSets_some g' hcol
  refine ⟨(List.range (M + 1)).map (fun c : Nat => colorSet g'.nodes (c : Int)),
    by simp only [splitGroups, hg, hg', Option.some_bind, hsets], ?_⟩
  intro group hgroup
  obtain ⟨c, _, rfl⟩ := List.mem_map.mp hgroup
  constructor
  · intro x hx
    obtain ⟨p, hp, _, hxp⟩ := (mem_colorSet_ordered g'.nodes _ hidx _ x).mp hx
    exact ⟨p, by omega, hxp⟩
  · intro i j hi hj hij a b ha hb
    obtain ⟨p, _, hpc, hip⟩ := (mem_colorSet_ordered g'.nodes _ hidx _ _).mp hi
    obtain ⟨q, _, hqc, hjq⟩ := (mem_colorSet_ordered g'.nodes _ hidx _ _).mp hj
    have hpi : i = p := by exact_mod_cast hip
    have hqj : j = q := by exact_mod_cast hjq
    subst hpi; subst hqj
    by_contra hint
    have hint2 : a.intersects b = true := by simpa using hint
    have hadj : j ∈ neighborsAt g'.nodes i := (hedge i j).mpr ⟨hij, a, b, ha, hb, hint2⟩
    exact hproper i j hadj (by rw [hpc, hqc])

/-- C1, at three boxes of which the first two touch. -/
theorem splitGroups_no_overlap_witness :
    ∃ groups, splitGroups 4 [(⟨0, 0, 0, 1, 1, 1⟩ : AABB Int), ⟨1, 0, 0, 2, 1, 1⟩,
        ⟨5, 5, 5, 6, 6, 6⟩] = some groups ∧
      ∀ group ∈ groups,
        (∀ x ∈ group, ∃ i : Nat,
          i < [(⟨0, 0, 0, 1, 1, 1⟩ : AABB Int), ⟨1, 0, 0, 2, 1, 1⟩, ⟨5, 5, 5, 6, 6, 6⟩].length ∧
            x = (i : Int)) ∧
        ∀ i j : Nat, (i : Int) ∈ group → (j : Int) ∈ group → i ≠ j →
          ∀ a b, [(⟨0, 0, 0, 1, 1, 1⟩ : AABB Int), ⟨1, 0, 0, 2, 1, 1⟩,
              ⟨5, 5, 5, 6, 6, 6⟩][i]? = some a →
            [(⟨0, 0, 0, 1, 1, 1⟩ : AABB Int), ⟨1, 0, 0, 2, 1, 1⟩,
              ⟨5, 5, 5, 6, 6, 6⟩][j]? = some b → a.intersects b = false :=
  splitGroups_no_overlap _ 4 (by decide)

/-- The pipeline evaluated on those three boxes. -/
theorem splitGroups_three_boxes :
    splitGroups 4 [(⟨0, 0, 0, 1, 1, 1⟩ : AABB Int), ⟨1, 0, 0, 2, 1, 1⟩,
        ⟨5, 5, 5, 6, 6, 6⟩] = some [[0, 2], [1]] := by decide

theorem samplePath_built :
    (do
      let g0 := (((Graph.empty.addNode 0).2.addNode 1).2.addNode 2).2
      let g1 := (g0.addNode 3).2
      let g2 ← g1.addEdge 0 1
      g2.addEdge 1 2) = some samplePath := by decide

theorem samplePath_sym :
    ∀ u v, v ∈ neighborsAt samplePath.nodes u → u ∈ neighborsAt samplePath.nodes v := by
  intro u v h
  rcases u with _ | _ | _ | _ | u
  · simp only [neighborsAt, samplePath, List.getElem?_cons_zero, List.mem_singleton] at h
    subst h; decide
  · simp only [neighborsAt, samplePath, List.getElem?_cons_succ, List.getElem?_cons_zero,
      List.mem_cons, List.mem_singleton, List.mem_nil_iff, or_false] at h
    rcases h with rfl | rfl <;> decide
  · simp only [neighborsAt, samplePath, List.getElem?_cons_succ, List.getElem?_cons_zero,
      List.mem_singleton] at h
    subst h; decide
  · simp [neighborsAt, samplePath] at h
  · simp [neighborsAt, samplePath] at h

theorem samplePath_irrefl : ∀ u, u ∉ neighborsAt samplePath.nodes u := by
  intro u h
  rcases u with _ | _ | _ | _ | u <;> simp [neighborsAt, samplePath] at h

/-- The coloring of the sample path graph. -/
theorem samplePath_colored :
    (samplePath.colorDSATUR 5).map (fun g => g.nodes.map GraphNode.color)
      = some [1, 0, 1, 0] := by decide

/-- C3. Termination of `colorDSATUR`, for a probe budget `fuel` above every
degree.  (1) In any state of the loop over the graph's adjacency, a round
whose scan selects `next` finds it uncolored, its probe stops at a color
`c ≥ 0`, the round stores `c` at `next`, leaves every other node as it was,
lowers the number of uncolored nodes by exactly one, and the loop continues
from the updated state.  (2) After the reset all `N` nodes are uncolored.
(3) The loop returns exactly when it is allowed more than `N` scans: `N`
rounds that color a node and the final scan that finds none.  (4) With a
budget above `N`, `colorDSATUR` returns and every node has a color `≥ 0`. -/
theorem colorDSATUR_terminates (g : Graph) (fuel : Nat)
    (hdeg : ∀ n ∈ g.nodes, n.getDegree < fuel) :
    (∀ cur next, cur.map GraphNode.neighbors = g.nodes.map GraphNode.neighbors →
      selectNext cur = some next →
      next < cur.length ∧ colorAt cur next = -1 ∧
      ∃ c, probeColor cur next fuel 0 = some c ∧ 0 ≤ c ∧
        colorAt (updateNode cur next (fun n => n.setColor c)) next = c ∧
        (∀ q, q ≠ next → (updateNode cur next (fun n => n.setColor c))[q]? = cur[q]?) ∧
        uncoloredCount (updateNode cur next (fun n => n.setColor c)) + 1 = uncoloredCount cur ∧
        ∀ k, colorLoop fuel (k + 1) cur
          = colorLoop fuel k (updateNode cur next (fun n => n.setColor c))) ∧
    uncoloredCount (resetColors g.nodes) = g.nodes.length ∧
    (∀ k, (colorLoop fuel k (resetColors g.nodes)).isSome = true ↔ g.nodes.length < k) ∧
    (g.nodes.length < fuel →
      ∃ g', g.colorDSATUR fuel = some g' ∧ ∀ n ∈ g'.nodes, 0 ≤ n.color) := by
  refine ⟨?_, uncoloredCount_resetColors g.nodes, ?_, ?_⟩
  · intro cur next hshape hsel
    obtain ⟨hlen, hun⟩ := selectNext_some cur next hsel
    have hd : degAt cur next < fuel := by
      rw [degAt_eq, neighborsAt_of_map_eq cur g.nodes hshape, ← degAt_eq]
      exact degAt_lt_of_forall g.nodes fuel hdeg next
        (by rw [← length_of_map_eq cur g.nodes hshape]; exact hlen)
    obtain ⟨c, hc⟩ := probeColor_of_degree cur next fuel hd
    have hc0 := (probeColor_spec cur next fuel 0 c hc).1
    refine ⟨hlen, hun, c, hc, hc0, ?_, ?_, uncoloredCount_setColor cur next c hlen hun hc0, ?_⟩
    · rw [colorAt_setColor]; simp [hlen]
    · intro q hq
      exact getElem?_updateNode_ne cur next q _ hq
    · intro k
      simp only [colorLoop, hsel, hc]
  · intro k
    rw [colorLoop_isSome_iff fuel k (resetColors g.nodes) (by
      intro p hp
      rw [degAt_resetColors]
      rw [length_resetColors] at hp
      exact degAt_lt_of_forall g.nodes fuel hdeg p hp), uncoloredCount_resetColors]
  · intro hfuel
    obtain ⟨g', h1, _, _, _, h4, _⟩ := colorDSATUR_some g fuel hfuel hdeg
    refine ⟨g', h1, ?_⟩
    intro n hn
    obtain ⟨p, hp, hc⟩ := colorAt_of_mem g'.nodes n hn
    rw [← hc]
    exact h4 p hp

/-- C3 on the sample path graph with budget 5. -/
theorem colorDSATUR_terminates_witness :
    (∀ cur next, cur.map GraphNode.neighbors = samplePath.nodes.map GraphNode.neighbors →
      selectNext cur = some next →
      next < cur.length ∧ colorAt cur next = -1 ∧
      ∃ c, probeColor cur next 5 0 = some c ∧ 0 ≤ c ∧
        colorAt (updateNode cur next (fun n => n.setColor c)) next = c ∧
        (∀ q, q ≠ next → (updateNode cur next (fun n => n.setColor c))[q]? = cur[q]?) ∧
        uncoloredCount (updateNode cur next (fun n => n.setColor c)) + 1 = uncoloredCount cur ∧
        ∀ k, colorLoop 5 (k + 1) cur
          = colorLoop 5 k (updateNode cur next (fun n => n.setColor c))) ∧
    uncoloredCount (resetColors samplePath.nodes) = samplePath.nodes.length ∧
    (∀ k, (colorLoop 5 k (resetColors samplePath.nodes)).isSome = true ↔
      samplePath.nodes.length < k) ∧
    (samplePath.nodes.length < 5 →
      ∃ g', samplePath.colorDSATUR 5 = some g' ∧ ∀ n ∈ g'.nodes, 0 ≤ n.color) :=
  colorDSATUR_terminates samplePath 5 (by decide)

/-- On the sample path graph the loop needs five scans: four do not suffice. -/
theorem samplePath_scans :
    colorLoop 5 4 (resetColors samplePath.nodes) = none ∧
      (colorLoop 5 5 (resetColors samplePath.nodes)).isSome = true := by decide

/-- The groups of the colored sample graph. -/
theorem sampleColored_groups : sampleColored.getColorSets = some [[1, 3], [0, 2]] := by
  decide

theorem pairwise_lt_range_cast (n : Nat) :
    ((List.range n).map (fun k : Nat => (k : Int))).Pairwise (fun a b => a < b) := by
  rw [List.pairwise_map]
  exact (List.pairwise_lt_range n).imp (fun h => by exact_mod_cast h)

/-- C6, the code at the empty input: for the empty sequence of boxes the
pipeline returns without error, but `getColorSets` starts from `maxColor = 0`
and so returns one group, which is empty, instead of no group. -/
theorem splitGroups_empty {α : Type} [LT α] [DecidableRel (fun a b : α => a < b)]
    (fuel : Nat) :
    splitGroups (fuel + 1) ([] : List (AABB α)) = some [[]] ∧
      Graph.empty.getColorSets = some [[]] := by
  constructor <;> rfl

/-- C7. Incomplete coloring: `getColorSets` returns `NULL` exactly when some
node has a color `< 0`; whenever it returns groups, every node has a color
`≥ 0` and its index is a member of one of the groups. -/
theorem getColorSets_null_iff (g : Graph) :
    (g.getColorSets = none ↔ ∃ n ∈ g.nodes, n.color < 0) ∧
      ∀ groups, g.getColorSets = some groups →
        ∀ n ∈ g.nodes, 0 ≤ n.color ∧ n.index ∈ groups.flatten := by
  have hiff : g.getColorSets = none ↔ ∃ n ∈ g.nodes, n.color < 0 := by
    rw [← maxColorLoop_none_iff g.nodes 0]
    unfold Graph.getColorSets
    cases maxColorLoop g.nodes 0 <;> simp
  refine ⟨hiff, ?_⟩
  intro groups hgroups n hn
  have hcol : ∀ m ∈ g.nodes, 0 ≤ m.color := by
    intro m hm
    by_contra hneg
    have := hiff.mpr ⟨m, hm, by omega⟩
    rw [this] at hgroups
    cases hgroups
  obtain ⟨M, hM, hsets⟩ := getColorSets_some g hcol
  obtain ⟨_, hb, _⟩ := maxColorLoop_some g.nodes 0 M hM
  rw [hsets] at hgroups
  simp only [Option.some.injEq] at hgroups
  subst hgroups
  exact ⟨hcol n hn, (join_colorSets_perm g.nodes M hb).mem_iff.mpr (List.mem_map_of_mem _ hn)⟩

theorem mem_colorSet (nodes : List GraphNode) (c x : Int) :
    x ∈ colorSet nodes c ↔ ∃ n ∈ nodes, n.color = c ∧ n.index = x := by
  rw [colorSet_eq_filter]
  simp only [List.mem_map, List.mem_filter, decide_eq_true_eq]
  constructor
  · rintro ⟨n, ⟨hn, hc⟩, hx⟩; exact ⟨n, hn, hc, hx⟩
  · rintro ⟨n, hn, hc, hx⟩; exact ⟨n, ⟨hn, hc⟩, hx⟩

theorem getSaturationLoop_spec (nodes : List GraphNode) (l : List Nat) :
    ∀ acc : List Int, acc.Nodup →
      (getSaturationLoop nodes l acc).Nodup ∧
        ∀ c, c ∈ getSaturationLoop nodes l acc ↔
          c ∈ acc ∨ (0 ≤ c ∧ ∃ q ∈ l, colorAt nodes q = c) := by
  induction l with
  | nil => intro acc h; simp [getSaturationLoop, h]
  | cons x rest ih =>
    intro acc hacc
    simp only [getSaturationLoop]
    by_cases h1 : colorAt nodes x < 0
    · rw [if_pos h1]
      refine ⟨(ih acc hacc).1, ?_⟩
      intro c
      rw [(ih acc hacc).2]
      constructor
      · rintro (h | ⟨h0, q, hq, hc⟩)
        · exact Or.inl h
        · exact Or.inr ⟨h0, q, List.mem_cons_of_mem _ hq, hc⟩
      · rintro (h | ⟨h0, q, hq, hc⟩)
        · exact Or.inl h
        · rcases List.mem_cons.mp hq with rfl | hq
          · omega
          · exact Or.inr ⟨h0, q, hq, hc⟩
    · rw [if_neg h1]
      by_cases h2 : colorAt nodes x ∈ acc
      · rw [if_pos h2]
        refine ⟨(ih acc hacc).1, ?_⟩
        intro c
        rw [(ih acc hacc).2]
        constructor
        · rintro (h | ⟨h0, q, hq, hc⟩)
          · exact Or.inl h
          · exact Or.inr ⟨h0, q, List.mem_cons_of_mem _ hq, hc⟩
        · rintro (h | ⟨h0, q, hq, hc⟩)
          · exact Or.inl h
          · rcases List.mem_cons.mp hq with rfl | hq
            · rw [← hc]; exact Or.inl h2
            · exact Or.inr ⟨h0, q, hq, hc⟩
      · rw [if_neg h2]
        have hacc' : (colorAt nodes x :: acc).Nodup := List.nodup_cons.mpr ⟨h2, hacc⟩
        refine ⟨(ih _ hacc').1, ?_⟩
        intro c
        rw [(ih _ hacc').2]
        constructor
        · rintro (h | ⟨h0, q, hq, hc⟩)
          · rcases List.mem_cons.mp h with rfl | h
            · exact Or.inr ⟨by omega, x, List.mem_cons_self _ _, rfl⟩
            · exact Or.inl h
          · exact Or.inr ⟨h0, q, List.mem_cons_of_mem _ hq, hc⟩
        · rintro (h | ⟨h0, q, hq, hc⟩)
          · exact Or.inl (List.mem_cons_of_mem _ h)
          · rcases List.mem_cons.mp hq with rfl | hq
            · rw [← hc]; exact Or.inl (List.mem_cons_self _ _)
            · exact Or.inr ⟨h0, q, hq, hc⟩

/-- The saturation of a node is the number of distinct non-negative colors
read through its neighbour pointers. -/
theorem getSaturation_eq (nodes : List GraphNode) (n : GraphNode) :
    n.getSaturation nodes
      = ((n.neighbors.map (colorAt nodes)).filter (fun c => decide (0 ≤ c))).toFinset.card := by
  obtain ⟨hnd, hmem⟩ := getSaturationLoop_spec nodes n.neighbors [] List.nodup_nil
  unfold GraphNode.getSaturation
  rw [← List.toFinset_card_of_nodup hnd]
  congr 1
  ext c
  simp only [List.mem_toFinset, hmem, List.mem_filter, List.mem_map, decide_eq_true_eq,
    List.not_mem_nil, false_or]
  constructor
  · rintro ⟨h0, q, hq, hc⟩; exact ⟨⟨q, hq, hc⟩, h0⟩
  · rintro ⟨⟨q, hq, hc⟩, h0⟩; exact ⟨h0, q, hq, hc⟩

/-- C9. Selection rule: the position `p` chosen by the scan of a round is an
uncolored node whose key (saturation, degree) is lexicographically greatest
among all uncolored nodes, and every uncolored node stored before `p` has a
strictly smaller key, so `p` is the first such node in storage order; the
round then probes and colors `p`.  The saturation in the key is the number of
distinct colors `≥ 0` among the node's neighbours, the degree its neighbour
count. -/
theorem selectNext_rule (nodes : List GraphNode) (p : Nat) (h : selectNext nodes = some p) :
    p < nodes.length ∧ colorAt nodes p = -1 ∧
      (∀ q < nodes.length, colorAt nodes q = -1 → selKey nodes q ≤ selKey nodes p) ∧
      (∀ q < p, colorAt nodes q = -1 → selKey nodes q < selKey nodes p) ∧
      (∀ q n, nodes[q]? = some n →
        selKey nodes q = toLex
          (((n.neighbors.map (colorAt nodes)).filter (fun c => decide (0 ≤ c))).toFinset.card,
            n.neighbors.length)) ∧
      ∀ limit k, colorLoop limit (k + 1) nodes =
        match probeColor nodes p limit 0 with
        | none => none
        | some c => colorLoop limit k (updateNode nodes p (fun n => n.setColor c)) := by
  obtain ⟨h1, h2, h3⟩ := scan_some nodes nodes.length p h
  refine ⟨h1, h2, ?_, ?_, ?_, ?_⟩
  · intro q hq hqc
    unfold selKey
    rw [Prod.Lex.le_iff]
    exact (h3 q hq hqc).1
  · intro q hq hqc
    unfold selKey
    rw [Prod.Lex.lt_iff]
    exact (h3 q (by omega) hqc).2 hq
  · intro q n hn
    unfold selKey satAt degAt
    rw [hn]
    simp only [getSaturation_eq, GraphNode.getDegree]
  · intro limit k
    simp only [colorLoop, h]

/-- C9 on the sample path graph after its first round: nodes `0` and `2` tie
on saturation and degree, and the scan picks node `0`. -/
theorem selectNext_rule_witness :
    selectNext sampleRound = some 0 ∧
      (0 < sampleRound.length ∧ colorAt sampleRound 0 = -1 ∧
        (∀ q < sampleRound.length, colorAt sampleRound q = -1 →
          selKey sampleRound q ≤ selKey sampleRound 0) ∧
        (∀ q < 0, colorAt sampleRound q = -1 → selKey sampleRound q < selKey sampleRound 0) ∧
        (∀ q n, sampleRound[q]? = some n →
          selKey sampleRound q = toLex
            (((n.neighbors.map (colorAt sampleRound)).filter
              (fun c => decide (0 ≤ c))).toFinset.card, n.neighbors.length)) ∧
        ∀ limit k, colorLoop limit (k + 1) sampleRound =
          match probeColor sampleRound 0 limit 0 with
          | none => none
          | some c => colorLoop limit k (updateNode sampleRound 0 (fun n => n.setColor c))) :=
  ⟨by decide, selectNext_rule sampleRound 0 (by decide)⟩

/-- C10. Smallest valid color: when the scan of a round selects `next`, the
probe (with a budget above the degree of `next`) stops at a natural number
`c`; the round stores `c` as the color of `next`; no neighbour of `next` has
color `c`, and every smaller natural number is the color of some neighbour of
`next` at that moment. -/
theorem probeColor_least (nodes : List GraphNode) (next limit : Nat)
    (hsel : selectNext nodes = some next) (hdeg : degAt nodes next < limit) :
    ∃ c : Nat, probeColor nodes next limit 0 = some (c : Int) ∧
      (∀ k, colorLoop limit (k + 1) nodes
        = colorLoop limit k (updateNode nodes next (fun n => n.setColor (c : Int)))) ∧
      colorAt (updateNode nodes next (fun n => n.setColor (c : Int))) next = (c : Int) ∧
      (∀ q ∈ neighborsAt nodes next, colorAt nodes q ≠ (c : Int)) ∧
      ∀ c' : Nat, c' < c → ∃ q ∈ neighborsAt nodes next, colorAt nodes q = (c' : Int) := by
  obtain ⟨hlen, _⟩ := selectNext_some nodes next hsel
  obtain ⟨c, hc⟩ := probeColor_of_degree nodes next limit hdeg
  obtain ⟨hc0, hval, hlow⟩ := probeColor_spec nodes next limit 0 c hc
  rw [validAt_iff] at hval
  obtain ⟨d, rfl⟩ := Int.eq_ofNat_of_zero_le hc0
  refine ⟨d, hc, ?_, ?_, ?_, ?_⟩
  · intro k
    simp only [colorLoop, hsel, hc]
  · rw [colorAt_setColor]; simp [hlen]
  · intro q hq heq
    exact hval q hq (by rw [heq]; exact hc0) heq
  · intro c' hc'
    obtain ⟨q, hq, _, hqc⟩ := (validAt_false_iff nodes next (c' : Int)).mp
      (hlow (c' : Int) (by omega) (by omega))
    exact ⟨q, hq, hqc⟩

/-- C10 on the sample path graph after its first round: node `0` gets color `1`. -/
theorem probeColor_least_witness :
    probeColor sampleRound 0 5 0 = some 1 ∧
      ∃ c : Nat, probeColor sampleRound 0 5 0 = some (c : Int) ∧
        (∀ k, colorLoop 5 (k + 1) sampleRound
          = colorLoop 5 k (updateNode sampleRound 0 (fun n => n.setColor (c : Int)))) ∧
        colorAt (updateNode sampleRound 0 (fun n => n.setColor (c : Int))) 0 = (c : Int) ∧
        (∀ q ∈ neighborsAt sampleRound 0, colorAt sampleRound q ≠ (c : Int)) ∧
        ∀ c' : Nat, c' < c → ∃ q ∈ neighborsAt sampleRound 0, colorAt sampleRound q = (c' : Int) :=
  ⟨by decide, probeColor_least sampleRound 0 5 (by decide) (by decide)⟩


/-! ## The bounding-box test -/

/-- C13. Symmetry of the intersection test: for all boxes `a` and `b` over
any coordinate type with a decidable `<`, with no assumption on the order of
a box's own bounds, `a.intersects b = b.intersects a`. -/
theorem intersects_symmetric {α : Type} [LT α] [DecidableRel (fun a b : α => a < b)]
    (a b : AABB α) : a.intersects b = b.intersects a := by
  unfold AABB.intersects
  simp only [gt_iff_lt]
  by_cases h1 : b.x2 < a.x1
  · by_cases h2 : a.x2 < b.x1 <;> simp [h1, h2]
  · by_cases h2 : a.x2 < b.x1
    · simp [h1, h2]
    · by_cases h3 : b.y2 < a.y1
      · by_cases h4 : a.y2 < b.y1 <;> simp [h1, h2, h3, h4]
      · by_cases h4 : a.y2 < b.y1
        · simp [h1, h2, h3, h4]
        · by_cases h5 : b.z2 < a.z1
          · by_cases h6 : a.z2 < b.z1 <;> simp [h1, h2, h3, h4, h5, h6]
          · by_cases h6 : a.z2 < b.z1 <;> simp [h1, h2, h3, h4, h5, h6]

/-! ## The graph mutators -/

theorem getElem?_of_map_index (nodes : List GraphNode) (n : Nat)
    (hidx : nodes.map GraphNode.index = (List.range n).map (fun k : Nat => (k : Int)))
    (hcol : nodes.map GraphNode.color = (List.range n).map (fun _ => (-1 : Int)))
    (i : Nat) (hi : i < n) :
    ∃ m, nodes[i]? = some m ∧ m.index = (i : Int) ∧ m.color = -1 := by
  have hlen : nodes.length = n := by
    have := congrArg List.length hidx
    simpa using this
  have hi2 : i < nodes.length := by omega
  refine ⟨nodes[i], List.getElem?_eq_getElem hi2, index_of_ordered nodes n hidx i hi2, ?_⟩
  have h1 : (nodes.map GraphNode.color)[i]? = ((List.range n).map (fun _ => (-1 : Int)))[i]? := by
    rw [hcol]
  rw [List.getElem?_map, List.getElem?_map, List.getElem?_eq_getElem hi2,
    List.getElem?_range hi] at h1
  simpa using h1

/-- C14. `getCollisions` builds exactly the conflict graph: for every
sequence of `N` boxes it returns a graph with `N` nodes, the node stored at
position `i` having index `i` and no color; position `i` is in the neighbour
list of position `j` exactly when `i ≠ j` and box `i` intersects box `j`;
every neighbour pointer points at one of the `N` nodes, and no node is its
own neighbour. -/
theorem getCollisions_conflict_graph {α : Type} [LT α] [DecidableRel (fun a b : α => a < b)]
    (AABBs : List (AABB α)) :
    ∃ g, getCollisions AABBs = some g ∧ g.getSize = AABBs.length ∧
      (∀ i < AABBs.length, ∃ m, g.nodes[i]? = some m ∧ m.index = (i : Int) ∧ m.color = -1) ∧
      (∀ i j, i ∈ neighborsAt g.nodes j ↔
        i < AABBs.length ∧ j < AABBs.length ∧ i ≠ j ∧
          ∃ a b, AABBs[i]? = some a ∧ AABBs[j]? = some b ∧ a.intersects b = true) ∧
      ∀ i, i ∉ neighborsAt g.nodes i := by
  obtain ⟨g, hg, hidx, hcol, _, hedge⟩ := getCollisions_spec AABBs
  have hlen : g.nodes.length = AABBs.length := by
    have := congrArg List.length hidx
    simpa using this
  refine ⟨g, hg, hlen, fun i hi => getElem?_of_map_index g.nodes _ hidx hcol i hi, ?_, ?_⟩
  · intro i j
    rw [hedge]
    constructor
    · rintro ⟨hne, b, a, hb, ha, hint⟩
      have hi : i < AABBs.length := by
        rcases List.getElem?_eq_some_iff.mp ha with ⟨h, _⟩
        exact h
      have hj : j < AABBs.length := by
        rcases List.getElem?_eq_some_iff.mp hb with ⟨h, _⟩
        exact h
      exact ⟨hi, hj, fun e => hne e.symm, a, b, ha, hb, by rw [intersects_comm]; exact hint⟩
    · rintro ⟨_, _, hne, a, b, ha, hb, hint⟩
      exact ⟨fun e => hne e.symm, b, a, hb, ha, by rw [intersects_comm]; exact hint⟩
  · intro i hi
    exact ((hedge i i).mp hi).1 rfl

theorem findNode_lt (g : Graph) (index : Int) (p : Nat) (h : g.findNode index = some p) :
    p < g.nodes.length := by
  unfold Graph.findNode at h
  obtain ⟨hp, _⟩ := List.findIdx?_eq_some_iff_getElem.mp h
  exact hp

theorem length_vectorRemove (nodes : List GraphNode) (a b : Nat) :
    (vectorRemove nodes a b).length = nodes.length :=
  length_updateNode _ _ _

theorem index_vectorRemove (nodes : List GraphNode) (a b : Nat) :
    (vectorRemove nodes a b).map GraphNode.index = nodes.map GraphNode.index := by
  unfold vectorRemove
  apply List.ext_getElem?
  intro q
  rw [List.getElem?_map, List.getElem?_map, getElem?_updateNode]
  by_cases hq : q = a
  · subst hq; cases nodes[q]? <;> simp
  · simp [hq]

theorem neighborsAt_vectorRemove (nodes : List GraphNode) (a b s : Nat) :
    neighborsAt (vectorRemove nodes a b) s
      = if s = a then (neighborsAt nodes s).filter (fun q => q != b) else neighborsAt nodes s := by
  unfold vectorRemove neighborsAt
  rw [getElem?_updateNode]
  by_cases hs : s = a
  · subst hs
    simp only [if_true]
    cases nodes[s]? <;> simp
  · simp [hs]

theorem mem_neighborsAt_vectorRemove (nodes : List GraphNode) (a b s r : Nat) :
    r ∈ neighborsAt (vectorRemove nodes a b) s ↔
      r ∈ neighborsAt nodes s ∧ ¬ (s = a ∧ r = b) := by
  rw [neighborsAt_vectorRemove]
  by_cases hs : s = a
  · simp [hs]
  · simp [hs]

theorem nodup_vectorRemove (nodes : List GraphNode) (a b : Nat)
    (h : ∀ p, (neighborsAt nodes p).Nodup) :
    ∀ p, (neighborsAt (vectorRemove nodes a b) p).Nodup := by
  intro p
  rw [neighborsAt_vectorRemove]
  split
  · exact (h p).filter _
  · exact h p

theorem mem_neighborsAt_removeNeighbor (nodes : List GraphNode) (a b s r : Nat) :
    r ∈ neighborsAt (removeNeighbor nodes a b).2 s ↔
      r ∈ neighborsAt nodes s ∧ ¬ (s = a ∧ r = b) ∧ ¬ (s = b ∧ r = a) := by
  simp only [removeNeighbor, mem_neighborsAt_vectorRemove]
  tauto

theorem nodup_removeNeighbor (nodes : List GraphNode) (a b : Nat)
    (h : ∀ p, (neighborsAt nodes p).Nodup) :
    ∀ p, (neighborsAt (removeNeighbor nodes a b).2 p).Nodup := by
  simp only [removeNeighbor]
  exact nodup_vectorRemove _ _ _ (nodup_vectorRemove _ _ _ h)

theorem neighborsAt_append_new (nodes : List GraphNode) (index : Int) (s : Nat) :
    neighborsAt (nodes ++ [GraphNode.new index]) s = neighborsAt nodes s := by
  unfold neighborsAt
  rw [List.getElem?_append]
  by_cases hs : s < nodes.length
  · rw [if_pos hs]
  · rw [if_neg hs, List.getElem?_eq_none (by omega : nodes.length ≤ s)]
    cases h : [GraphNode.new index][s - nodes.length]? with
    | none => rfl
    | some n =>
      have hn := List.getElem?_mem h
      rw [List.mem_singleton] at hn
      subst hn
      rfl

theorem neighborsAt_addNode (g : Graph) (index : Int) (s : Nat) :
    neighborsAt (g.addNode index).2.nodes s = neighborsAt g.nodes s := by
  simp only [Graph.addNode]
  split
  · rfl
  · exact neighborsAt_append_new g.nodes index s

/-- Each mutator call keeps the adjacency symmetric and the neighbour lists
free of duplicates. -/
theorem applyOp_invariant (g g1 : Graph) (op : GraphOp) (h : applyOp g op = some g1)
    (hsym : ∀ u v, v ∈ neighborsAt g.nodes u → u ∈ neighborsAt g.nodes v)
    (hnd : ∀ p, (neighborsAt g.nodes p).Nodup) :
    (∀ u v, v ∈ neighborsAt g1.nodes u → u ∈ neighborsAt g1.nodes v) ∧
      ∀ p, (neighborsAt g1.nodes p).Nodup := by
  cases op with
  | addNode index =>
    simp only [applyOp, Option.some.injEq] at h
    subst h
    constructor
    · intro u v
      rw [neighborsAt_addNode, neighborsAt_addNode]
      exact hsym u v
    · intro p
      rw [neighborsAt_addNode]
      exact hnd p
  | addEdge index1 index2 =>
    simp only [applyOp, Graph.addEdge] at h
    cases h1 : g.findNode index1 with
    | none => rw [h1] at h; simp at h
    | some p1 =>
      cases h2 : g.findNode index2 with
      | none => rw [h1, h2] at h; simp at h
      | some p2 =>
        rw [h1, h2] at h
        simp only [Option.some.injEq] at h
        subst h
        have l1 := findNode_lt g index1 p1 h1
        have l2 := findNode_lt g index2 p2 h2
        constructor
        · intro u v
          simp only [mem_neighborsAt_addNeighbor g.nodes p1 p2 l1 l2]
          intro huv
          rcases huv with huv | huv | huv
          · exact Or.inl (hsym u v huv)
          · exact Or.inr (Or.inr ⟨huv.2, huv.1⟩)
          · exact Or.inr (Or.inl ⟨huv.2, huv.1⟩)
        · exact nodup_addNeighbor g.nodes p1 p2 hnd
  | removeEdge index1 index2 =>
    simp only [applyOp, Graph.removeEdge] at h
    cases h1 : g.findNode index1 with
    | none => rw [h1] at h; simp at h
    | some p1 =>
      cases h2 : g.findNode index2 with
      | none => rw [h1, h2] at h; simp at h
      | some p2 =>
        rw [h1, h2] at h
        simp only [Option.some.injEq] at h
        subst h
        constructor
        · intro u v
          simp only [mem_neighborsAt_removeNeighbor]
          rintro ⟨huv, hn1, hn2⟩
          exact ⟨hsym u v huv, fun e => hn2 ⟨e.2, e.1⟩, fun e => hn1 ⟨e.2, e.1⟩⟩
        · exact nodup_removeNeighbor g.nodes p1 p2 hnd

theorem applyOps_invariant (ops : List GraphOp) :
    ∀ (g g1 : Graph), applyOps g ops = some g1 →
      (∀ u v, v ∈ neighborsAt g.nodes u → u ∈ neighborsAt g.nodes v) →
      (∀ p, (neighborsAt g.nodes p).Nodup) →
      (∀ u v, v ∈ neighborsAt g1.nodes u → u ∈ neighborsAt g1.nodes v) ∧
        ∀ p, (neighborsAt g1.nodes p).Nodup := by
  induction ops with
  | nil =>
    intro g g1 h hsym hnd
    simp only [applyOps, Option.some.injEq] at h
    subst h
    exact ⟨hsym, hnd⟩
  | cons op rest ih =>
    intro g g1 h hsym hnd
    simp only [applyOps] at h
    cases hop : applyOp g op with
    | none => rw [hop] at h; simp at h
    | some g2 =>
      rw [hop] at h
      simp only at h
      obtain ⟨s2, n2⟩ := applyOp_invariant g g2 op hop hsym hnd
      exact ih g2 g1 h s2 n2

theorem findIdx?_index_congr (index : Int) (a b : List GraphNode)
    (h : a.map GraphNode.index = b.map GraphNode.index) :
    a.findIdx? (fun n => n.getIndex == index) = b.findIdx? (fun n => n.getIndex == index) := by
  induction a generalizing b with
  | nil =>
    cases b with
    | nil => rfl
    | cons y b => simp at h
  | cons x a ih =>
    cases b with
    | nil => simp at h
    | cons y b =>
      simp only [List.map_cons, List.cons.injEq] at h
      have ih2 := ih b h.2
      simp only [GraphNode.getIndex] at ih2
      simp only [List.findIdx?_cons, GraphNode.getIndex, h.1, Nat.zero_add, List.findIdx?_succ]
      rw [ih2]

theorem pushNeighbor_of_mem (nodes : List GraphNode) (a b : Nat)
    (h : b ∈ neighborsAt nodes a) : pushNeighbor nodes a b = nodes := by
  unfold pushNeighbor
  unfold neighborsAt at h
  cases hn : nodes[a]? with
  | none => rw [hn] at h; simp at h
  | some n =>
    rw [hn] at h
    simp only at h
    simp [GraphNode.isNeighbor, h]

theorem addNeighbor_of_mem (nodes : List GraphNode) (a b : Nat)
    (h1 : b ∈ neighborsAt nodes a) (h2 : a ∈ neighborsAt nodes b) :
    (addNeighbor nodes a b).2 = nodes := by
  simp only [addNeighbor]
  rw [pushNeighbor_of_mem nodes a b h1, pushNeighbor_of_mem nodes b a h2]

theorem addEdge_twice (g g1 : Graph) (i j : Int) (h : g.addEdge i j = some g1) :
    g1.addEdge i j = some g1 ∧ g1.addEdge j i = some g1 := by
  unfold Graph.addEdge at h
  cases h1 : g.findNode i with
  | none => rw [h1] at h; simp at h
  | some p1 =>
    cases h2 : g.findNode j with
    | none => rw [h1, h2] at h; simp at h
    | some p2 =>
      rw [h1, h2] at h
      simp only [Option.some.injEq] at h
      have l1 := findNode_lt g i p1 h1
      have l2 := findNode_lt g j p2 h2
      have hidx : g1.nodes.map GraphNode.index = g.nodes.map GraphNode.index := by
        rw [← h]; exact index_addNeighbor _ _ _
      have f1 : g1.findNode i = some p1 := by
        unfold Graph.findNode at h1 ⊢
        rw [findIdx?_index_congr i g1.nodes g.nodes hidx]; exact h1
      have f2 : g1.findNode j = some p2 := by
        unfold Graph.findNode at h2 ⊢
        rw [findIdx?_index_congr j g1.nodes g.nodes hidx]; exact h2
      have m12 : p2 ∈ neighborsAt g1.nodes p1 := by
        rw [← h]
        exact (mem_neighborsAt_addNeighbor g.nodes p1 p2 l1 l2 p1 p2).mpr
          (Or.inr (Or.inl ⟨rfl, rfl⟩))
      have m21 : p1 ∈ neighborsAt g1.nodes p2 := by
        rw [← h]
        exact (mem_neighborsAt_addNeighbor g.nodes p1 p2 l1 l2 p2 p1).mpr
          (Or.inr (Or.inr ⟨rfl, rfl⟩))
      constructor
      · unfold Graph.addEdge
        rw [f1, f2]
        simp only [addNeighbor_of_mem g1.nodes p1 p2 m12 m21]
      · unfold Graph.addEdge
        rw [f1, f2]
        simp only [addNeighbor_of_mem g1.nodes p2 p1 m21 m12]

/-! ## removeNode -/

/-- C18, the code at a failing input.  The sample graph has nodes `0, 1, 2`
and the single edge `1 - 2`, a symmetric adjacency.  `removeNode(0)` erases
the isolated node `0`, returns the new size `2` and touches no neighbour list:
the node of index `1`, now in the first slot, still holds the pointer to the
third slot, which no longer exists, and the node of index `2`, now in the
second slot, holds the pointer to the second slot, itself.  The adjacency is
no longer symmetric.  `removeNode(2)`, which erases the last node, runs the
iterator past `end()`. -/
theorem removeNode_breaks_adjacency :
    (∀ u v, v ∈ neighborsAt sampleEdge.nodes u → u ∈ neighborsAt sampleEdge.nodes v) ∧
      sampleEdge.removeNode 0
        = some (2, { nodes := [⟨1, -1, [2]⟩, ⟨2, -1, [1]⟩] }) ∧
      (∃ r, sampleEdge.removeNode 0 = some r ∧
        2 ∈ neighborsAt r.2.nodes 0 ∧ ¬ 2 < r.2.nodes.length ∧
        0 ∉ neighborsAt r.2.nodes 2 ∧ 1 ∈ neighborsAt r.2.nodes 1) ∧
      sampleEdge.removeNode 2 = none := by
  refine ⟨?_, by decide, ⟨_, rfl, by decide, by decide, by decide, by decide⟩, by decide⟩
  intro u v h
  rcases u with _ | _ | _ | u
  · simp [neighborsAt, sampleEdge] at h
  · simp only [neighborsAt, sampleEdge, List.getElem?_cons_succ, List.getElem?_cons_zero,
      List.mem_singleton] at h
    subst h; decide
  · simp only [neighborsAt, sampleEdge, List.getElem?_cons_succ, List.getElem?_cons_zero,
      List.mem_singleton] at h
    subst h; decide
  · simp [neighborsAt, sampleEdge] at h

/-! ## Determinism of the colouring -/

theorem satAt_eq_card (nodes : List GraphNode) (p : Nat) :
    satAt nodes p
      = (((neighborsAt nodes p).map (colorAt nodes)).filter
          (fun c => decide (0 ≤ c))).toFinset.card := by
  unfold satAt neighborsAt
  cases nodes[p]? with
  | none => simp
  | some n => exact getSaturation_eq nodes n

theorem probe_le_degree (nodes : List GraphNode) (next limit : Nat) (c : Int)
    (h : probeColor nodes next limit 0 = some c) : c ≤ (degAt nodes next : Int) := by
  obtain ⟨hc0, _, hlow⟩ := probeColor_spec nodes next limit 0 c h
  obtain ⟨d, rfl⟩ := Int.eq_ofNat_of_zero_le hc0
  have hsub : (List.range d).map (fun k : Nat => (k : Int))
      ⊆ (neighborsAt nodes next).map (colorAt nodes) := by
    intro x hx
    obtain ⟨k, hk, rfl⟩ := List.mem_map.mp hx
    rw [List.mem_range] at hk
    obtain ⟨q, hq, _, hqc⟩ := (validAt_false_iff nodes next (k : Int)).mp
      (hlow (k : Int) (by omega) (by omega))
    exact List.mem_map.mpr ⟨q, hq, hqc⟩
  have hnd : ((List.range d).map (fun k : Nat => (k : Int))).Nodup :=
    (List.nodup_range d).map (fun a b hab => by exact_mod_cast hab)
  have hle := (List.subperm_of_subset hnd hsub).length_le
  simp only [List.length_map, List.length_range] at hle
  rw [degAt_eq]
  exact_mod_cast hle

/-- The loop never gives a node a color above its degree. -/
theorem colorLoop_le_degree (limit fuel : Nat) (nodes res : List GraphNode)
    (h0 : ∀ p, colorAt nodes p ≤ (degAt nodes p : Int))
    (h : colorLoop limit fuel nodes = some res) :
    ∀ p, colorAt res p ≤ (degAt res p : Int) := by
  have key := colorLoop_induct limit
    (fun cur => ∀ p, colorAt cur p ≤ (degAt cur p : Int))
    (by
      intro cur next c hP _ hpr p
      rw [colorAt_setColor, degAt_setColor]
      split
      · next hp =>
        rw [hp.1]
        exact probe_le_degree cur next limit c hpr
      · exact hP p)
    fuel nodes res h0 h
  exact key.1

theorem colorSet_all (nodes : List GraphNode) (c : Int) (h : ∀ n ∈ nodes, n.color = c) :
    colorSet nodes c = nodes.map GraphNode.index := by
  rw [colorSet_eq_filter, List.filter_eq_self.mpr]
  intro n hn
  simp [h n hn]

/-- C19. Pairwise disjoint boxes: for every sequence of `N` boxes of which no
two at distinct positions intersect (non-empty or not), the conflict graph
has no edge (every neighbour list is empty), `colorDSATUR` gives every node
the color `0`, and `getColorSets` returns exactly one group,
`[0, 1, ..., N-1]`. -/
theorem disjoint_boxes_one_group {α : Type} [LT α] [DecidableRel (fun a b : α => a < b)]
    (AABBs : List (AABB α)) (fuel : Nat)
    (hdis : ∀ (i j : Nat) (a b : AABB α), i ≠ j → AABBs[i]? = some a → AABBs[j]? = some b →
      a.intersects b = false)
    (hfuel : AABBs.length < fuel) :
    ∃ g g', getCollisions AABBs = some g ∧ (∀ n ∈ g.nodes, n.neighbors = []) ∧
      g.colorDSATUR fuel = some g' ∧ g'.nodes.length = AABBs.length ∧
      (∀ n ∈ g'.nodes, n.color = 0) ∧
      g'.getColorSets = some [(List.range AABBs.length).map (fun k : Nat => (k : Int))] := by
  obtain ⟨g, hg, hidx, _, _, hedge⟩ := getCollisions_spec AABBs
  have hnb : ∀ p, neighborsAt g.nodes p = [] := by
    intro p
    apply List.eq_nil_iff_forall_not_mem.mpr
    intro r hr
    obtain ⟨hne2, a, b, ha, hb, hint⟩ := (hedge p r).mp hr
    rw [hdis p r a b hne2 ha hb] at hint
    cases hint
  have hnodes : ∀ n ∈ g.nodes, n.neighbors = [] := by
    intro n hn
    obtain ⟨p, hp, rfl⟩ := List.getElem_of_mem hn
    have := hnb p
    unfold neighborsAt at this
    rw [List.getElem?_eq_getElem hp] at this
    exact this
  have hlen : g.nodes.length = AABBs.length := by
    have := congrArg List.length hidx
    simpa using this
  have hdeg : ∀ n ∈ g.nodes, n.getDegree < fuel := by
    intro n hn
    simp only [GraphNode.getDegree, hnodes n hn, List.length_nil]
    omega
  obtain ⟨g', h1, hloop, h2, h3, h4, _⟩ := colorDSATUR_some g fuel (by omega) hdeg
  have hle := colorLoop_le_degree fuel fuel _ g'.nodes
    (by
      intro p
      rw [colorAt_resetColors]
      omega)
    hloop
  have hlen' : g'.nodes.length = AABBs.length := by
    rw [length_of_map_eq _ _ h3, hlen]
  have hzero : ∀ n ∈ g'.nodes, n.color = 0 := by
    intro n hn
    obtain ⟨p, hp, hc⟩ := colorAt_of_mem g'.nodes n hn
    have hd : degAt g'.nodes p = 0 := by
      rw [degAt_eq, neighborsAt_of_map_eq _ _ h3, hnb]
      rfl
    have := hle p
    have := h4 p hp
    rw [hd] at *
    omega
  refine ⟨g, g', hg, hnodes, h1, hlen', hzero, ?_⟩
  obtain ⟨M, hM, hsets⟩ := getColorSets_some g' (fun n hn => by rw [hzero n hn])
  obtain ⟨_, hb, hatt⟩ := maxColorLoop_some g'.nodes 0 M hM
  have hM0 : M = 0 := by
    rcases hatt with h0 | ⟨n, hn, hc⟩
    · exact_mod_cast h0
    · rw [hzero n hn] at hc
      exact_mod_cast hc.symm
  subst hM0
  rw [hsets]
  have hr : List.range (0 + 1) = [0] := rfl
  rw [hr]
  simp only [List.map_cons, List.map_nil, Nat.cast_zero]
  rw [colorSet_all g'.nodes 0 hzero, h2, hidx]

/-- C19 on the three boxes of the first end-to-end scenario. -/
theorem disjoint_boxes_one_group_witness :
    ∃ g g',
      getCollisions [(⟨0, 0, 0, 1, 1, 1⟩ : AABB Int), ⟨5, 5, 5, 6, 6, 6⟩,
        ⟨10, 10, 10, 11, 11, 11⟩] = some g ∧
      (∀ n ∈ g.nodes, n.neighbors = []) ∧
      g.colorDSATUR 4 = some g' ∧
      g'.nodes.length = [(⟨0, 0, 0, 1, 1, 1⟩ : AABB Int), ⟨5, 5, 5, 6, 6, 6⟩,
        ⟨10, 10, 10, 11, 11, 11⟩].length ∧
      (∀ n ∈ g'.nodes, n.color = 0) ∧
      g'.getColorSets = some [(List.range
        [(⟨0, 0, 0, 1, 1, 1⟩ : AABB Int), ⟨5, 5, 5, 6, 6, 6⟩,
          ⟨10, 10, 10, 11, 11, 11⟩].length).map (fun k : Nat => (k : Int))] :=
  disjoint_boxes_one_group _ 4
    (by
      intro i j a b hij ha hb
      rcases i with _ | _ | _ | i <;> rcases j with _ | _ | _ | j <;>
        simp at ha hb hij <;> subst ha <;> subst hb <;> decide)
    (by decide)

/-- The first end-to-end scenario evaluated. -/
theorem scenario_disjoint :
    splitGroups 4 [(⟨0, 0, 0, 1, 1, 1⟩ : AABB Int), ⟨5, 5, 5, 6, 6, 6⟩,
      ⟨10, 10, 10, 11, 11, 11⟩] = some [[0, 1, 2]] := by decide

/-! ## The complete graph -/

theorem complete_degree (cur : List GraphNode) (n : Nat)
    (hadj : ∀ s r, r ∈ neighborsAt cur s ↔ s ≠ r ∧ s < n ∧ r < n)
    (hnd : ∀ p, (neighborsAt cur p).Nodup) (q : Nat) (hq : q < n) :
    degAt cur q + 1 = n := by
  have hnd2 : (q :: neighborsAt cur q).Nodup := by
    rw [List.nodup_cons]
    exact ⟨fun hmem => ((hadj q q).mp hmem).1 rfl, hnd q⟩
  have hperm : List.Perm (q :: neighborsAt cur q) (List.range n) := by
    rw [List.perm_ext_iff_of_nodup hnd2 (List.nodup_range n)]
    intro x
    rw [List.mem_cons, hadj, List.mem_range]
    constructor
    · rintro (rfl | ⟨_, _, hx⟩)
      · exact hq
      · exact hx
    · intro hx
      by_cases hxq : x = q
      · exact Or.inl hxq
      · exact Or.inr ⟨fun e => hxq e.symm, hq, hx⟩
  have := hperm.length_eq
  simp only [List.length_cons, List.length_range] at this
  rw [degAt_eq]
  exact this

theorem complete_sat_eq (cur : List GraphNode) (n : Nat)
    (hadj : ∀ s r, r ∈ neighborsAt cur s ↔ s ≠ r ∧ s < n ∧ r < n)
    (q q' : Nat) (hq : q < n) (hq' : q' < n)
    (cq : colorAt cur q = -1) (cq' : colorAt cur q' = -1) :
    satAt cur q = satAt cur q' := by
  have key : ∀ a b : Nat, a < n → b < n → colorAt cur b = -1 → ∀ c : Int,
      (0 ≤ c ∧ ∃ r ∈ neighborsAt cur a, colorAt cur r = c) →
        (0 ≤ c ∧ ∃ r ∈ neighborsAt cur b, colorAt cur r = c) := by
    intro a b _ hb cb c hc
    obtain ⟨hc0, r, hr, hrc⟩ := hc
    obtain ⟨_, _, hrn⟩ := (hadj a r).mp hr
    refine ⟨hc0, r, (hadj b r).mpr ⟨?_, hb, hrn⟩, hrc⟩
    intro e
    subst e
    omega
  rw [satAt_eq_card, satAt_eq_card]
  congr 1
  ext c
  simp only [List.mem_toFinset, List.mem_filter, List.mem_map, decide_eq_true_eq]
  constructor
  · rintro ⟨⟨r, hr, hrc⟩, hc0⟩
    obtain ⟨h0, r', hr', hrc'⟩ := key q q' hq hq' cq' c ⟨hc0, r, hr, hrc⟩
    exact ⟨⟨r', hr', hrc'⟩, h0⟩
  · rintro ⟨⟨r, hr, hrc⟩, hc0⟩
    obtain ⟨h0, r', hr', hrc'⟩ := key q' q hq' hq cq c ⟨hc0, r, hr, hrc⟩
    exact ⟨⟨r', hr', hrc'⟩, h0⟩

/-- On a complete graph the loop colors the nodes in storage order, the node
at position `p` getting the color `p`. -/
theorem colorLoop_complete (limit fuel n : Nat) (nodes res : List GraphNode)
    (hadj : ∀ s r, r ∈ neighborsAt nodes s ↔ s ≠ r ∧ s < n ∧ r < n)
    (hnd : ∀ p, (neighborsAt nodes p).Nodup)
    (hlen : nodes.length = n)
    (h0 : ∀ p, colorAt nodes p = -1)
    (h : colorLoop limit fuel nodes = some res) :
    ∀ p < n, colorAt res p = (p : Int) := by
  have key := colorLoop_induct limit
    (fun cur => cur.length = n ∧ (∀ p, neighborsAt cur p = neighborsAt nodes p) ∧
      ∃ k, k ≤ n ∧ (∀ p, p < k → colorAt cur p = (p : Int)) ∧
        ∀ p, k ≤ p → colorAt cur p = -1)
    (by
      intro cur next c hP hsel hpr
      obtain ⟨hl, hN, k, hk, hlow, hhigh⟩ := hP
      have hadj' : ∀ s r, r ∈ neighborsAt cur s ↔ s ≠ r ∧ s < n ∧ r < n := by
        intro s r; rw [hN]; exact hadj s r
      have hnd' : ∀ p, (neighborsAt cur p).Nodup := by
        intro p; rw [hN]; exact hnd p
      obtain ⟨s1, s2, s3⟩ := scan_some cur cur.length next hsel
      rw [hl] at s1
      have hkn : k ≤ next := by
        by_contra hlt
        have := hlow next (by omega)
        omega
      have hnext : next = k := by
        by_contra hne
        have hklt : k < next := by omega
        have hkc : colorAt cur k = -1 := hhigh k (le_refl _)
        have := (s3 k (by omega) hkc).2 hklt
        have hs := complete_sat_eq cur n hadj' k next (by omega) s1 hkc s2
        have hd1 := complete_degree cur n hadj' hnd' k (by omega)
        have hd2 := complete_degree cur n hadj' hnd' next s1
        omega
      subst hnext
      obtain ⟨hc0, hval, hlowc⟩ := probeColor_spec cur next limit 0 c hpr
      rw [validAt_iff] at hval
      have hc : c = (next : Int) := by
        rcases lt_trichotomy c (next : Int) with hlt | heq | hgt
        · exfalso
          obtain ⟨d, rfl⟩ := Int.eq_ofNat_of_zero_le hc0
          have hd : d < next := by exact_mod_cast hlt
          have hmem : d ∈ neighborsAt cur next :=
            (hadj' next d).mpr ⟨by omega, s1, by omega⟩
          exact hval d hmem (by rw [hlow d hd]; omega) (hlow d hd)
        · exact heq
        · exfalso
          obtain ⟨q, hq, hq0, hqc⟩ := (validAt_false_iff cur next (next : Int)).mp
            (hlowc (next : Int) (by omega) hgt)
          obtain ⟨hne, _, _⟩ := (hadj' next q).mp hq
          by_cases hqk : q < next
          · rw [hlow q hqk] at hqc
            have : q = next := by exact_mod_cast hqc
            omega
          · rw [hhigh q (by omega)] at hqc
            omega
      subst hc
      refine ⟨by rw [length_updateNode]; exact hl, ?_, next + 1, by omega, ?_, ?_⟩
      · intro p
        rw [neighborsAt_setColor, hN]
      · intro p hp
        rw [colorAt_setColor]
        by_cases hpn : p = next
        · subst hpn
          rw [if_pos ⟨rfl, by omega⟩]
        · rw [if_neg (fun e => hpn e.1)]
          exact hlow p (by omega)
      · intro p hp
        rw [colorAt_setColor, if_neg (fun e => by omega)]
        exact hhigh p (by omega))
    fuel nodes res ⟨hlen, fun _ => rfl, 0, Nat.zero_le _, fun p hp => absurd hp (by omega),
      fun p _ => h0 p⟩ h
  obtain ⟨⟨hl, _, k, hk, hlow, hhigh⟩, hnone⟩ := key
  have hall := (selectNext_none_iff res).mp hnone
  have hkn : k = n := by
    by_contra hne
    exact hall k (by omega) (hhigh k (le_refl _))
  subst hkn
  exact hlow

theorem colorSet_singleton (nodes : List GraphNode) (n : Nat)
    (hidx : nodes.map GraphNode.index = (List.range n).map (fun k : Nat => (k : Int)))
    (hcol : ∀ p < n, colorAt nodes p = (p : Int)) (c : Nat) (hc : c < n) :
    colorSet nodes (c : Int) = [(c : Int)] := by
  have hlen : nodes.length = n := by
    have := congrArg List.length hidx
    simpa using this
  have hsub : (colorSet nodes (c : Int)).Sublist (nodes.map GraphNode.index) := by
    rw [colorSet_eq_filter]
    exact (List.filter_sublist _).map _
  have hnd : (colorSet nodes (c : Int)).Nodup := by
    apply List.Nodup.sublist hsub
    rw [hidx]
    exact (List.nodup_range n).map (fun a b hab => by exact_mod_cast hab)
  rw [← List.perm_singleton, List.perm_ext_iff_of_nodup hnd (List.nodup_singleton _)]
  intro x
  rw [mem_colorSet_ordered nodes n hidx, List.mem_singleton]
  constructor
  · rintro ⟨p, hp, hpc, rfl⟩
    rw [hcol p (by omega)] at hpc
    exact hpc
  · intro hx
    exact ⟨c, by omega, hcol c hc, hx⟩

/-- C20. Pairwise intersecting boxes: for every sequence of `N ≥ 1` boxes of
which any two at distinct positions intersect, the conflict graph is complete,
`colorDSATUR` gives the node at position `i` (whose index is `i`) the color
`i`, and `getColorSets` returns `N` groups, group `i` being `[i]`. -/
theorem intersecting_boxes_singletons {α : Type} [LT α] [DecidableRel (fun a b : α => a < b)]
    (AABBs : List (AABB α)) (fuel : Nat) (hpos : 0 < AABBs.length)
    (hall : ∀ (i j : Nat) (a b : AABB α), i ≠ j → AABBs[i]? = some a → AABBs[j]? = some b →
      a.intersects b = true)
    (hfuel : AABBs.length < fuel) :
    ∃ g g', getCollisions AABBs = some g ∧
      (∀ i j, i < AABBs.length → j < AABBs.length → i ≠ j → j ∈ neighborsAt g.nodes i) ∧
      g.colorDSATUR fuel = some g' ∧
      (∀ i < AABBs.length, ∃ m, g'.nodes[i]? = some m ∧ m.index = (i : Int) ∧
        m.color = (i : Int)) ∧
      g'.getColorSets = some ((List.range AABBs.length).map (fun i : Nat => [(i : Int)])) := by
  obtain ⟨g, hg, hidx, _, hnd, hedge⟩ := getCollisions_spec AABBs
  have hlen : g.nodes.length = AABBs.length := by
    have := congrArg List.length hidx
    simpa using this
  have hadj : ∀ s r, r ∈ neighborsAt g.nodes s ↔ s ≠ r ∧ s < AABBs.length ∧ r < AABBs.length := by
    intro s r
    rw [hedge]
    constructor
    · rintro ⟨hne, a, b, ha, hb, _⟩
      rcases List.getElem?_eq_some_iff.mp ha with ⟨h1, _⟩
      rcases List.getElem?_eq_some_iff.mp hb with ⟨h2, _⟩
      exact ⟨hne, h1, h2⟩
    · rintro ⟨hne, hs, hr⟩
      exact ⟨hne, AABBs[s], AABBs[r], List.getElem?_eq_getElem hs, List.getElem?_eq_getElem hr,
        hall s r _ _ hne (List.getElem?_eq_getElem hs) (List.getElem?_eq_getElem hr)⟩
  have hdeg : ∀ n ∈ g.nodes, n.getDegree < fuel := by
    intro n hn
    obtain ⟨p, hp, rfl⟩ := List.getElem_of_mem hn
    have hd := complete_degree g.nodes AABBs.length hadj hnd p (by omega)
    unfold degAt at hd
    rw [List.getElem?_eq_getElem hp] at hd
    simp only at hd
    omega
  obtain ⟨g', h1, hloop, h2, h3, h4, _⟩ := colorDSATUR_some g fuel (by omega) hdeg
  have hcol := colorLoop_complete fuel fuel AABBs.length (resetColors g.nodes) g'.nodes
    (by intro s r; rw [neighborsAt_resetColors]; exact hadj s r)
    (by intro p; rw [neighborsAt_resetColors]; exact hnd p)
    (by rw [length_resetColors]; exact hlen)
    (colorAt_resetColors g.nodes) hloop
  have hidx' : g'.nodes.map GraphNode.index
      = (List.range AABBs.length).map (fun k : Nat => (k : Int)) := by rw [h2, hidx]
  have hlen' : g'.nodes.length = AABBs.length := by
    rw [length_of_map_eq _ _ h3, hlen]
  refine ⟨g, g', hg, fun i j hi hj hij => (hadj i j).mpr ⟨hij, hi, hj⟩, h1, ?_, ?_⟩
  · intro i hi
    have hi' : i < g'.nodes.length := by omega
    refine ⟨g'.nodes[i], List.getElem?_eq_getElem hi', index_of_ordered _ _ hidx' i hi', ?_⟩
    have := hcol i hi
    unfold colorAt at this
    rw [List.getElem?_eq_getElem hi'] at this
    exact this
  · have hcolnodes : ∀ n ∈ g'.nodes, 0 ≤ n.color := by
      intro n hn
      obtain ⟨p, hp, hc⟩ := colorAt_of_mem g'.nodes n hn
      rw [← hc]
      exact h4 p hp
    obtain ⟨M, hM, hsets⟩ := getColorSets_some g' hcolnodes
    obtain ⟨_, hb, hatt⟩ := maxColorLoop_some g'.nodes 0 M hM
    have hM1 : M + 1 = AABBs.length := by
      have hlast : (AABBs.length - 1 : Nat) ≤ M := by
        obtain ⟨m, hm, hmc⟩ := mem_of_colorAt g'.nodes (AABBs.length - 1) (by omega)
        have h5 := (hb m hm).2
        rw [hmc, hcol _ (by omega)] at h5
        exact_mod_cast h5
      have hup : M ≤ AABBs.length - 1 := by
        rcases hatt with h0 | ⟨m, hm, hmc⟩
        · have : M = 0 := by exact_mod_cast h0
          omega
        · obtain ⟨p, hp, hpc⟩ := colorAt_of_mem g'.nodes m hm
          rw [hmc, hcol p (by omega)] at hpc
          have : p = M := by exact_mod_cast hpc
          omega
      omega
    rw [hsets, hM1]
    congr 1
    apply List.map_congr_left
    intro c hc
    rw [List.mem_range] at hc
    exact colorSet_singleton g'.nodes AABBs.length hidx' hcol c hc

/-- C20 on three boxes that overlap pairwise. -/
theorem intersecting_boxes_singletons_witness :
    ∃ g g',
      getCollisions [(⟨0, 0, 0, 2, 2, 2⟩ : AABB Int), ⟨1, 1, 1, 3, 3, 3⟩,
        ⟨1, 0, 1, 4, 4, 4⟩] = some g ∧
      (∀ i j, i < [(⟨0, 0, 0, 2, 2, 2⟩ : AABB Int), ⟨1, 1, 1, 3, 3, 3⟩,
          ⟨1, 0, 1, 4, 4, 4⟩].length →
        j < [(⟨0, 0, 0, 2, 2, 2⟩ : AABB Int), ⟨1, 1, 1, 3, 3, 3⟩,
          ⟨1, 0, 1, 4, 4, 4⟩].length → i ≠ j → j ∈ neighborsAt g.nodes i) ∧
      g.colorDSATUR 4 = some g' ∧
      (∀ i < [(⟨0, 0, 0, 2, 2, 2⟩ : AABB Int), ⟨1, 1, 1, 3, 3, 3⟩,
          ⟨1, 0, 1, 4, 4, 4⟩].length,
        ∃ m, g'.nodes[i]? = some m ∧ m.index = (i : Int) ∧ m.color = (i : Int)) ∧
      g'.getColorSets = some ((List.range
        [(⟨0, 0, 0, 2, 2, 2⟩ : AABB Int), ⟨1, 1, 1, 3, 3, 3⟩,
          ⟨1, 0, 1, 4, 4, 4⟩].length).map (fun i : Nat => [(i : Int)])) :=
  intersecting_boxes_singletons _ 4 (by decide)
    (by
      intro i j a b hij ha hb
      rcases i with _ | _ | _ | i <;> rcases j with _ | _ | _ | j <;>
        simp at ha hb hij <;> subst ha <;> subst hb <;> decide)
    (by decide)

/-- The second end-to-end scenario evaluated. -/
theorem scenario_triangle :
    splitGroups 4 [(⟨0, 0, 0, 2, 2, 2⟩ : AABB Int), ⟨1, 1, 1, 3, 3, 3⟩,
      ⟨1, 0, 1, 4, 4, 4⟩] = some [[0], [1], [2]] := by decide


/-! ## The Petersen test -/

/-- C21. The Petersen test: the graph built by the calls of `testPetersen` has
size 10, edge count 15 and every node of degree 3; `colorDSATUR` colors it
with the colors `0, 1, 0, 1, 2, 1, 0, 2, 2, 1` in storage order, no two
adjacent nodes get equal colors, exactly the three colors `0, 1, 2` are used
and `getColorSets` returns three groups. -/
theorem petersen_test :
    ∃ g g', applyOps Graph.empty petersenOps = some g ∧
      g.getSize = 10 ∧ g.getEdgeCount = 15 ∧ (∀ n ∈ g.nodes, n.getDegree = 3) ∧
      g.colorDSATUR 11 = some g' ∧
      g'.nodes.map GraphNode.color = [0, 1, 0, 1, 2, 1, 0, 2, 2, 1] ∧
      g'.nodes.map GraphNode.neighbors = g.nodes.map GraphNode.neighbors ∧
      (∀ u < g'.nodes.length, ∀ v ∈ neighborsAt g'.nodes u,
        colorAt g'.nodes u ≠ colorAt g'.nodes v) ∧
      g'.getColorSets = some [[0, 2, 6], [1, 3, 5, 9], [4, 7, 8]] := by
  refine ⟨{ nodes := [⟨0, -1, [1, 4, 5]⟩, ⟨1, -1, [0, 2, 6]⟩, ⟨2, -1, [1, 3, 7]⟩,
      ⟨3, -1, [2, 4, 8]⟩, ⟨4, -1, [3, 0, 9]⟩, ⟨5, -1, [0, 7, 8]⟩, ⟨6, -1, [1, 9, 8]⟩,
      ⟨7, -1, [2, 5, 9]⟩, ⟨8, -1, [3, 6, 5]⟩, ⟨9, -1, [4, 7, 6]⟩] },
    { nodes := [⟨0, 0, [1, 4, 5]⟩, ⟨1, 1, [0, 2, 6]⟩, ⟨2, 0, [1, 3, 7]⟩,
      ⟨3, 1, [2, 4, 8]⟩, ⟨4, 2, [3, 0, 9]⟩, ⟨5, 1, [0, 7, 8]⟩, ⟨6, 0, [1, 9, 8]⟩,
      ⟨7, 2, [2, 5, 9]⟩, ⟨8, 2, [3, 6, 5]⟩, ⟨9, 1, [4, 7, 6]⟩] },
    by decide, by decide, by decide, by decide, by decide, by decide, by decide, by decide,
    by decide⟩

/-! ## The color bound -/

theorem degree_of_mem (nodes : List GraphNode) (n : GraphNode) (hn : n ∈ nodes) :
    ∃ p, p < nodes.length ∧ colorAt nodes p = n.color ∧ degAt nodes p = n.getDegree := by
  obtain ⟨p, hp, rfl⟩ := List.getElem_of_mem hn
  refine ⟨p, hp, ?_, ?_⟩
  · unfold colorAt
    rw [List.getElem?_eq_getElem hp]
    rfl
  · unfold degAt
    rw [List.getElem?_eq_getElem hp]

/-- C23. Color bound: `colorDSATUR` (with a budget above the node count and
above every degree) returns a graph in which every node `v` has
`0 ≤ color(v) ≤ degree(v)`; hence `getColorSets` returns at most `D + 1`
groups whenever no degree exceeds `D`, in particular at most
(maximum degree) + 1. -/
theorem colorDSATUR_color_le_degree (g : Graph) (fuel : Nat) (hfuel : g.nodes.length < fuel)
    (hdeg : ∀ n ∈ g.nodes, n.getDegree < fuel) :
    ∃ g', g.colorDSATUR fuel = some g' ∧
      (∀ n ∈ g'.nodes, 0 ≤ n.color ∧ n.color ≤ (n.getDegree : Int)) ∧
      ∃ groups, g'.getColorSets = some groups ∧
        ∀ D : Nat, (∀ n ∈ g.nodes, n.getDegree ≤ D) → groups.length ≤ D + 1 := by
  obtain ⟨g', h1, hloop, _, h3, h4, _⟩ := colorDSATUR_some g fuel hfuel hdeg
  have hle := colorLoop_le_degree fuel fuel _ g'.nodes
    (by
      intro p
      rw [colorAt_resetColors]
      omega)
    hloop
  have hbound : ∀ n ∈ g'.nodes, 0 ≤ n.color ∧ n.color ≤ (n.getDegree : Int) := by
    intro n hn
    obtain ⟨p, hp, hc, hd⟩ := degree_of_mem g'.nodes n hn
    have a := h4 p hp
    have b := hle p
    rw [hc] at a b
    rw [hd] at b
    exact ⟨a, b⟩
  refine ⟨g', h1, hbound, ?_⟩
  obtain ⟨M, hM, hsets⟩ := getColorSets_some g' (fun n hn => (hbound n hn).1)
  obtain ⟨_, _, hatt⟩ := maxColorLoop_some g'.nodes 0 M hM
  refine ⟨_, hsets, ?_⟩
  intro D hD
  simp only [List.length_map, List.length_range]
  rcases hatt with h0 | ⟨n, hn, hc⟩
  · have : M = 0 := by exact_mod_cast h0
    omega
  · have hnb : n.neighbors ∈ g.nodes.map GraphNode.neighbors := by
      rw [← h3]
      exact List.mem_map_of_mem _ hn
    obtain ⟨m, hm, hmn⟩ := List.mem_map.mp hnb
    have h5 := hD m hm
    have h6 := (hbound n hn).2
    simp only [GraphNode.getDegree] at h5 h6
    rw [hmn] at h5
    rw [hc] at h6
    have : M ≤ n.neighbors.length := by exact_mod_cast h6
    omega

/-- C23 on the sample path graph. -/
theorem colorDSATUR_color_le_degree_witness :
    ∃ g', samplePath.colorDSATUR 5 = some g' ∧
      (∀ n ∈ g'.nodes, 0 ≤ n.color ∧ n.color ≤ (n.getDegree : Int)) ∧
      ∃ groups, g'.getColorSets = some groups ∧
        ∀ D : Nat, (∀ n ∈ samplePath.nodes, n.getDegree ≤ D) → groups.length ≤ D + 1 :=
  colorDSATUR_color_le_degree samplePath 5 (by decide) (by decide)

/-! ## Counting edges -/

theorem totalDegreeLoop_eq (nodes : List GraphNode) :
    ∀ acc, totalDegreeLoop nodes acc = acc + (nodes.map GraphNode.getDegree).sum := by
  induction nodes with
  | nil => intro acc; simp [totalDegreeLoop]
  | cons x rest ih =>
    intro acc
    simp only [totalDegreeLoop, ih, List.map_cons, List.sum_cons]
    omega

theorem sum_degrees_eq (nodes : List GraphNode) :
    (nodes.map GraphNode.getDegree).sum
      = Finset.sum (Finset.range nodes.length) (fun u => degAt nodes u) := by
  induction nodes with
  | nil => simp
  | cons x rest ih =>
    rw [List.length_cons, Finset.sum_range_succ', List.map_cons, List.sum_cons, ih]
    have h0 : degAt (x :: rest) 0 = x.getDegree := by simp [degAt]
    have hs : ∀ u, degAt (x :: rest) (u + 1) = degAt rest u := by
      intro u; simp [degAt]
    simp only [h0, hs]
    omega

theorem degAt_eq_sum (nodes : List GraphNode)
    (hsym : ∀ u v, v ∈ neighborsAt nodes u → u ∈ neighborsAt nodes v)
    (hnd : ∀ p, (neighborsAt nodes p).Nodup) (u : Nat) :
    degAt nodes u = Finset.sum (Finset.range nodes.length)
      (fun v => if v ∈ neighborsAt nodes u then 1 else 0) := by
  rw [degAt_eq, ← List.toFinset_card_of_nodup (hnd u), ← Finset.card_filter]
  congr 1
  ext v
  simp only [List.mem_toFinset, Finset.mem_filter, Finset.mem_range]
  constructor
  · intro h
    exact ⟨lt_of_mem_neighborsAt nodes v u (hsym u v h), h⟩
  · intro h
    exact h.2

/-- The handshake count: on a symmetric, irreflexive, duplicate-free
adjacency the degrees add up to twice the number of adjacent pairs. -/
theorem sum_degAt_eq_twice (nodes : List GraphNode)
    (hsym : ∀ u v, v ∈ neighborsAt nodes u → u ∈ neighborsAt nodes v)
    (hirr : ∀ u, u ∉ neighborsAt nodes u)
    (hnd : ∀ p, (neighborsAt nodes p).Nodup) :
    Finset.sum (Finset.range nodes.length) (fun u => degAt nodes u)
      = 2 * adjacentPairs nodes := by
  have hlow : ∀ u ∈ Finset.range nodes.length,
      ((Finset.range u).filter (fun v => v ∈ neighborsAt nodes u)).card
        = Finset.sum (Finset.range nodes.length)
            (fun v => if v < u ∧ v ∈ neighborsAt nodes u then 1 else 0) := by
    intro u hu
    rw [Finset.mem_range] at hu
    rw [← Finset.card_filter]
    congr 1
    ext v
    simp only [Finset.mem_filter, Finset.mem_range]
    constructor
    · rintro ⟨h1, h2⟩; exact ⟨by omega, h1, h2⟩
    · rintro ⟨_, h1, h2⟩; exact ⟨h1, h2⟩
  have hsplit : ∀ u, degAt nodes u
      = Finset.sum (Finset.range nodes.length)
          (fun v => if v < u ∧ v ∈ neighborsAt nodes u then 1 else 0)
        + Finset.sum (Finset.range nodes.length)
          (fun v => if u < v ∧ v ∈ neighborsAt nodes u then 1 else 0) := by
    intro u
    rw [degAt_eq_sum nodes hsym hnd u, ← Finset.sum_add_distrib]
    apply Finset.sum_congr rfl
    intro v _
    by_cases hv : v ∈ neighborsAt nodes u
    · have hne : v ≠ u := fun e => hirr u (e ▸ hv)
      rcases Nat.lt_or_gt_of_ne hne with hlt | hgt
      · have : ¬ u < v := by omega
        simp [hv, hlt, this]
      · have : ¬ v < u := by omega
        simp [hv, hgt, this]
    · simp [hv]
  have hswap : Finset.sum (Finset.range nodes.length) (fun u =>
        Finset.sum (Finset.range nodes.length)
          (fun v => if u < v ∧ v ∈ neighborsAt nodes u then 1 else 0))
      = Finset.sum (Finset.range nodes.length) (fun u =>
        Finset.sum (Finset.range nodes.length)
          (fun v => if v < u ∧ v ∈ neighborsAt nodes u then 1 else 0)) := by
    rw [Finset.sum_comm]
    apply Finset.sum_congr rfl
    intro u _
    apply Finset.sum_congr rfl
    intro v _
    have : (v < u ∧ u ∈ neighborsAt nodes v) ↔ (v < u ∧ v ∈ neighborsAt nodes u) :=
      ⟨fun h => ⟨h.1, hsym v u h.2⟩, fun h => ⟨h.1, hsym u v h.2⟩⟩
    simp only [this]
  have hpairs : adjacentPairs nodes
      = Finset.sum (Finset.range nodes.length) (fun u =>
        Finset.sum (Finset.range nodes.length)
          (fun v => if v < u ∧ v ∈ neighborsAt nodes u then 1 else 0)) := by
    unfold adjacentPairs
    exact Finset.sum_congr rfl hlow
  rw [Finset.sum_congr rfl (fun u _ => hsplit u), Finset.sum_add_distrib, hswap, ← hpairs]
  omega

theorem nodup_neighborsAt_of_nodes (nodes : List GraphNode)
    (h : ∀ n ∈ nodes, n.neighbors.Nodup) : ∀ p, (neighborsAt nodes p).Nodup := by
  intro p
  unfold neighborsAt
  cases hp : nodes[p]? with
  | none => exact List.nodup_nil
  | some n => exact h n (List.getElem?_mem hp)

theorem totalDegree_eq_twice (nodes : List GraphNode)
    (hsym : ∀ u v, v ∈ neighborsAt nodes u → u ∈ neighborsAt nodes v)
    (hirr : ∀ u, u ∉ neighborsAt nodes u)
    (hnd : ∀ p, (neighborsAt nodes p).Nodup) :
    totalDegreeLoop nodes 0 = 2 * adjacentPairs nodes := by
  rw [totalDegreeLoop_eq, sum_degrees_eq, sum_degAt_eq_twice nodes hsym hirr hnd]
  omega

theorem boxesIntersect_iff {α : Type} [LT α] [DecidableRel (fun a b : α => a < b)]
    (AABBs : List (AABB α)) (i j : Nat) :
    boxesIntersect AABBs i j = true ↔
      ∃ a b, AABBs[i]? = some a ∧ AABBs[j]? = some b ∧ a.intersects b = true := by
  unfold boxesIntersect
  cases hi : AABBs[i]? with
  | none => simp
  | some a =>
    cases hj : AABBs[j]? with
    | none => simp
    | some b => simp

/-- C22. `getEdgeCount` counts the edges: on every graph whose adjacency is
symmetric, irreflexive and duplicate-free the sum of all degrees is twice the
number of unordered pairs of adjacent nodes, hence even, and `getEdgeCount`
is that number of pairs; for the graph built by `getCollisions` it is the
number of pairs `i > j` whose boxes intersect. -/
theorem getEdgeCount_spec {α : Type} [LT α] [DecidableRel (fun a b : α => a < b)]
    (g : Graph)
    (hsym : ∀ u v, v ∈ neighborsAt g.nodes u → u ∈ neighborsAt g.nodes v)
    (hirr : ∀ u, u ∉ neighborsAt g.nodes u)
    (hnd : ∀ n ∈ g.nodes, n.neighbors.Nodup)
    (AABBs : List (AABB α)) :
    totalDegreeLoop g.nodes 0 = (g.nodes.map GraphNode.getDegree).sum ∧
      2 ∣ totalDegreeLoop g.nodes 0 ∧
      g.getEdgeCount = adjacentPairs g.nodes ∧
      ∃ g0, getCollisions AABBs = some g0 ∧ g0.getEdgeCount = intersectingPairs AABBs := by
  have htot := totalDegree_eq_twice g.nodes hsym hirr (nodup_neighborsAt_of_nodes g.nodes hnd)
  refine ⟨by rw [totalDegreeLoop_eq]; omega, ⟨adjacentPairs g.nodes, htot⟩, ?_, ?_⟩
  · unfold Graph.getEdgeCount
    rw [htot]
    omega
  · obtain ⟨g0, hg0, hidx, _, hnd0, hedge⟩ := getCollisions_spec AABBs
    have hlen : g0.nodes.length = AABBs.length := by
      have := congrArg List.length hidx
      simpa using this
    have hsym0 : ∀ u v, v ∈ neighborsAt g0.nodes u → u ∈ neighborsAt g0.nodes v := by
      intro u v huv
      obtain ⟨hne, a, b, ha, hb, hint⟩ := (hedge u v).mp huv
      exact (hedge v u).mpr
        ⟨fun e => hne e.symm, b, a, hb, ha, by rw [intersects_comm]; exact hint⟩
    have hirr0 : ∀ u, u ∉ neighborsAt g0.nodes u := by
      intro u hu
      exact ((hedge u u).mp hu).1 rfl
    have htot0 := totalDegree_eq_twice g0.nodes hsym0 hirr0 hnd0
    refine ⟨g0, hg0, ?_⟩
    unfold Graph.getEdgeCount
    rw [htot0]
    have hpairs : adjacentPairs g0.nodes = intersectingPairs AABBs := by
      unfold adjacentPairs intersectingPairs
      rw [hlen]
      apply Finset.sum_congr rfl
      intro u _
      congr 1
      apply Finset.filter_congr
      intro v hv
      rw [Finset.mem_range] at hv
      rw [hedge, boxesIntersect_iff]
      constructor
      · rintro ⟨_, h⟩; exact h
      · intro h; exact ⟨by omega, h⟩
    rw [← hpairs]
    omega

/-- C22 on the sample path graph and on two touching boxes next to a
distant one. -/
theorem getEdgeCount_spec_witness :
    totalDegreeLoop samplePath.nodes 0 = (samplePath.nodes.map GraphNode.getDegree).sum ∧
      2 ∣ totalDegreeLoop samplePath.nodes 0 ∧
      samplePath.getEdgeCount = adjacentPairs samplePath.nodes ∧
      ∃ g0, getCollisions [(⟨0, 0, 0, 1, 1, 1⟩ : AABB Int), ⟨1, 0, 0, 2, 1, 1⟩,
          ⟨5, 5, 5, 6, 6, 6⟩] = some g0 ∧
        g0.getEdgeCount = intersectingPairs [(⟨0, 0, 0, 1, 1, 1⟩ : AABB Int),
          ⟨1, 0, 0, 2, 1, 1⟩, ⟨5, 5, 5, 6, 6, 6⟩] :=
  getEdgeCount_spec samplePath samplePath_sym samplePath_irrefl (by decide) _

/-- The edge counts of the sample path graph and of those three boxes. -/
theorem getEdgeCount_samples :
    samplePath.getEdgeCount = 2 ∧ adjacentPairs samplePath.nodes = 2 ∧
      intersectingPairs [(⟨0, 0, 0, 1, 1, 1⟩ : AABB Int), ⟨1, 0, 0, 2, 1, 1⟩,
        ⟨5, 5, 5, 6, 6, 6⟩] = 1 := by decide

/-! ## Two-colorable graphs -/

theorem satAt_eq_zero_iff (cur : List GraphNode) (p : Nat) :
    satAt cur p = 0 ↔ ∀ q ∈ neighborsAt cur p, ¬ 0 ≤ colorAt cur q := by
  rw [satAt_eq_card, Finset.card_eq_zero, List.toFinset_eq_empty_iff, List.filter_eq_nil_iff]
  simp only [List.mem_map, decide_eq_true_eq, forall_exists_index, and_imp,
    forall_apply_eq_imp_iff₂]

/-- In a round whose selected node has no colored neighbour, no node that can
be reached from it along edges is colored: the scan prefers saturated nodes,
so every uncolored node then has saturation zero. -/
theorem component_uncolored (nodes cur : List GraphNode) (next : Nat)
    (hN : ∀ p, neighborsAt cur p = neighborsAt nodes p)
    (hcol : ∀ u, colorAt cur u = -1 ∨ 0 ≤ colorAt cur u)
    (hsel : selectNext cur = some next)
    (hnone : ∀ q ∈ neighborsAt cur next, ¬ 0 ≤ colorAt cur q) :
    ∀ w, Relation.ReflTransGen (fun a b => b ∈ neighborsAt nodes a) next w →
      colorAt cur w = -1 := by
  obtain ⟨_, s2, s3⟩ := scan_some cur cur.length next hsel
  have hsat0 : satAt cur next = 0 := (satAt_eq_zero_iff cur next).mpr hnone
  intro w hw
  induction hw with
  | refl => exact s2
  | @tail b c _ hbc ih =>
    rcases hcol c with hc | hc
    · exact hc
    · exfalso
      have hbc' : c ∈ neighborsAt cur b := by rw [hN]; exact hbc
      have hb : b < cur.length := lt_of_mem_neighborsAt cur b c hbc'
      have hle := (s3 b hb ih).1
      have hsb : satAt cur b = 0 := by
        rcases hle with h | ⟨h, _⟩ <;> omega
      exact (satAt_eq_zero_iff cur b).mp hsb c hbc' hc

theorem bipartite_step (nodes cur : List GraphNode) (f s : Nat → Bool) (limit next : Nat)
    (c : Int)
    (hsym : ∀ u v, v ∈ neighborsAt nodes u → u ∈ neighborsAt nodes v)
    (hf : ∀ u v, v ∈ neighborsAt nodes u → f u ≠ f v)
    (hN : ∀ p, neighborsAt cur p = neighborsAt nodes p)
    (hs : ∀ u w, w ∈ neighborsAt nodes u → s u = s w)
    (hcol : ∀ u, colorAt cur u = -1 ∨ colorAt cur u = (if f u = s u then 0 else 1))
    (hsel : selectNext cur = some next) (hpr : probeColor cur next limit 0 = some c) :
    ∃ s' : Nat → Bool, (∀ u w, w ∈ neighborsAt nodes u → s' u = s' w) ∧
      ∀ u, colorAt (updateNode cur next (fun n => n.setColor c)) u = -1 ∨
        colorAt (updateNode cur next (fun n => n.setColor c)) u
          = (if f u = s' u then 0 else 1) := by
  obtain ⟨hlen, hun⟩ := selectNext_some cur next hsel
  obtain ⟨hc0, hval, hlow⟩ := probeColor_spec cur next limit 0 c hpr
  rw [validAt_iff] at hval
  have hcol2 : ∀ u, colorAt cur u = -1 ∨ 0 ≤ colorAt cur u := by
    intro u
    rcases hcol u with h | h
    · exact Or.inl h
    · right; rw [h]; split <;> omega
  have hK : ∀ q ∈ neighborsAt cur next, 0 ≤ colorAt cur q →
      colorAt cur q = (if f next = s next then 1 else 0) := by
    intro q hq hq0
    have hq' : q ∈ neighborsAt nodes next := by rw [← hN]; exact hq
    have h1 := hf next q hq'
    have h2 := hs next q hq'
    rcases hcol q with h | h
    · omega
    · rw [h, h2]
      cases hfn : f next <;> cases hfq : f q <;> cases hsq : s q <;> simp_all
  by_cases hex : ∃ q ∈ neighborsAt cur next, 0 ≤ colorAt cur q
  · obtain ⟨x, hx, hx0⟩ := hex
    have hcx := hval x hx hx0
    rw [hK x hx hx0] at hcx
    have hct : c = (if f next = s next then 0 else 1) := by
      by_cases hfs : f next = s next
      · rw [if_pos hfs]
        by_contra hne
        obtain ⟨q, hq, hq0, hqc⟩ := (validAt_false_iff cur next 0).mp
          (hlow 0 (le_refl _) (by omega))
        have := hK q hq hq0
        rw [if_pos hfs] at this
        omega
      · rw [if_neg hfs] at hcx ⊢
        by_contra hne
        have hc2 : 1 < c := by omega
        obtain ⟨q, hq, hq0, hqc⟩ := (validAt_false_iff cur next 1).mp
          (hlow 1 (by omega) hc2)
        have := hK q hq hq0
        rw [if_neg hfs] at this
        omega
    refine ⟨s, hs, ?_⟩
    intro u
    rw [colorAt_setColor]
    by_cases hu : u = next ∧ next < cur.length
    · rw [if_pos hu, hu.1]
      exact Or.inr hct
    · rw [if_neg hu]
      exact hcol u
  · have hnone : ∀ q ∈ neighborsAt cur next, ¬ 0 ≤ colorAt cur q := by
      intro q hq hq0
      exact hex ⟨q, hq, hq0⟩
    have hczero : c = 0 := by
      by_contra hne
      obtain ⟨q, hq, hq0, _⟩ := (validAt_false_iff cur next 0).mp
        (hlow 0 (le_refl _) (by omega))
      exact hnone q hq hq0
    have hcomp := component_uncolored nodes cur next hN hcol2 hsel hnone
    classical
    refine ⟨fun w => if Relation.ReflTransGen (fun a b => b ∈ neighborsAt nodes a) next w
      then f next else s w, ?_, ?_⟩
    · intro u w huw
      have hiff : Relation.ReflTransGen (fun a b => b ∈ neighborsAt nodes a) next u ↔
          Relation.ReflTransGen (fun a b => b ∈ neighborsAt nodes a) next w :=
        ⟨fun h => Relation.ReflTransGen.tail h huw,
          fun h => Relation.ReflTransGen.tail h (hsym u w huw)⟩
      by_cases hu : Relation.ReflTransGen (fun a b => b ∈ neighborsAt nodes a) next u
      · simp only [hu, hiff.mp hu, if_true]
      · have hw : ¬ Relation.ReflTransGen (fun a b => b ∈ neighborsAt nodes a) next w :=
          fun h => hu (hiff.mpr h)
        simp only [hu, hw, if_false]
        exact hs u w huw
    · intro u
      rw [colorAt_setColor]
      by_cases hu : u = next ∧ next < cur.length
      · rw [if_pos hu, hu.1]
        right
        simp only [Relation.ReflTransGen.refl, if_true]
        exact hczero
      · rw [if_neg hu]
        rcases hcol u with h | h
        · exact Or.inl h
        · right
          have hnot : ¬ Relation.ReflTransGen (fun a b => b ∈ neighborsAt nodes a) next u := by
            intro hconn
            have := hcomp u hconn
            rw [this] at h
            split at h <;> omega
          simp only [hnot, if_false]
          exact h

/-- On a symmetric graph with a proper 2-coloring the loop only ever assigns
the colors `0` and `1`. -/
theorem colorLoop_bipartite (limit fuel : Nat) (nodes res : List GraphNode) (f : Nat → Bool)
    (hsym : ∀ u v, v ∈ neighborsAt nodes u → u ∈ neighborsAt nodes v)
    (hf : ∀ u v, v ∈ neighborsAt nodes u → f u ≠ f v)
    (h0 : ∀ p, colorAt nodes p = -1)
    (h : colorLoop limit fuel nodes = some res) :
    ∀ p, colorAt res p = -1 ∨ colorAt res p = 0 ∨ colorAt res p = 1 := by
  have key := colorLoop_induct limit
    (fun cur => (∀ p, neighborsAt cur p = neighborsAt nodes p) ∧
      ∃ s : Nat → Bool, (∀ u w, w ∈ neighborsAt nodes u → s u = s w) ∧
        ∀ u, colorAt cur u = -1 ∨ colorAt cur u = (if f u = s u then 0 else 1))
    (by
      intro cur next c hP hsel hpr
      obtain ⟨hN, s, hs, hcol⟩ := hP
      refine ⟨fun p => by rw [neighborsAt_setColor, hN], ?_⟩
      exact bipartite_step nodes cur f s limit next c hsym hf hN hs hcol hsel hpr)
    fuel nodes res ⟨fun _ => rfl, fun _ => false, fun _ _ _ => rfl, fun u => Or.inl (h0 u)⟩ h
  obtain ⟨⟨_, s, _, hcol⟩, _⟩ := key
  intro p
  rcases hcol p with hp | hp
  · exact Or.inl hp
  · right
    rw [hp]
    split
    · exact Or.inl rfl
    · exact Or.inr rfl

/-- C24. Exactness on two-colorable graphs: on every graph whose adjacency
is symmetric and admits a proper 2-coloring `f` (which makes it irreflexive),
`colorDSATUR` (with a budget above the node count and above every degree)
returns a graph in which every node has color `0` or `1`, so `getColorSets`
returns at most two groups. -/
theorem colorDSATUR_bipartite (g : Graph) (fuel : Nat) (f : Nat → Bool)
    (hsym : ∀ u v, v ∈ neighborsAt g.nodes u → u ∈ neighborsAt g.nodes v)
    (hf : ∀ u v, v ∈ neighborsAt g.nodes u → f u ≠ f v)
    (hfuel : g.nodes.length < fuel) (hdeg : ∀ n ∈ g.nodes, n.getDegree < fuel) :
    ∃ g', g.colorDSATUR fuel = some g' ∧
      (∀ n ∈ g'.nodes, n.color = 0 ∨ n.color = 1) ∧
      ∃ groups, g'.getColorSets = some groups ∧ groups.length ≤ 2 := by
  obtain ⟨g', h1, hloop, _, _, h4, _⟩ := colorDSATUR_some g fuel hfuel hdeg
  have hbi := colorLoop_bipartite fuel fuel (resetColors g.nodes) g'.nodes f
    (by intro u v; rw [neighborsAt_resetColors, neighborsAt_resetColors]; exact hsym u v)
    (by intro u v; rw [neighborsAt_resetColors]; exact hf u v)
    (colorAt_resetColors g.nodes) hloop
  have hcol : ∀ n ∈ g'.nodes, n.color = 0 ∨ n.color = 1 := by
    intro n hn
    obtain ⟨p, hp, hc⟩ := colorAt_of_mem g'.nodes n hn
    have a := h4 p hp
    rcases hbi p with b | b | b
    · omega
    · exact Or.inl (by rw [← hc]; exact b)
    · exact Or.inr (by rw [← hc]; exact b)
  refine ⟨g', h1, hcol, ?_⟩
  obtain ⟨M, hM, hsets⟩ := getColorSets_some g'
    (fun n hn => by rcases hcol n hn with h | h <;> omega)
  obtain ⟨_, _, hatt⟩ := maxColorLoop_some g'.nodes 0 M hM
  refine ⟨_, hsets, ?_⟩
  simp only [List.length_map, List.length_range]
  rcases hatt with h0 | ⟨n, hn, hc⟩
  · have : M = 0 := by exact_mod_cast h0
    omega
  · have : (M : Int) ≤ 1 := by
      rcases hcol n hn with h | h <;> omega
    have : M ≤ 1 := by exact_mod_cast this
    omega

theorem samplePath_two_coloring :
    ∀ u v, v ∈ neighborsAt samplePath.nodes u → decide (u = 1) ≠ decide (v = 1) := by
  intro u v h
  rcases u with _ | _ | _ | _ | u
  · simp only [neighborsAt, samplePath, List.getElem?_cons_zero, List.mem_singleton] at h
    subst h; decide
  · simp only [neighborsAt, samplePath, List.getElem?_cons_succ, List.getElem?_cons_zero,
      List.mem_cons, List.mem_singleton, List.mem_nil_iff, or_false] at h
    rcases h with rfl | rfl <;> decide
  · simp only [neighborsAt, samplePath, List.getElem?_cons_succ, List.getElem?_cons_zero,
      List.mem_singleton] at h
    subst h; decide
  · simp [neighborsAt, samplePath] at h
  · simp [neighborsAt, samplePath] at h

/-- C24 on the sample path graph, two-colored by "is position 1". -/
theorem colorDSATUR_bipartite_witness :
    ∃ g', samplePath.colorDSATUR 5 = some g' ∧
      (∀ n ∈ g'.nodes, n.color = 0 ∨ n.color = 1) ∧
      ∃ groups, g'.getColorSets = some groups ∧ groups.length ≤ 2 :=
  colorDSATUR_bipartite samplePath 5 (fun p => decide (p = 1)) samplePath_sym
    samplePath_two_coloring (by decide) (by decide)


/-! ## The bounding-box test on coordinates that may be NaN -/

/-- Every comparison with NaN is false. -/
theorem Fp.nan_comparisons {α : Type} [LinearOrder α] (x : Fp α) :
    ¬ x < Fp.nan ∧ ¬ Fp.nan < x ∧ ¬ x ≤ Fp.nan ∧ ¬ Fp.nan ≤ x := by
  cases x <;> exact ⟨fun h => h, fun h => h, fun h => h, fun h => h⟩

theorem takeWhile_append_stop (l : List Int) :
    (l ++ [-1]).takeWhile (fun x => x != -1) = l.takeWhile (fun x => x != -1) := by
  induction l with
  | nil => simp [List.takeWhile]
  | cons x rest ih =>
    rw [List.cons_append, List.takeWhile_cons, List.takeWhile_cons, ih]

/-- A reader of an inner array gets the indices of the color class, in
storage order, up to the first index `-1`. -/
theorem readGroup_colorSetArray (nodes : List GraphNode) (c : Int) :
    readGroup (colorSetArray nodes c) = (colorSet nodes c).takeWhile (fun x => x != -1) :=
  takeWhile_append_stop _

theorem takeWhile_colorSet_of_ne (nodes : List GraphNode) (c : Int)
    (hidx : ∀ n ∈ nodes, n.index ≠ -1) :
    (colorSet nodes c).takeWhile (fun x => x != -1) = colorSet nodes c := by
  rw [List.takeWhile_eq_self_iff]
  intro x hx
  obtain ⟨n, hn, _, rfl⟩ := (mem_colorSet nodes c x).mp hx
  simpa using hidx n hn

/-- On a graph whose colors `c` all satisfy `0 ≤ c` and `c + 2 ≤ INT_MAX`
arrays are returned, and their reader gets, for every color up to the largest,
the indices of the color class up to the first index `-1`. -/
theorem getColorSetArrays_read (g : Graph)
    (hcol : ∀ n ∈ g.nodes, 0 ≤ n.color ∧ n.color + 2 ≤ INT_MAX) :
    ∃ M : Nat, maxColorLoop g.nodes 0 = some (M : Int) ∧
      g.getColorSetArrays.read = some ((List.range (M + 1)).map
        (fun c : Nat => (colorSet g.nodes (c : Int)).takeWhile (fun x => x != -1))) := by
  obtain ⟨M, hM, _⟩ := getColorSets_some g (fun n hn => (hcol n hn).1)
  obtain ⟨_, _, hatt⟩ := maxColorLoop_some g.nodes 0 M hM
  have hle : ¬ ((M : Int) + 2 > INT_MAX) := by
    rcases hatt with h0 | ⟨n, hn, hc⟩
    · rw [h0]; decide
    · have := (hcol n hn).2
      rw [hc] at this
      omega
  refine ⟨M, hM, ?_⟩
  unfold Graph.getColorSetArrays
  rw [hM]
  simp only [if_neg hle, ColorSets.read, Int.toNat_ofNat, List.map_map, Option.some.injEq]
  apply List.map_congr_left
  intro c _
  exact readGroup_colorSetArray g.nodes (c : Int)

/-- On a graph none of whose indices is `-1` and whose colors `c` all satisfy
`0 ≤ c` and `c + 2 ≤ INT_MAX`, the reader of the arrays gets the index lists
of `Graph.getColorSets`. -/
theorem getColorSetArrays_read_eq (g : Graph) (hidx : ∀ n ∈ g.nodes, n.index ≠ -1)
    (hcol : ∀ n ∈ g.nodes, 0 ≤ n.color ∧ n.color + 2 ≤ INT_MAX) :
    g.getColorSetArrays.read = g.getColorSets := by
  obtain ⟨M, hM, hread⟩ := getColorSetArrays_read g hcol
  obtain ⟨M1, hM1, hsets⟩ := getColorSets_some g (fun n hn => (hcol n hn).1)
  rw [hM] at hM1
  have hMM : M = M1 := by
    have := Option.some.inj hM1
    exact_mod_cast this
  subst hMM
  rw [hread, hsets]
  congr 1
  apply List.map_congr_left
  intro c _
  exact takeWhile_colorSet_of_ne g.nodes (c : Int) hidx

/-- The graph `sentinelGraph` is what `addNode(4)`, `addNode(-1)`, `addNode(6)`
and `colorDSATUR` produce; `minusOneGraph` has one node. -/
theorem sentinelGraph_built :
    (applyOps Graph.empty [GraphOp.addNode 4, GraphOp.addNode (-1), GraphOp.addNode 6]).bind
        (Graph.colorDSATUR 4) = some sentinelGraph ∧
      minusOneGraph.nodes = [⟨-1, -1, []⟩] := by
  decide

/-- C4, the claim as it stands fails when a vertex has the index `-1`: on the
nodes with indices `4, -1, 6` (pairwise distinct) and color `0` the returned
inner array is `[4, -1, 6, -1]`, of which every reader gets the group `[4]`;
the index `6` of the graph is in no group. -/
theorem getColorSets_partition_counterexample :
    (sentinelGraph.nodes.map GraphNode.index).Nodup ∧
      (∀ n ∈ sentinelGraph.nodes, 0 ≤ n.color) ∧
      sentinelGraph.getColorSetArrays = ColorSets.arrays [[4, -1, 6, -1]] ∧
      sentinelGraph.getColorSetArrays.read = some [[4]] ∧
      (∃ n ∈ sentinelGraph.nodes, n.index = 6) ∧
      (6 : Int) ∉ ([[4]] : List (List Int)).flatten := by
  refine ⟨by decide, by decide, by decide, by decide, ⟨⟨6, 0, []⟩, by decide, rfl⟩, by decide⟩

/-- C4, corrected. On a graph with pairwise distinct indices none of which is
`-1`, in which every node has a color `c` with `0 ≤ c` and `c + 2 ≤ INT_MAX`,
`getColorSets` returns arrays, and the concatenation of the groups read from
them is a rearrangement of the list of all node indices, without duplicates:
every index occurs exactly once and nothing else occurs. -/
theorem getColorSetArrays_partition (g : Graph)
    (hdist : (g.nodes.map GraphNode.index).Nodup)
    (hidx : ∀ n ∈ g.nodes, n.index ≠ -1)
    (hcol : ∀ n ∈ g.nodes, 0 ≤ n.color ∧ n.color + 2 ≤ INT_MAX) :
    ∃ groups, g.getColorSetArrays.read = some groups ∧
      groups.flatten.Perm (g.nodes.map GraphNode.index) ∧
      groups.flatten.Nodup ∧
      ∀ x, x ∈ groups.flatten ↔ ∃ n ∈ g.nodes, n.index = x := by
  obtain ⟨M, hM, hsets⟩ := getColorSets_some g (fun n hn => (hcol n hn).1)
  obtain ⟨_, hb, _⟩ := maxColorLoop_some g.nodes 0 M hM
  have hperm := join_colorSets_perm g.nodes M hb
  rw [getColorSetArrays_read_eq g hidx hcol]
  refine ⟨_, hsets, hperm, hperm.nodup_iff.mpr hdist, ?_⟩
  intro x
  rw [hperm.mem_iff, List.mem_map]

/-- C4, corrected, on the colored sample graph. -/
theorem getColorSetArrays_partition_witness :
    ∃ groups, sampleColored.getColorSetArrays.read = some groups ∧
      groups.flatten.Perm (sampleColored.nodes.map GraphNode.index) ∧
      groups.flatten.Nodup ∧
      ∀ x, x ∈ groups.flatten ↔ ∃ n ∈ sampleColored.nodes, n.index = x :=
  getColorSetArrays_partition sampleColored (by decide) (by decide) (by decide)

/-- The arrays of the colored sample graph and what their reader gets. -/
theorem sampleColored_arrays :
    sampleColored.getColorSetArrays = ColorSets.arrays [[1, 3, -1], [0, 2, -1]] ∧
      sampleColored.getColorSetArrays.read = some [[1, 3], [0, 2]] := by
  decide

/-- The result of `colorDSATUR`, with a budget above the node count and above
every degree: indices and neighbour lists as before, every color between `0`
and the degree of its node. -/
theorem colorDSATUR_bounded (g : Graph) (fuel : Nat) (hfuel : g.nodes.length < fuel)
    (hdeg : ∀ n ∈ g.nodes, n.getDegree < fuel) :
    ∃ g', g.colorDSATUR fuel = some g' ∧
      g'.nodes.map GraphNode.index = g.nodes.map GraphNode.index ∧
      g'.nodes.map GraphNode.neighbors = g.nodes.map GraphNode.neighbors ∧
      ∀ n ∈ g'.nodes, 0 ≤ n.color ∧ n.color ≤ (n.getDegree : Int) := by
  obtain ⟨g', h1, hloop, h2, h3, h4, _⟩ := colorDSATUR_some g fuel hfuel hdeg
  have hle := colorLoop_le_degree fuel fuel _ g'.nodes
    (by
      intro p
      rw [colorAt_resetColors]
      omega)
    hloop
  refine ⟨g', h1, h2, h3, ?_⟩
  intro n hn
  obtain ⟨p, hp, hc, hd⟩ := degree_of_mem g'.nodes n hn
  have a := h4 p hp
  have b := hle p
  rw [hc] at a b
  rw [hd] at b
  exact ⟨a, b⟩

/-- The degrees of the nodes of a graph with the same neighbour lists. -/
theorem getDegree_of_map_eq (nodes nodes1 : List GraphNode)
    (h : nodes1.map GraphNode.neighbors = nodes.map GraphNode.neighbors) (D : Nat)
    (hD : ∀ n ∈ nodes, n.getDegree ≤ D) : ∀ n ∈ nodes1, n.getDegree ≤ D := by
  intro n hn
  have hnb : n.neighbors ∈ nodes.map GraphNode.neighbors := by
    rw [← h]
    exact List.mem_map_of_mem _ hn
  obtain ⟨m, hm, hmn⟩ := List.mem_map.mp hnb
  have := hD m hm
  simp only [GraphNode.getDegree] at this ⊢
  rw [← hmn]
  exact this

/-- C5, the claim as it stands fails in two ways.  With a vertex of index `-1`:
on the nodes with indices `4, -1, 6`, all of color `0`, the one inner array is
`[4, -1, 6, -1]` and its reader gets `[4]`, not the indices `[4, -1, 6]` of the
vertices of color `0`.  With a color of `INT_MAX - 1`: the size `maxColor + 2`
of the outer array does not fit an `int` and no group is returned. -/
theorem getColorSets_groups_counterexample :
    (∀ n ∈ sentinelGraph.nodes, 0 ≤ n.color) ∧
      sentinelGraph.getColorSetArrays.read = some [[4]] ∧
      (sentinelGraph.nodes.filter (fun n => decide (n.color = 0))).map GraphNode.index
        = [4, -1, 6] ∧
      (∀ n ∈ overflowGraph.nodes, 0 ≤ n.color ∧ n.color ≤ INT_MAX) ∧
      overflowGraph.getColorSetArrays = ColorSets.overflow ∧
      overflowGraph.getColorSetArrays.read = none := by
  decide

/-- C5, corrected. On a graph in which every node has a color `c` with `0 ≤ c`
and `c + 2 ≤ INT_MAX`, `getColorSets` returns arrays from which exactly
`maxColor + 1` groups are read, `maxColor` being an upper bound of all colors
that some node attains when there is a node; for each `c ≤ maxColor` group `c`
lists, in storage order, the indices of the nodes of color `c` up to the first
index `-1`, so the indices of exactly the nodes of color `c` when no index is
`-1`.  For the colored conflict graph of a list of at most `INT_MAX - 2` boxes
the groups read are those index lists and each is strictly increasing. -/
theorem getColorSetArrays_groups {α : Type} [LT α] [DecidableRel (fun a b : α => a < b)]
    (g : Graph) (hcol : ∀ n ∈ g.nodes, 0 ≤ n.color ∧ n.color + 2 ≤ INT_MAX)
    (AABBs : List (AABB α)) (fuel : Nat) (hfuel : AABBs.length < fuel)
    (hN : (AABBs.length : Int) + 2 ≤ INT_MAX) :
    (∃ (groups : List (List Int)) (maxColor : Nat), g.getColorSetArrays.read = some groups ∧
      groups.length = maxColor + 1 ∧
      (∀ n ∈ g.nodes, n.color ≤ (maxColor : Int)) ∧
      (g.nodes ≠ [] → ∃ n ∈ g.nodes, n.color = (maxColor : Int)) ∧
      (∀ c : Nat, c ≤ maxColor →
        groups[c]? = some (((g.nodes.filter (fun n => decide (n.color = (c : Int)))).map
          GraphNode.index).takeWhile (fun x => x != -1))) ∧
      ((∀ n ∈ g.nodes, n.index ≠ -1) → ∀ c : Nat, c ≤ maxColor →
        groups[c]? = some ((g.nodes.filter (fun n => decide (n.color = (c : Int)))).map
          GraphNode.index))) ∧
    (∃ g0 g1 groups, getCollisions AABBs = some g0 ∧ g0.colorDSATUR fuel = some g1 ∧
      g1.getColorSetArrays.read = some groups ∧ g1.getColorSets = some groups ∧
      ∀ group ∈ groups, group.Pairwise (fun a b => a < b)) := by
  constructor
  · obtain ⟨M, hM, hread⟩ := getColorSetArrays_read g hcol
    obtain ⟨_, hb, hatt⟩ := maxColorLoop_some g.nodes 0 M hM
    have hgroup : ∀ c : Nat, c ≤ M →
        ((List.range (M + 1)).map (fun c : Nat =>
          (colorSet g.nodes (c : Int)).takeWhile (fun x => x != -1)))[c]?
        = some (((g.nodes.filter (fun n => decide (n.color = (c : Int)))).map
          GraphNode.index).takeWhile (fun x => x != -1)) := by
      intro c hc
      rw [List.getElem?_map, List.getElem?_range (by omega)]
      simp only [Option.map_some', colorSet_eq_filter]
    refine ⟨_, M, hread, by simp, fun n hn => (hb n hn).2, ?_, hgroup, ?_⟩
    · intro hne
      rcases hatt with h0 | h
      · obtain ⟨n, hn⟩ := List.exists_mem_of_ne_nil _ hne
        have := hb n hn
        exact ⟨n, hn, by omega⟩
      · exact h
    · intro hidx c hc
      rw [hgroup c hc, ← colorSet_eq_filter, takeWhile_colorSet_of_ne g.nodes (c : Int) hidx]
  · obtain ⟨g0, h0, hidx0, _, hnd, hedge⟩ := getCollisions_spec AABBs
    have hlen : g0.nodes.length = AABBs.length := by
      have := congrArg List.length hidx0
      simpa using this
    have hdegN : ∀ n ∈ g0.nodes, n.getDegree ≤ AABBs.length := by
      intro n hn
      obtain ⟨p, hp, rfl⟩ := List.getElem_of_mem hn
      have hnb : neighborsAt g0.nodes p = (g0.nodes[p]).neighbors := by
        unfold neighborsAt
        rw [List.getElem?_eq_getElem hp]
      have hle := nodup_length_le (neighborsAt g0.nodes p) AABBs.length (hnd p) (by
        intro x hx
        obtain ⟨_, a, b, _, hb, _⟩ := (hedge p x).mp hx
        rcases List.getElem?_eq_some_iff.mp hb with ⟨h, _⟩
        exact h)
      rw [hnb] at hle
      exact hle
    obtain ⟨g1, h1, hidx1, hnb1, hbound⟩ := colorDSATUR_bounded g0 fuel (by omega)
      (fun n hn => by have := hdegN n hn; omega)
    have hdeg1 := getDegree_of_map_eq g0.nodes g1.nodes hnb1 AABBs.length hdegN
    have hcol1 : ∀ n ∈ g1.nodes, 0 ≤ n.color ∧ n.color + 2 ≤ INT_MAX := by
      intro n hn
      have a := hbound n hn
      have b := hdeg1 n hn
      refine ⟨a.1, ?_⟩
      have : (n.getDegree : Int) ≤ (AABBs.length : Int) := by exact_mod_cast b
      omega
    have hidx : ∀ n ∈ g1.nodes, n.index ≠ -1 := by
      intro n hn
      have hm : n.index ∈ g1.nodes.map GraphNode.index := List.mem_map_of_mem _ hn
      rw [hidx1, hidx0] at hm
      obtain ⟨k, _, hk⟩ := List.mem_map.mp hm
      omega
    obtain ⟨M, _, hsets⟩ := getColorSets_some g1 (fun n hn => (hcol1 n hn).1)
    refine ⟨g0, g1, _, h0, h1, ?_, hsets, ?_⟩
    · rw [getColorSetArrays_read_eq g1 hidx hcol1, hsets]
    · intro group hgroup
      obtain ⟨c, _, rfl⟩ := List.mem_map.mp hgroup
      rw [colorSet_eq_filter]
      have hsub : ((g1.nodes.filter (fun n => decide (n.color = (c : Int)))).map
          GraphNode.index).Sublist (g1.nodes.map GraphNode.index) :=
        (List.filter_sublist _).map _
      rw [hidx1, hidx0] at hsub
      exact (pairwise_lt_range_cast AABBs.length).sublist hsub

/-- C5, corrected, on the colored sample graph and on two touching boxes. -/
theorem getColorSetArrays_groups_witness :
    (∃ (groups : List (List Int)) (maxColor : Nat),
      sampleColored.getColorSetArrays.read = some groups ∧
      groups.length = maxColor + 1 ∧
      (∀ n ∈ sampleColored.nodes, n.color ≤ (maxColor : Int)) ∧
      (sampleColored.nodes ≠ [] → ∃ n ∈ sampleColored.nodes, n.color = (maxColor : Int)) ∧
      (∀ c : Nat, c ≤ maxColor →
        groups[c]? = some (((sampleColored.nodes.filter
          (fun n => decide (n.color = (c : Int)))).map
          GraphNode.index).takeWhile (fun x => x != -1))) ∧
      ((∀ n ∈ sampleColored.nodes, n.index ≠ -1) → ∀ c : Nat, c ≤ maxColor →
        groups[c]? = some ((sampleColored.nodes.filter
          (fun n => decide (n.color = (c : Int)))).map GraphNode.index))) ∧
    (∃ g0 g1 groups,
      getCollisions [(⟨0, 0, 0, 1, 1, 1⟩ : AABB Int), ⟨1, 0, 0, 2, 1, 1⟩] = some g0 ∧
      g0.colorDSATUR 3 = some g1 ∧
      g1.getColorSetArrays.read = some groups ∧ g1.getColorSets = some groups ∧
      ∀ group ∈ groups, group.Pairwise (fun a b => a < b)) :=
  getColorSetArrays_groups sampleColored (by decide)
    [(⟨0, 0, 0, 1, 1, 1⟩ : AABB Int), ⟨1, 0, 0, 2, 1, 1⟩] 3 (by decide) (by decide)

/-- The groups read on the colored sample path graph: both non-empty. -/
theorem samplePath_groups_read :
    (samplePath.colorDSATUR 5).bind (fun g => g.getColorSetArrays.read)
      = some [[1, 3], [0, 2]] := by
  decide

/-! ## Adding a node to a graph that holds edges -/

/-- The sample graphs with real pointers are what the calls build in a vector
that doubles. -/
theorem sample_graphs_built :
    applyOpsA doubling AGraph.empty
        [GraphOp.addNode 0, GraphOp.addNode 1, GraphOp.addEdge 0 1] = some edgeGraph ∧
      applyOpsA doubling AGraph.empty interleavedOps = some interleavedGraph ∧
      (edgeGraph.addNode doubling 2).2 = interleavedGraph := by
  decide

theorem findIdx?_append_of_any {β : Type} (p : β → Bool) (l1 l2 : List β)
    (h : l1.any p = true) : (l1 ++ l2).findIdx? p = l1.findIdx? p := by
  induction l1 with
  | nil => simp at h
  | cons x rest ih =>
    simp only [List.cons_append, List.findIdx?_cons]
    cases hx : p x with
    | true => rfl
    | false =>
      simp only [List.any_cons, hx, Bool.false_or] at h
      simp only [Bool.false_eq_true, if_false]
      rw [List.findIdx?_succ, List.findIdx?_succ, ih h]

theorem findIdx?_lt {β : Type} (p : β → Bool) (l : List β) (k : Nat)
    (h : l.findIdx? p = some k) : k < l.length := by
  obtain ⟨hk, _⟩ := List.findIdx?_eq_some_iff_getElem.mp h
  exact hk

theorem ptr_containsNode_iff (g : AGraph) (index : Int) :
    g.containsNode index = true ↔ ∃ n ∈ g.nodes, n.index = index := by
  unfold AGraph.containsNode
  simp

theorem AGraph.findNode_isSome (g : AGraph) (index : Int) (h : g.containsNode index = true) :
    ∃ slot, slot < g.nodes.length ∧
      g.nodes.findIdx? (fun n => n.index == index) = some slot ∧
      g.findNode index = some ⟨g.buf, slot⟩ := by
  cases hf : g.nodes.findIdx? (fun n => n.index == index) with
  | none =>
    rw [List.findIdx?_eq_none_iff] at hf
    obtain ⟨n, hn, he⟩ := (ptr_containsNode_iff g index).mp h
    have := hf n hn
    simp [he] at this
  | some slot =>
    exact ⟨slot, findIdx?_lt _ _ _ hf, rfl, by simp [AGraph.findNode, hf]⟩

/-- The three shapes of the result of `addNode`. -/
theorem AGraph.addNode_cases (grow : Nat → Nat) (g : AGraph) (index : Int) :
    (g.containsNode index = true ∧ g.addNode grow index = (g.getSize, g)) ∨
    (g.containsNode index = false ∧ g.nodes.length < g.capacity ∧
      g.addNode grow index = (g.nodes.length + 1,
        { g with nodes := g.nodes ++ [{ index := index, color := -1, neighbors := [] }] })) ∨
    (g.containsNode index = false ∧ g.capacity ≤ g.nodes.length ∧
      g.addNode grow index = (g.nodes.length + 1,
        { capacity := grow g.nodes.length,
          nodes := g.nodes ++ [{ index := index, color := -1, neighbors := [] }],
          freed := g.freed ++ [g.nodes.map (fun n => { n with neighbors := [] })] })) := by
  unfold AGraph.addNode
  cases hc : g.containsNode index with
  | true => left; simp
  | false =>
    right
    by_cases hcap : g.nodes.length < g.capacity
    · left; simp [hcap]
    · right; simp [hcap]; omega

/-- The value of `isEdge` on two present indices. -/
theorem AGraph.isEdge_of_slots (g : AGraph) (index1 index2 : Int) (s1 s2 : Nat)
    (h1 : g.nodes.findIdx? (fun n => n.index == index1) = some s1)
    (h2 : g.nodes.findIdx? (fun n => n.index == index2) = some s2) :
    g.isEdge index1 index2
      = g.nodes[s1]?.map (fun n => n.neighbors.contains ⟨g.buf, s2⟩) := by
  simp [AGraph.isEdge, AGraph.findNode, h1, h2]

/-- C15, the claim as it stands fails on a graph that holds an edge: after
`addNode(0)`, `addNode(1)`, `addEdge(0,1)` the vertices `0` and `1` are
adjacent; `addNode(2)`, given an index no vertex has, moves the full vector to
a new buffer, after which vertex `1` has another address than the one vertex
`0` holds, and `isEdge(0,1)` is false: the existing vertices did not stay as
they were. -/
theorem addNode_moves_counterexample :
    edgeGraph.containsNode 2 = false ∧
      edgeGraph.findNode 1 = some ⟨2, 1⟩ ∧
      edgeGraph.isEdge 0 1 = some true ∧
      (edgeGraph.addNode doubling 2).2.findNode 1 = some ⟨3, 1⟩ ∧
      (edgeGraph.addNode doubling 2).2.nodes.map ANode.neighbors = [[⟨2, 1⟩], [⟨2, 0⟩], []] ∧
      (edgeGraph.addNode doubling 2).2.isEdge 0 1 = some false := by
  decide

/-- C15, corrected. `addNode(index)`, the vector growing in any way: when no
node has that index it appends one node with that index, color `-1` and no
neighbours at the end of the storage order, every node stored before keeping
its slot, index, color and stored pointers; the vector stays in its buffer
when it has spare capacity, and `isEdge` then answers on the present indices
as before; a full vector moves to a new buffer, after which the pointers that
pointed at its nodes point into the buffer it has left and, when all stored
pointers were such, `isEdge` is true of no pair; on a graph that holds no
edge `isEdge` answers on the present indices as before in either case.  When a node with that index exists the graph is unchanged, so a
second call changes nothing; in both cases the returned value is the size of
the resulting graph, and pairwise distinct indices stay pairwise distinct. -/
theorem addNode_spec_pointers (grow : Nat → Nat) (g : AGraph) (index : Int) :
    (g.containsNode index = false →
      (g.addNode grow index).2.nodes
          = g.nodes ++ [{ index := index, color := -1, neighbors := [] }] ∧
      (∀ p < g.nodes.length, (g.addNode grow index).2.nodes[p]? = g.nodes[p]?) ∧
      (g.nodes.length < g.capacity →
        (g.addNode grow index).2.buf = g.buf ∧
        ∀ i j, g.containsNode i = true → g.containsNode j = true →
          (g.addNode grow index).2.isEdge i j = g.isEdge i j) ∧
      (g.capacity ≤ g.nodes.length →
        (g.addNode grow index).2.buf = g.buf + 1 ∧
        ((∀ n ∈ g.nodes, ∀ p ∈ n.neighbors, p.buf = g.buf) →
          ∀ i j, (g.addNode grow index).2.isEdge i j ≠ some true)) ∧
      ((∀ n ∈ g.nodes, n.neighbors = []) →
        ∀ i j, g.containsNode i = true → g.containsNode j = true →
          (g.addNode grow index).2.isEdge i j = g.isEdge i j)) ∧
    (g.containsNode index = true → (g.addNode grow index).2 = g) ∧
    ((g.addNode grow index).2.addNode grow index).2 = (g.addNode grow index).2 ∧
    (g.addNode grow index).1 = (g.addNode grow index).2.getSize ∧
    ((g.nodes.map ANode.index).Nodup →
      ((g.addNode grow index).2.nodes.map ANode.index).Nodup) := by
  have hnodes : g.containsNode index = false →
      (g.addNode grow index).2.nodes
        = g.nodes ++ [{ index := index, color := -1, neighbors := [] }] := by
    intro hc
    rcases AGraph.addNode_cases grow g index with ⟨h, _⟩ | ⟨_, _, h⟩ | ⟨_, _, h⟩
    · rw [hc] at h; cases h
    · rw [h]
    · rw [h]
  have hyes : g.containsNode index = true → (g.addNode grow index).2 = g := by
    intro hc
    rcases AGraph.addNode_cases grow g index with ⟨_, h⟩ | ⟨h, _⟩ | ⟨h, _⟩
    · rw [h]
    · rw [hc] at h; cases h
    · rw [hc] at h; cases h
  -- what `isEdge` answers after the call, on two indices present before
  have hedge : g.containsNode index = false → ∀ i j, g.containsNode i = true →
      g.containsNode j = true → ∃ (s1 s2 : Nat) (n : ANode),
        g.nodes[s1]? = some n ∧
        g.isEdge i j = some (n.neighbors.contains ⟨g.buf, s2⟩) ∧
        (g.addNode grow index).2.isEdge i j
          = some (n.neighbors.contains ⟨(g.addNode grow index).2.buf, s2⟩) := by
    intro hc i j hi hj
    obtain ⟨s1, hs1, hf1, _⟩ := AGraph.findNode_isSome g i hi
    obtain ⟨s2, _, hf2, _⟩ := AGraph.findNode_isSome g j hj
    have hany : ∀ k, g.containsNode k = true →
        (g.addNode grow index).2.nodes.findIdx? (fun n => n.index == k)
          = g.nodes.findIdx? (fun n => n.index == k) := by
      intro k hk
      rw [hnodes hc]
      exact findIdx?_append_of_any _ _ _ hk
    refine ⟨s1, s2, g.nodes[s1], List.getElem?_eq_getElem hs1, ?_, ?_⟩
    · rw [AGraph.isEdge_of_slots g i j s1 s2 hf1 hf2, List.getElem?_eq_getElem hs1]
      rfl
    · rw [AGraph.isEdge_of_slots _ i j s1 s2 ((hany i hi).trans hf1) ((hany j hj).trans hf2),
        hnodes hc, List.getElem?_append_left hs1, List.getElem?_eq_getElem hs1]
      rfl
  refine ⟨?_, hyes, ?_, ?_, ?_⟩
  · intro hc
    refine ⟨hnodes hc, ?_, ?_, ?_, ?_⟩
    · intro p hp
      rw [hnodes hc, List.getElem?_append_left hp]
    · intro hcap
      have hbuf : (g.addNode grow index).2.buf = g.buf := by
        rcases AGraph.addNode_cases grow g index with ⟨h, _⟩ | ⟨_, _, h⟩ | ⟨_, h, _⟩
        · rw [hc] at h; cases h
        · rw [h]; rfl
        · omega
      refine ⟨hbuf, ?_⟩
      intro i j hi hj
      obtain ⟨s1, s2, n, _, e1, e2⟩ := hedge hc i j hi hj
      rw [e1, e2, hbuf]
    · intro hcap
      have hbuf : (g.addNode grow index).2.buf = g.buf + 1 := by
        rcases AGraph.addNode_cases grow g index with ⟨h, _⟩ | ⟨_, h, _⟩ | ⟨_, _, h⟩
        · rw [hc] at h; cases h
        · omega
        · rw [h]; simp [AGraph.buf]
      refine ⟨hbuf, ?_⟩
      intro hold i j
      have hno : ∀ n ∈ (g.addNode grow index).2.nodes, ∀ s : Nat,
          n.neighbors.contains (⟨(g.addNode grow index).2.buf, s⟩ : Ptr) = false := by
        intro n hn s
        rw [hnodes hc, List.mem_append, List.mem_singleton] at hn
        rw [← Bool.not_eq_true]
        intro hmem
        have hmem : (⟨(g.addNode grow index).2.buf, s⟩ : Ptr) ∈ n.neighbors := by
          simpa using hmem
        rcases hn with hn | rfl
        · have := hold n hn _ hmem
          rw [hbuf] at this
          simp only at this
          omega
        · simp at hmem
      unfold AGraph.isEdge AGraph.findNode
      cases h1 : (g.addNode grow index).2.nodes.findIdx? (fun n => n.index == i) with
      | none => simp
      | some s1 =>
        cases h2 : (g.addNode grow index).2.nodes.findIdx? (fun n => n.index == j) with
        | none => simp
        | some s2 =>
          have hs1 := findIdx?_lt _ _ _ h1
          simp only [Option.map_some']
          rw [List.getElem?_eq_getElem hs1]
          simp only [Option.map_some', ne_eq, Option.some.injEq]
          rw [hno _ (List.getElem_mem hs1) s2]
          simp
    · intro hempty i j hi hj
      obtain ⟨s1, s2, n, hn, e1, e2⟩ := hedge hc i j hi hj
      have hnil := hempty n (List.getElem?_mem hn)
      rw [e1, e2, hnil]
      rfl
  · by_cases hc : g.containsNode index = true
    · rw [hyes hc, hyes hc]
    · rw [Bool.not_eq_true] at hc
      have hc2 : (g.addNode grow index).2.containsNode index = true := by
        rw [ptr_containsNode_iff, hnodes hc]
        exact ⟨_, List.mem_append_right _ (List.mem_singleton_self _), rfl⟩
      rcases AGraph.addNode_cases grow (g.addNode grow index).2 index with
        ⟨_, h⟩ | ⟨h, _⟩ | ⟨h, _⟩
      · rw [h]
      · rw [hc2] at h; cases h
      · rw [hc2] at h; cases h
  · rcases AGraph.addNode_cases grow g index with ⟨_, h⟩ | ⟨_, _, h⟩ | ⟨_, _, h⟩
    · rw [h]
    · rw [h]; simp [AGraph.getSize]
    · rw [h]; simp [AGraph.getSize]
  · intro hnd
    by_cases hc : g.containsNode index = true
    · rw [hyes hc]; exact hnd
    · rw [Bool.not_eq_true] at hc
      rw [hnodes hc, List.map_append, List.nodup_append]
      refine ⟨hnd, List.nodup_singleton _, ?_⟩
      intro x hx hx2
      simp only [List.map_cons, List.map_nil, List.mem_singleton] at hx2
      obtain ⟨n, hn, he⟩ := List.mem_map.mp hx
      have : g.containsNode index = true :=
        (ptr_containsNode_iff g index).mpr ⟨n, hn, by rw [he, hx2]⟩
      rw [hc] at this
      cases this

/-- On the sample graph with the edge `0 - 1` the call `addNode(2)` finds the
vector full and moves it; in a vector that grows by eight slots the next call
finds spare capacity and leaves it in its buffer. -/
theorem addNode_spec_pointers_sample :
    edgeGraph.capacity ≤ edgeGraph.nodes.length ∧
      (edgeGraph.addNode doubling 2).2.buf = edgeGraph.buf + 1 ∧
      (edgeGraph.addNode (fun n => n + 8) 2).2.capacity = 10 ∧
      ((edgeGraph.addNode (fun n => n + 8) 2).2.addNode (fun n => n + 8) 3).2.buf
        = (edgeGraph.addNode (fun n => n + 8) 2).2.buf := by
  decide

/-! ## The graph with real pointers and the graph on positions -/

theorem findIdx?_map_toNode (nodes : List ANode) (index : Int) :
    (nodes.map ANode.toNode).findIdx? (fun n => n.getIndex == index)
      = nodes.findIdx? (fun n => n.index == index) := by
  induction nodes with
  | nil => rfl
  | cons x rest ih =>
    simp only [List.map_cons, List.findIdx?_cons, List.findIdx?_succ, ih]
    rfl

theorem toGraph_findNode (g : AGraph) (index : Int) :
    g.toGraph.findNode index = (g.findNode index).map Ptr.slot := by
  unfold Graph.findNode AGraph.findNode AGraph.toGraph
  rw [findIdx?_map_toNode, Option.map_map]
  cases g.nodes.findIdx? (fun n => n.index == index) <;> rfl

theorem AGraph.findNode_some (g : AGraph) (index : Int) (p : Ptr)
    (h : g.findNode index = some p) : p.buf = g.buf ∧ p.slot < g.nodes.length ∧
      g.toGraph.findNode index = some p.slot := by
  have h2 := toGraph_findNode g index
  rw [h] at h2
  unfold AGraph.findNode at h
  cases hf : g.nodes.findIdx? (fun n => n.index == index) with
  | none => rw [hf] at h; cases h
  | some s =>
    rw [hf] at h
    simp only [Option.map_some', Option.some.injEq] at h
    subst h
    exact ⟨rfl, findIdx?_lt _ _ _ hf, h2⟩

theorem toGraph_containsNode (g : AGraph) (index : Int) :
    g.toGraph.containsNode index = g.containsNode index := by
  unfold Graph.containsNode AGraph.containsNode AGraph.toGraph
  induction g.nodes with
  | nil => rfl
  | cons x rest ih =>
    simp only [List.map_cons, List.any_cons, ih]
    rfl

theorem toGraph_length (g : AGraph) : g.toGraph.nodes.length = g.nodes.length := by
  simp [AGraph.toGraph]

theorem toGraph_getElem? (g : AGraph) (s : Nat) :
    g.toGraph.nodes[s]? = g.nodes[s]?.map ANode.toNode := by
  simp [AGraph.toGraph]

/-- Writing through a pointer into the buffer in use, read on positions. -/
theorem toGraph_updateSlot (g : AGraph) (s : Nat) (f : ANode → ANode)
    (f1 : GraphNode → GraphNode) (hf : ∀ n ∈ g.nodes, (f n).toNode = f1 n.toNode) :
    (g.updateSlot s f).toGraph.nodes = updateNode g.toGraph.nodes s f1 := by
  unfold AGraph.updateSlot updateNode
  rw [toGraph_getElem?]
  cases hs : g.nodes[s]? with
  | none => rfl
  | some n =>
    simp only [Option.map_some', AGraph.toGraph, List.map_set]
    rw [hf n (List.getElem?_mem hs)]

theorem AGraph.updateSlot_frame (g : AGraph) (s : Nat) (f : ANode → ANode) :
    (g.updateSlot s f).capacity = g.capacity ∧ (g.updateSlot s f).freed = g.freed ∧
      (g.updateSlot s f).buf = g.buf ∧ (g.updateSlot s f).nodes.length = g.nodes.length := by
  unfold AGraph.updateSlot
  cases g.nodes[s]? <;> simp [AGraph.buf]

theorem AGraph.mem_updateSlot (g : AGraph) (s : Nat) (f : ANode → ANode) (m : ANode)
    (hm : m ∈ (g.updateSlot s f).nodes) : m ∈ g.nodes ∨ ∃ n ∈ g.nodes, m = f n := by
  unfold AGraph.updateSlot at hm
  cases hs : g.nodes[s]? with
  | none => rw [hs] at hm; exact Or.inl hm
  | some n =>
    rw [hs] at hm
    simp only at hm
    rcases List.mem_or_eq_of_mem_set hm with h | h
    · exact Or.inl h
    · exact Or.inr ⟨n, List.getElem?_mem hs, h⟩

theorem AGraph.live_updateSlot (g : AGraph) (s : Nat) (f : ANode → ANode) (hl : g.live)
    (hf : ∀ n ∈ g.nodes, ∀ p ∈ (f n).neighbors, p.buf = g.buf) : (g.updateSlot s f).live := by
  intro m hm p hp
  rw [(AGraph.updateSlot_frame g s f).2.2.1]
  rcases AGraph.mem_updateSlot g s f m hm with h | ⟨n, hn, rfl⟩
  · exact hl m h p hp
  · exact hf n hn p hp

/-- Among pointers into one buffer, searching for a pointer is searching for
its slot. -/
theorem contains_slot (l : List Ptr) (q : Ptr) (h : ∀ p ∈ l, p.buf = q.buf) :
    l.contains q = (l.map Ptr.slot).contains q.slot := by
  induction l with
  | nil => rfl
  | cons x rest ih =>
    have hx := h x (List.mem_cons_self _ _)
    have hrest := ih (fun p hp => h p (List.mem_cons_of_mem _ hp))
    simp only [List.contains_cons, List.map_cons, hrest]
    congr 1
    cases x with
    | mk xb xs =>
      cases q with
      | mk qb qs =>
        simp only at hx
        subst hx
        by_cases e : qs = xs
        · subst e; simp
        · have e1 : ¬ xs = qs := fun h => e h.symm
          simp [e, e1]

theorem filter_slot (l : List Ptr) (q : Ptr) (h : ∀ p ∈ l, p.buf = q.buf) :
    (l.filter (fun p => p != q)).map Ptr.slot
      = (l.map Ptr.slot).filter (fun s => s != q.slot) := by
  induction l with
  | nil => rfl
  | cons x rest ih =>
    have hx := h x (List.mem_cons_self _ _)
    have hrest := ih (fun p hp => h p (List.mem_cons_of_mem _ hp))
    have hb : (x != q) = (x.slot != q.slot) := by
      cases x with
      | mk xb xs =>
        cases q with
        | mk qb qs =>
          simp only at hx
          subst hx
          by_cases e : xs = qs
          · subst e; simp
          · have e2 : (⟨xb, xs⟩ : Ptr) ≠ ⟨xb, qs⟩ := by
              intro h2
              injection h2 with _ h3
              exact e h3
            have e3 : ((⟨xb, xs⟩ : Ptr) != ⟨xb, qs⟩) = true := bne_iff_ne.mpr e2
            have e4 : (xs != qs) = true := bne_iff_ne.mpr e
            rw [e3]
            exact e4.symm
    simp only [List.filter_cons, List.map_cons, hb]
    cases x.slot != q.slot
    · simpa using hrest
    · simpa using hrest

theorem toGraph_pushNeighbor (g : AGraph) (self neighbor : Ptr) (hl : g.live)
    (hn : neighbor.buf = g.buf) :
    (g.pushNeighbor self neighbor).toGraph.nodes
        = pushNeighbor g.toGraph.nodes self.slot neighbor.slot ∧
      (g.pushNeighbor self neighbor).live ∧
      (g.pushNeighbor self neighbor).capacity = g.capacity ∧
      (g.pushNeighbor self neighbor).freed = g.freed ∧
      (g.pushNeighbor self neighbor).nodes.length = g.nodes.length := by
  have hcond : (g.nodes[self.slot]?.map (fun n => n.neighbors.contains neighbor))
      = (g.toGraph.nodes[self.slot]?.map (fun n => n.isNeighbor neighbor.slot)) := by
    rw [toGraph_getElem?]
    cases hs : g.nodes[self.slot]? with
    | none => rfl
    | some n =>
      simp only [Option.map_some', GraphNode.isNeighbor, ANode.toNode]
      rw [contains_slot n.neighbors neighbor
        (fun p hp => by rw [hl n (List.getElem?_mem hs) p hp, hn])]
  unfold AGraph.pushNeighbor pushNeighbor
  rw [hcond]
  by_cases hc : (g.toGraph.nodes[self.slot]?.map (fun n => n.isNeighbor neighbor.slot))
      = some true
  · rw [if_pos hc, if_pos hc]
    exact ⟨rfl, hl, rfl, rfl, rfl⟩
  · rw [if_neg hc, if_neg hc]
    obtain ⟨f1, f2, f3, f4⟩ := AGraph.updateSlot_frame g self.slot
      (fun n => { n with neighbors := n.neighbors ++ [neighbor] })
    refine ⟨?_, ?_, f1, f2, f4⟩
    · apply toGraph_updateSlot
      intro n _
      simp [ANode.toNode]
    · apply AGraph.live_updateSlot g _ _ hl
      intro n hn1 p hp
      simp only [List.mem_append, List.mem_singleton] at hp
      rcases hp with hp | rfl
      · exact hl n hn1 p hp
      · exact hn

theorem toGraph_vectorRemove (g : AGraph) (self node : Ptr) (hl : g.live)
    (hn : node.buf = g.buf) :
    (g.vectorRemove self node).toGraph.nodes
        = vectorRemove g.toGraph.nodes self.slot node.slot ∧
      (g.vectorRemove self node).live ∧
      (g.vectorRemove self node).capacity = g.capacity ∧
      (g.vectorRemove self node).freed = g.freed ∧
      (g.vectorRemove self node).nodes.length = g.nodes.length := by
  unfold AGraph.vectorRemove vectorRemove
  obtain ⟨f1, f2, f3, f4⟩ := AGraph.updateSlot_frame g self.slot
    (fun n => { n with neighbors := n.neighbors.filter (fun q => q != node) })
  refine ⟨?_, ?_, f1, f2, f4⟩
  · apply toGraph_updateSlot
    intro n hn1
    simp only [ANode.toNode, GraphNode.mk.injEq, true_and]
    exact filter_slot n.neighbors node (fun p hp => by rw [hl n hn1 p hp, hn])
  · apply AGraph.live_updateSlot g _ _ hl
    intro n hn1 p hp
    exact hl n hn1 p (List.mem_of_mem_filter hp)

theorem AGraph.buf_eq_of_freed (g g1 : AGraph) (h : g1.freed = g.freed) : g1.buf = g.buf := by
  unfold AGraph.buf
  rw [h]

/-- On a graph without dangling pointers `addEdge` is `addEdge` on positions,
and it leaves no pointer dangling. -/
theorem toGraph_addEdge (g : AGraph) (index1 index2 : Int) (hl : g.live) :
    (g.addEdge index1 index2).map AGraph.toGraph = g.toGraph.addEdge index1 index2 ∧
      ∀ g1, g.addEdge index1 index2 = some g1 →
        g1.live ∧ g1.capacity = g.capacity ∧ g1.freed = g.freed ∧
          g1.nodes.length = g.nodes.length := by
  unfold AGraph.addEdge Graph.addEdge
  rw [toGraph_findNode, toGraph_findNode]
  cases h1 : g.findNode index1 with
  | none => simp
  | some p1 =>
    cases h2 : g.findNode index2 with
    | none => simp
    | some p2 =>
      obtain ⟨b1, _, _⟩ := AGraph.findNode_some g index1 p1 h1
      obtain ⟨b2, _, _⟩ := AGraph.findNode_some g index2 p2 h2
      obtain ⟨e1, l1, c1, r1, n1⟩ := toGraph_pushNeighbor g p1 p2 hl b2
      have b1' : p1.buf = (g.pushNeighbor p1 p2).buf := by
        rw [AGraph.buf_eq_of_freed _ _ r1]; exact b1
      obtain ⟨e2, l2, c2, r2, n2⟩ := toGraph_pushNeighbor (g.pushNeighbor p1 p2) p2 p1 l1 b1'
      simp only [Option.map_some', Option.some.injEq]
      constructor
      · show AGraph.toGraph _ = _
        have : ((g.pushNeighbor p1 p2).pushNeighbor p2 p1).toGraph
            = { nodes := ((g.pushNeighbor p1 p2).pushNeighbor p2 p1).toGraph.nodes } := rfl
        rw [this, e2, e1]
        rfl
      · intro g1 hg1
        subst hg1
        exact ⟨l2, c2.trans c1, r2.trans r1, n2.trans n1⟩

theorem toGraph_removeEdge (g : AGraph) (index1 index2 : Int) (hl : g.live) :
    (g.removeEdge index1 index2).map AGraph.toGraph = g.toGraph.removeEdge index1 index2 ∧
      ∀ g1, g.removeEdge index1 index2 = some g1 →
        g1.live ∧ g1.capacity = g.capacity ∧ g1.freed = g.freed ∧
          g1.nodes.length = g.nodes.length := by
  unfold AGraph.removeEdge Graph.removeEdge
  rw [toGraph_findNode, toGraph_findNode]
  cases h1 : g.findNode index1 with
  | none => simp
  | some p1 =>
    cases h2 : g.findNode index2 with
    | none => simp
    | some p2 =>
      obtain ⟨b1, _, _⟩ := AGraph.findNode_some g index1 p1 h1
      obtain ⟨b2, _, _⟩ := AGraph.findNode_some g index2 p2 h2
      obtain ⟨e1, l1, c1, r1, n1⟩ := toGraph_vectorRemove g p1 p2 hl b2
      have b1' : p1.buf = (g.vectorRemove p1 p2).buf := by
        rw [AGraph.buf_eq_of_freed _ _ r1]; exact b1
      obtain ⟨e2, l2, c2, r2, n2⟩ := toGraph_vectorRemove (g.vectorRemove p1 p2) p2 p1 l1 b1'
      simp only [Option.map_some', Option.some.injEq]
      constructor
      · show AGraph.toGraph _ = _
        have : ((g.vectorRemove p1 p2).vectorRemove p2 p1).toGraph
            = { nodes := ((g.vectorRemove p1 p2).vectorRemove p2 p1).toGraph.nodes } := rfl
        rw [this, e2, e1]
        rfl
      · intro g1 hg1
        subst hg1
        exact ⟨l2, c2.trans c1, r2.trans r1, n2.trans n1⟩

/-- Read on positions, `addNode` is `addNode` on positions whatever the vector
does; on a graph that holds no edge it leaves no pointer at all. -/
theorem toGraph_addNode (grow : Nat → Nat) (g : AGraph) (index : Int) :
    (g.addNode grow index).2.toGraph = (g.toGraph.addNode index).2 ∧
      ((∀ n ∈ g.nodes, n.neighbors = []) →
        ∀ n ∈ (g.addNode grow index).2.nodes, n.neighbors = []) := by
  have hnew : ∀ nodes : List ANode,
      (nodes ++ [({ index := index, color := -1, neighbors := [] } : ANode)]).map ANode.toNode
        = nodes.map ANode.toNode ++ [GraphNode.new index] := by
    intro nodes
    simp [ANode.toNode, GraphNode.new]
  have hmem : (∀ n ∈ g.nodes, n.neighbors = []) →
      ∀ n ∈ g.nodes ++ [({ index := index, color := -1, neighbors := [] } : ANode)],
        n.neighbors = [] := by
    intro h n hn
    rw [List.mem_append, List.mem_singleton] at hn
    rcases hn with hn | rfl
    · exact h n hn
    · rfl
  unfold Graph.addNode
  rw [toGraph_containsNode]
  rcases AGraph.addNode_cases grow g index with ⟨hc, h⟩ | ⟨hc, _, h⟩ | ⟨hc, _, h⟩
  · rw [h, hc]
    exact ⟨rfl, fun he => he⟩
  · rw [h, hc]
    refine ⟨?_, hmem⟩
    simp only [Bool.false_eq_true, if_false, AGraph.toGraph, hnew]
  · rw [h, hc]
    refine ⟨?_, hmem⟩
    simp only [Bool.false_eq_true, if_false, AGraph.toGraph, hnew]

theorem AGraph.live_of_edgeFree (g : AGraph) (h : ∀ n ∈ g.nodes, n.neighbors = []) :
    g.live := by
  intro n hn p hp
  rw [h n hn] at hp
  simp at hp


theorem applyOps_append (a b : List GraphOp) :
    ∀ g : Graph, applyOps g (a ++ b) = (applyOps g a).bind (fun g1 => applyOps g1 b) := by
  induction a with
  | nil => intro g; rfl
  | cons op rest ih =>
    intro g
    simp only [List.cons_append, applyOps]
    cases applyOp g op with
    | none => rfl
    | some g1 => exact ih g1

theorem applyOpsA_append (grow : Nat → Nat) (a b : List GraphOp) :
    ∀ g : AGraph, applyOpsA grow g (a ++ b)
      = (applyOpsA grow g a).bind (fun g1 => applyOpsA grow g1 b) := by
  induction a with
  | nil => intro g; rfl
  | cons op rest ih =>
    intro g
    simp only [List.cons_append, applyOpsA]
    cases applyOpA grow g op with
    | none => rfl
    | some g1 => exact ih g1

/-- Adding nodes to a graph that holds no edge: read on positions, the graph
with real pointers is the graph on positions, and it still holds no edge. -/
theorem applyOpsA_addNodes (grow : Nat → Nat) (indices : List Int) :
    ∀ g : AGraph, (∀ n ∈ g.nodes, n.neighbors = []) →
      ∃ g1, applyOpsA grow g (indices.map GraphOp.addNode) = some g1 ∧
        applyOps g.toGraph (indices.map GraphOp.addNode) = some g1.toGraph ∧
        ∀ n ∈ g1.nodes, n.neighbors = [] := by
  induction indices with
  | nil => intro g h; exact ⟨g, rfl, rfl, h⟩
  | cons index rest ih =>
    intro g h
    obtain ⟨e, hfree⟩ := toGraph_addNode grow g index
    obtain ⟨g1, h1, h2, h3⟩ := ih (g.addNode grow index).2 (hfree h)
    refine ⟨g1, ?_, ?_, h3⟩
    · simp only [List.map_cons, applyOpsA, applyOpA]
      exact h1
    · simp only [List.map_cons, applyOps, applyOp]
      rw [← e]
      exact h2

/-- Calls other than `addNode` on a graph without dangling pointers: read on
positions, the graph with real pointers is the graph on positions; the vector
stays in its buffer and no pointer dangles afterwards. -/
theorem applyOpsA_edges (grow : Nat → Nat) (eops : List GraphOp) :
    ∀ g : AGraph, g.live → (∀ op ∈ eops, op.isAddNode = false) →
      (applyOpsA grow g eops).map AGraph.toGraph = applyOps g.toGraph eops ∧
        ∀ g1, applyOpsA grow g eops = some g1 →
          g1.live ∧ g1.capacity = g.capacity ∧ g1.freed = g.freed ∧
            g1.nodes.length = g.nodes.length := by
  induction eops with
  | nil =>
    intro g hl _
    refine ⟨rfl, ?_⟩
    intro g1 h
    simp only [applyOpsA, Option.some.injEq] at h
    subst h
    exact ⟨hl, rfl, rfl, rfl⟩
  | cons op rest ih =>
    intro g hl hops
    have hrest : ∀ op ∈ rest, op.isAddNode = false :=
      fun o ho => hops o (List.mem_cons_of_mem _ ho)
    have hstep : (applyOpA grow g op).map AGraph.toGraph = applyOp g.toGraph op ∧
        ∀ g1, applyOpA grow g op = some g1 →
          g1.live ∧ g1.capacity = g.capacity ∧ g1.freed = g.freed ∧
            g1.nodes.length = g.nodes.length := by
      cases op with
      | addNode index =>
        have := hops _ (List.mem_cons_self _ _)
        simp [GraphOp.isAddNode] at this
      | addEdge index1 index2 => exact toGraph_addEdge g index1 index2 hl
      | removeEdge index1 index2 => exact toGraph_removeEdge g index1 index2 hl
    obtain ⟨s1, s2⟩ := hstep
    simp only [applyOpsA, applyOps]
    rw [← s1]
    cases h1 : applyOpA grow g op with
    | none => simp
    | some g1 =>
      obtain ⟨l1, c1, r1, n1⟩ := s2 g1 h1
      obtain ⟨t1, t2⟩ := ih g1 l1 hrest
      simp only [Option.map_some']
      refine ⟨t1, ?_⟩
      intro g2 h2
      obtain ⟨l2, c2, r2, n2⟩ := t2 g2 h2
      exact ⟨l2, c2.trans c1, r2.trans r1, n2.trans n1⟩

/-- Nodes first, edges afterwards: read on positions, the graph with real
pointers that the calls build, the vector growing in any way, is the graph on
positions that they build, and none of its pointers dangles. -/
theorem applyOpsA_nodes_first (grow : Nat → Nat) (indices : List Int) (eops : List GraphOp)
    (heops : ∀ op ∈ eops, op.isAddNode = false) :
    (applyOpsA grow AGraph.empty (indices.map GraphOp.addNode ++ eops)).map AGraph.toGraph
        = applyOps Graph.empty (indices.map GraphOp.addNode ++ eops) ∧
      ∀ g, applyOpsA grow AGraph.empty (indices.map GraphOp.addNode ++ eops) = some g →
        g.live := by
  obtain ⟨g1, h1, h2, h3⟩ := applyOpsA_addNodes grow indices AGraph.empty
    (by intro n hn; simp [AGraph.empty] at hn)
  obtain ⟨t1, t2⟩ := applyOpsA_edges grow eops g1 (AGraph.live_of_edgeFree g1 h3) heops
  rw [applyOpsA_append, applyOps_append, h1]
  have h2' : applyOps Graph.empty (indices.map GraphOp.addNode) = some g1.toGraph := h2
  rw [h2']
  simp only [Option.some_bind]
  exact ⟨t1, fun g hg => (t2 g hg).1⟩

/-! ## The colouring with real pointers and on positions -/

theorem ptr_deref_live (g : AGraph) (p : Ptr) (hp : p.buf = g.buf) :
    g.deref p = g.nodes[p.slot]? := by
  unfold AGraph.deref
  rw [if_pos hp]

theorem ptr_colorAt_eq (g : AGraph) (it : Nat) :
    g.colorAt it = colorAt g.toGraph.nodes it := by
  unfold AGraph.colorAt colorAt
  rw [toGraph_getElem?]
  cases g.nodes[it]? <;> rfl

theorem ptr_colorOf_live (g : AGraph) (p : Ptr) (hp : p.buf = g.buf) :
    g.colorOf p = colorAt g.toGraph.nodes p.slot := by
  unfold AGraph.colorOf
  rw [ptr_deref_live g p hp, ← ptr_colorAt_eq]
  rfl

theorem ptr_getSaturationLoop_live (g : AGraph) (l : List Ptr)
    (hl : ∀ p ∈ l, p.buf = g.buf) :
    ∀ acc, g.getSaturationLoop l acc
      = getSaturationLoop g.toGraph.nodes (l.map Ptr.slot) acc := by
  induction l with
  | nil => intro acc; rfl
  | cons x rest ih =>
    intro acc
    have hx := ptr_colorOf_live g x (hl x (List.mem_cons_self _ _))
    have hrest := ih (fun p hp => hl p (List.mem_cons_of_mem _ hp))
    simp only [AGraph.getSaturationLoop, getSaturationLoop, List.map_cons, hx, hrest]

theorem ptr_isValidColorLoop_live (g : AGraph) (l : List Ptr)
    (hl : ∀ p ∈ l, p.buf = g.buf) (color : Int) :
    g.isValidColorLoop l color = isValidColorLoop g.toGraph.nodes (l.map Ptr.slot) color := by
  induction l with
  | nil => rfl
  | cons x rest ih =>
    have hx := ptr_colorOf_live g x (hl x (List.mem_cons_self _ _))
    have hrest := ih (fun p hp => hl p (List.mem_cons_of_mem _ hp))
    simp only [AGraph.isValidColorLoop, isValidColorLoop, List.map_cons, hx, hrest]

theorem ptr_satAt_live (g : AGraph) (hl : g.live) (p : Nat) :
    g.satAt p = satAt g.toGraph.nodes p := by
  unfold AGraph.satAt satAt
  rw [toGraph_getElem?]
  cases hs : g.nodes[p]? with
  | none => rfl
  | some n =>
    simp only [Option.map_some', GraphNode.getSaturation]
    rw [ptr_getSaturationLoop_live g n.neighbors (hl n (List.getElem?_mem hs))]
    rfl

theorem ptr_degAt_eq (g : AGraph) (p : Nat) : g.degAt p = degAt g.toGraph.nodes p := by
  unfold AGraph.degAt degAt
  rw [toGraph_getElem?]
  cases g.nodes[p]? with
  | none => rfl
  | some n => simp [GraphNode.getDegree, ANode.toNode]

theorem ptr_validAt_live (g : AGraph) (hl : g.live) (p : Nat) (color : Int) :
    g.validAt p color = validAt g.toGraph.nodes p color := by
  unfold AGraph.validAt validAt
  rw [toGraph_getElem?]
  cases hs : g.nodes[p]? with
  | none => rfl
  | some n =>
    simp only [Option.map_some', GraphNode.isValidColor]
    rw [ptr_isValidColorLoop_live g n.neighbors (hl n (List.getElem?_mem hs))]
    rfl

theorem ptr_scanStep_live (g : AGraph) (hl : g.live) (next : Option Nat) (it : Nat) :
    g.scanStep next it = scanStep g.toGraph.nodes next it := by
  unfold AGraph.scanStep scanStep
  rw [ptr_colorAt_eq]
  cases next with
  | none => rfl
  | some nx =>
    simp only [ptr_satAt_live g hl, ptr_degAt_eq]

theorem ptr_selectNext_live (g : AGraph) (hl : g.live) :
    g.selectNext = selectNext g.toGraph.nodes := by
  unfold AGraph.selectNext selectNext
  rw [toGraph_length]
  congr 1
  funext next it
  exact ptr_scanStep_live g hl next it

theorem ptr_probeColor_live (g : AGraph) (hl : g.live) (next : Nat) :
    ∀ (fuel : Nat) (color : Int),
      g.probeColor next fuel color = probeColor g.toGraph.nodes next fuel color := by
  intro fuel
  induction fuel with
  | zero => intro color; rfl
  | succ fuel ih =>
    intro color
    simp only [AGraph.probeColor, probeColor, ptr_validAt_live g hl, ih]

/-- On a graph without dangling pointers the loop of `colorDSATUR` is, read
on positions, the loop on positions; it leaves the vector where it is and the
neighbour lists as they are. -/
theorem toGraph_colorLoop (limit : Nat) :
    ∀ (fuel : Nat) (g : AGraph), g.live →
      (AGraph.colorLoop limit fuel g).map AGraph.toGraph
          = (colorLoop limit fuel g.toGraph.nodes).map (fun nodes => { nodes := nodes }) ∧
        ∀ g1, AGraph.colorLoop limit fuel g = some g1 →
          g1.live ∧ g1.capacity = g.capacity ∧ g1.freed = g.freed := by
  intro fuel
  induction fuel with
  | zero =>
    intro g _
    exact ⟨rfl, fun g1 h => by simp [AGraph.colorLoop] at h⟩
  | succ fuel ih =>
    intro g hl
    simp only [AGraph.colorLoop, colorLoop]
    rw [← ptr_selectNext_live g hl]
    cases hn : g.selectNext with
    | none =>
      refine ⟨rfl, ?_⟩
      intro g1 h
      simp only [Option.some.injEq] at h
      subst h
      exact ⟨hl, rfl, rfl⟩
    | some next =>
      simp only
      rw [← ptr_probeColor_live g hl]
      cases hc : g.probeColor next limit 0 with
      | none => simp
      | some color =>
        simp only
        have hl1 : (g.updateSlot next (fun n => { n with color := color })).live :=
          AGraph.live_updateSlot g next _ hl (fun n hn1 p hp => hl n hn1 p hp)
        have he : (g.updateSlot next (fun n => { n with color := color })).toGraph.nodes
            = updateNode g.toGraph.nodes next (fun n => n.setColor color) :=
          toGraph_updateSlot g next _ _ (fun n _ => rfl)
        obtain ⟨f1, f2, _, _⟩ := AGraph.updateSlot_frame g next
          (fun n => { n with color := color })
        obtain ⟨t1, t2⟩ := ih _ hl1
        rw [he] at t1
        refine ⟨t1, ?_⟩
        intro g1 h1
        obtain ⟨a, b, c⟩ := t2 g1 h1
        exact ⟨a, b.trans f1, c.trans f2⟩

/-- On a graph without dangling pointers `colorDSATUR` is, read on positions,
`colorDSATUR` on positions, and its result has no dangling pointer. -/
theorem toGraph_colorDSATUR (fuel : Nat) (g : AGraph) (hl : g.live) :
    (g.colorDSATUR fuel).map AGraph.toGraph = g.toGraph.colorDSATUR fuel ∧
      ∀ g1, g.colorDSATUR fuel = some g1 →
        g1.live ∧ g1.capacity = g.capacity ∧ g1.freed = g.freed := by
  have hl0 : ({ g with nodes := g.nodes.map (fun n => { n with color := -1 }) } : AGraph).live := by
    intro n hn p hp
    simp only [List.mem_map] at hn
    obtain ⟨m, hm, rfl⟩ := hn
    exact hl m hm p hp
  have he : ({ g with nodes := g.nodes.map (fun n => { n with color := -1 }) } : AGraph).toGraph.nodes
      = resetColors g.toGraph.nodes := by
    simp only [AGraph.toGraph, resetColors, List.map_map]
    apply List.map_congr_left
    intro n _
    rfl
  obtain ⟨t1, t2⟩ := toGraph_colorLoop fuel fuel _ hl0
  rw [he] at t1
  exact ⟨t1, t2⟩


/-! ## Graphs built nodes first -/

theorem findNode_getElem (g : Graph) (index : Int) (p : Nat) (h : g.findNode index = some p) :
    ∃ n, g.nodes[p]? = some n ∧ n.index = index := by
  unfold Graph.findNode at h
  obtain ⟨hp, hx, _⟩ := List.findIdx?_eq_some_iff_getElem.mp h
  refine ⟨g.nodes[p], List.getElem?_eq_getElem hp, ?_⟩
  simpa [GraphNode.getIndex] using hx

/-- A call keeps the adjacency irreflexive when it is not an `addEdge` of an
index with itself. -/
theorem applyOp_irrefl (g g1 : Graph) (op : GraphOp) (h : applyOp g op = some g1)
    (hop : ∀ i, op ≠ GraphOp.addEdge i i)
    (hirr : ∀ u, u ∉ neighborsAt g.nodes u) : ∀ u, u ∉ neighborsAt g1.nodes u := by
  cases op with
  | addNode index =>
    simp only [applyOp, Option.some.injEq] at h
    subst h
    intro u
    rw [neighborsAt_addNode]
    exact hirr u
  | addEdge index1 index2 =>
    simp only [applyOp, Graph.addEdge] at h
    cases h1 : g.findNode index1 with
    | none => rw [h1] at h; simp at h
    | some p1 =>
      cases h2 : g.findNode index2 with
      | none => rw [h1, h2] at h; simp at h
      | some p2 =>
        rw [h1, h2] at h
        simp only [Option.some.injEq] at h
        subst h
        have l1 := findNode_lt g index1 p1 h1
        have l2 := findNode_lt g index2 p2 h2
        have hne : p1 ≠ p2 := by
          intro e
          subst e
          obtain ⟨n1, hn1, e1⟩ := findNode_getElem g index1 p1 h1
          obtain ⟨n2, hn2, e2⟩ := findNode_getElem g index2 p1 h2
          rw [hn1] at hn2
          have := Option.some.inj hn2
          subst this
          rw [e1] at e2
          subst e2
          exact hop index1 rfl
        intro u hu
        rw [mem_neighborsAt_addNeighbor g.nodes p1 p2 l1 l2] at hu
        rcases hu with hu | ⟨a, b⟩ | ⟨a, b⟩
        · exact hirr u hu
        · exact hne (a.symm.trans b)
        · exact hne (b.symm.trans a)
  | removeEdge index1 index2 =>
    simp only [applyOp, Graph.removeEdge] at h
    cases h1 : g.findNode index1 with
    | none => rw [h1] at h; simp at h
    | some p1 =>
      cases h2 : g.findNode index2 with
      | none => rw [h1, h2] at h; simp at h
      | some p2 =>
        rw [h1, h2] at h
        simp only [Option.some.injEq] at h
        subst h
        intro u hu
        rw [mem_neighborsAt_removeNeighbor] at hu
        exact hirr u hu.1

theorem applyOps_irrefl (ops : List GraphOp) :
    ∀ (g g1 : Graph), applyOps g ops = some g1 →
      (∀ op ∈ ops, ∀ i, op ≠ GraphOp.addEdge i i) →
      (∀ u, u ∉ neighborsAt g.nodes u) → ∀ u, u ∉ neighborsAt g1.nodes u := by
  induction ops with
  | nil =>
    intro g g1 h _ hirr
    simp only [applyOps, Option.some.injEq] at h
    subst h
    exact hirr
  | cons op rest ih =>
    intro g g1 h hops hirr
    simp only [applyOps] at h
    cases h1 : applyOp g op with
    | none => rw [h1] at h; simp at h
    | some g2 =>
      rw [h1] at h
      exact ih g2 g1 h (fun o ho => hops o (List.mem_cons_of_mem _ ho))
        (applyOp_irrefl g g2 op h1 (hops op (List.mem_cons_self _ _)) hirr)

/-- After a sequence of `addEdge` calls the nodes have the indices they had,
every neighbour is still one, and the two nodes of each call are neighbours. -/
theorem applyOps_addEdges (edges : List (Int × Int)) :
    ∀ (g g1 : Graph),
      applyOps g (edges.map (fun e => GraphOp.addEdge e.1 e.2)) = some g1 →
      g1.nodes.map GraphNode.index = g.nodes.map GraphNode.index ∧
        (∀ u v, v ∈ neighborsAt g.nodes u → v ∈ neighborsAt g1.nodes u) ∧
        ∀ e ∈ edges, ∃ p1 p2, g1.findNode e.1 = some p1 ∧ g1.findNode e.2 = some p2 ∧
          p2 ∈ neighborsAt g1.nodes p1 := by
  induction edges with
  | nil =>
    intro g g1 h
    simp only [List.map_nil, applyOps, Option.some.injEq] at h
    subst h
    exact ⟨rfl, fun _ _ h => h, fun e he => by simp at he⟩
  | cons e rest ih =>
    intro g g1 h
    simp only [List.map_cons, applyOps, applyOp, Graph.addEdge] at h
    cases h1 : g.findNode e.1 with
    | none => rw [h1] at h; simp at h
    | some p1 =>
      cases h2 : g.findNode e.2 with
      | none => rw [h1, h2] at h; simp at h
      | some p2 =>
        rw [h1, h2] at h
        simp only at h
        have l1 := findNode_lt g e.1 p1 h1
        have l2 := findNode_lt g e.2 p2 h2
        obtain ⟨a, b, c⟩ := ih _ g1 h
        have hidx : g1.nodes.map GraphNode.index = g.nodes.map GraphNode.index := by
          rw [a]
          exact index_addNeighbor g.nodes p1 p2
        have hfind : ∀ i, g1.findNode i = g.findNode i := by
          intro i
          exact findIdx?_index_congr i _ _ hidx
        refine ⟨hidx, ?_, ?_⟩
        · intro u v huv
          apply b
          rw [mem_neighborsAt_addNeighbor g.nodes p1 p2 l1 l2]
          exact Or.inl huv
        · intro e1 he1
          rcases List.mem_cons.mp he1 with rfl | he1
          · refine ⟨p1, p2, (hfind _).trans h1, (hfind _).trans h2, ?_⟩
            apply b
            rw [mem_neighborsAt_addNeighbor g.nodes p1 p2 l1 l2]
            exact Or.inr (Or.inl ⟨rfl, rfl⟩)
          · exact c e1 he1

theorem neighborsAt_empty (u : Nat) : neighborsAt Graph.empty.nodes u = [] := by
  simp [neighborsAt, Graph.empty]

/-- The graph on positions built by `addNode` calls followed by `addEdge`
calls between distinct indices: its adjacency is symmetric and irreflexive,
no neighbour list holds a position twice or a position outside the vector,
and the two nodes of each `addEdge` call are neighbours. -/
theorem nodes_first_adjacency (indices : List Int) (edges : List (Int × Int)) (g : Graph)
    (hne : ∀ e ∈ edges, e.1 ≠ e.2)
    (h : applyOps Graph.empty
      (indices.map GraphOp.addNode ++ edges.map (fun e => GraphOp.addEdge e.1 e.2)) = some g) :
    (∀ u v, v ∈ neighborsAt g.nodes u → u ∈ neighborsAt g.nodes v) ∧
      (∀ u, u ∉ neighborsAt g.nodes u) ∧
      (∀ p, (neighborsAt g.nodes p).Nodup) ∧
      (∀ n ∈ g.nodes, n.getDegree ≤ g.nodes.length) ∧
      ∀ e ∈ edges, ∃ p1 p2, g.findNode e.1 = some p1 ∧ g.findNode e.2 = some p2 ∧
        p2 ∈ neighborsAt g.nodes p1 := by
  obtain ⟨hsym, hnd⟩ := applyOps_invariant _ Graph.empty g h
    (by intro u v huv; rw [neighborsAt_empty] at huv; simp at huv)
    (by intro p; rw [neighborsAt_empty]; exact List.nodup_nil)
  have hirr := applyOps_irrefl _ Graph.empty g h
    (by
      intro op hop i e
      subst e
      rcases List.mem_append.mp hop with hop | hop
      · obtain ⟨_, _, he⟩ := List.mem_map.mp hop
        cases he
      · obtain ⟨e, he, heq⟩ := List.mem_map.mp hop
        have h1 := hne e he
        injection heq with a b
        exact h1 (a.trans b.symm))
    (by intro u; rw [neighborsAt_empty]; simp)
  rw [applyOps_append] at h
  cases h1 : applyOps Graph.empty (indices.map GraphOp.addNode) with
  | none => rw [h1] at h; simp at h
  | some g0 =>
    rw [h1] at h
    simp only [Option.some_bind] at h
    obtain ⟨_, _, hedges⟩ := applyOps_addEdges edges g0 g h
    refine ⟨hsym, hirr, hnd, ?_, hedges⟩
    intro n hn
    obtain ⟨p, hp, rfl⟩ := List.getElem_of_mem hn
    have hnb : neighborsAt g.nodes p = (g.nodes[p]).neighbors := by
      unfold neighborsAt
      rw [List.getElem?_eq_getElem hp]
    have hle := nodup_length_le (neighborsAt g.nodes p) g.nodes.length (hnd p)
      (fun x hx => lt_of_mem_neighborsAt g.nodes x p (hsym p x hx))
    rw [hnb] at hle
    exact hle


theorem neighborsAt_toGraph (g : AGraph) (u : Nat) :
    neighborsAt g.toGraph.nodes u = (g.neighborsAt u).map Ptr.slot := by
  unfold neighborsAt AGraph.neighborsAt
  rw [toGraph_getElem?]
  cases g.nodes[u]? <;> rfl

theorem mem_slot (l : List Ptr) (b v : Nat) (h : ∀ p ∈ l, p.buf = b) :
    (⟨b, v⟩ : Ptr) ∈ l ↔ v ∈ l.map Ptr.slot := by
  rw [List.mem_map]
  constructor
  · intro hm
    exact ⟨_, hm, rfl⟩
  · rintro ⟨p, hp, rfl⟩
    have := h p hp
    cases p with
    | mk pb ps =>
      simp only at this
      subst this
      exact hp

theorem live_neighborsAt (g : AGraph) (hl : g.live) (u : Nat) :
    ∀ p ∈ g.neighborsAt u, p.buf = g.buf := by
  intro p hp
  unfold AGraph.neighborsAt at hp
  cases hs : g.nodes[u]? with
  | none => rw [hs] at hp; simp at hp
  | some n =>
    rw [hs] at hp
    exact hl n (List.getElem?_mem hs) p hp

theorem map_slot_inj (b : Nat) (l1 : List Ptr) :
    ∀ l2 : List Ptr, (∀ p ∈ l1, p.buf = b) → (∀ p ∈ l2, p.buf = b) →
      l1.map Ptr.slot = l2.map Ptr.slot → l1 = l2 := by
  induction l1 with
  | nil =>
    intro l2 _ _ h
    cases l2 with
    | nil => rfl
    | cons y l2 => simp at h
  | cons x l1 ih =>
    intro l2 h1 h2 h
    cases l2 with
    | nil => simp at h
    | cons y l2 =>
      simp only [List.map_cons, List.cons.injEq] at h
      have hx := h1 x (List.mem_cons_self _ _)
      have hy := h2 y (List.mem_cons_self _ _)
      have hxy : x = y := by
        cases x with
        | mk xb xs =>
          cases y with
          | mk yb ys =>
            simp only at hx hy h
            rw [hx, hy, h.1]
      rw [hxy, ih l2 (fun p hp => h1 p (List.mem_cons_of_mem _ hp))
        (fun p hp => h2 p (List.mem_cons_of_mem _ hp)) h.2]

theorem map_toNode_inj (b : Nat) (l1 : List ANode) :
    ∀ l2 : List ANode, (∀ n ∈ l1, ∀ p ∈ n.neighbors, p.buf = b) →
      (∀ n ∈ l2, ∀ p ∈ n.neighbors, p.buf = b) →
      l1.map ANode.toNode = l2.map ANode.toNode → l1 = l2 := by
  induction l1 with
  | nil =>
    intro l2 _ _ h
    cases l2 with
    | nil => rfl
    | cons y l2 => simp at h
  | cons x l1 ih =>
    intro l2 h1 h2 h
    cases l2 with
    | nil => simp at h
    | cons y l2 =>
      simp only [List.map_cons, List.cons.injEq] at h
      have hx := h1 x (List.mem_cons_self _ _)
      have hy := h2 y (List.mem_cons_self _ _)
      have hxy : x = y := by
        cases x with
        | mk xi xc xn =>
          cases y with
          | mk yi yc yn =>
            have e := h.1
            simp only [ANode.toNode, GraphNode.mk.injEq] at e
            simp only at hx hy
            rw [e.1, e.2.1, map_slot_inj b xn yn hx hy e.2.2]
      rw [hxy, ih l2 (fun n hn => h1 n (List.mem_cons_of_mem _ hn))
        (fun n hn => h2 n (List.mem_cons_of_mem _ hn)) h.2]

/-- Two graphs without dangling pointers in the same memory that read the
same on positions are the same graph. -/
theorem toGraph_inj (g1 g2 : AGraph) (hl1 : g1.live) (hl2 : g2.live)
    (hc : g1.capacity = g2.capacity) (hf : g1.freed = g2.freed)
    (h : g1.toGraph = g2.toGraph) : g1 = g2 := by
  have hb : g1.buf = g2.buf := AGraph.buf_eq_of_freed _ _ hf
  have hn : g1.nodes = g2.nodes := by
    apply map_toNode_inj g1.buf g1.nodes g2.nodes hl1
    · intro n hn p hp
      rw [hb]
      exact hl2 n hn p hp
    · have := congrArg Graph.nodes h
      exact this
  cases g1
  cases g2
  simp only at hc hf hn
  subst hc hf hn
  rfl

theorem map_updateSlot {β : Type} (g : AGraph) (s : Nat) (f : ANode → ANode) (F : ANode → β)
    (hF : ∀ n, F (f n) = F n) : (g.updateSlot s f).nodes.map F = g.nodes.map F := by
  unfold AGraph.updateSlot
  cases hs : g.nodes[s]? with
  | none => rfl
  | some n =>
    simp only [List.map_set, hF]
    apply List.ext_getElem?
    intro q
    rw [List.getElem?_set]
    by_cases hq : s = q
    · subst hq
      rw [if_pos rfl, List.getElem?_map, hs]
      simp only [List.length_map, Option.map_some']
      have : s < g.nodes.length := by
        rcases List.getElem?_eq_some_iff.mp hs with ⟨h, _⟩
        exact h
      rw [if_pos this]
    · rw [if_neg hq]

theorem ptr_colorLoop_shape (limit : Nat) :
    ∀ (fuel : Nat) (g g1 : AGraph), AGraph.colorLoop limit fuel g = some g1 →
      g1.nodes.map ANode.index = g.nodes.map ANode.index ∧
        g1.nodes.map ANode.neighbors = g.nodes.map ANode.neighbors := by
  intro fuel
  induction fuel with
  | zero => intro g g1 h; simp [AGraph.colorLoop] at h
  | succ fuel ih =>
    intro g g1 h
    simp only [AGraph.colorLoop] at h
    cases hn : g.selectNext with
    | none =>
      rw [hn] at h
      simp only [Option.some.injEq] at h
      subst h
      exact ⟨rfl, rfl⟩
    | some next =>
      rw [hn] at h
      simp only at h
      cases hc : g.probeColor next limit 0 with
      | none => rw [hc] at h; simp at h
      | some color =>
        rw [hc] at h
        simp only at h
        obtain ⟨a, b⟩ := ih _ g1 h
        exact ⟨a.trans (map_updateSlot g next _ ANode.index (fun _ => rfl)),
          b.trans (map_updateSlot g next _ ANode.neighbors (fun _ => rfl))⟩

theorem ptr_colorDSATUR_shape (fuel : Nat) (g g1 : AGraph) (h : g.colorDSATUR fuel = some g1) :
    g1.nodes.map ANode.index = g.nodes.map ANode.index ∧
      g1.nodes.map ANode.neighbors = g.nodes.map ANode.neighbors := by
  obtain ⟨a, b⟩ := ptr_colorLoop_shape fuel fuel _ g1 h
  simp only [List.map_map] at a b
  exact ⟨a, b⟩

theorem toGraph_index (g : AGraph) :
    g.toGraph.nodes.map GraphNode.index = g.nodes.map ANode.index := by
  simp only [AGraph.toGraph, List.map_map]
  rfl

/-- The color of a present index, on a graph without dangling pointers. -/
theorem colorOfIndex_live (g : AGraph) (index : Int) (p : Nat)
    (h : g.toGraph.findNode index = some p) :
    g.colorOfIndex index = some (colorAt g.toGraph.nodes p) := by
  rw [toGraph_findNode] at h
  unfold AGraph.colorOfIndex
  cases hf : g.findNode index with
  | none => rw [hf] at h; simp at h
  | some q =>
    rw [hf] at h
    simp only [Option.map_some', Option.some.injEq] at h
    obtain ⟨hb, _, _⟩ := AGraph.findNode_some g index q hf
    simp only [Option.map_some', Option.some.injEq]
    rw [ptr_colorOf_live g q hb, h]


/-- The graph with real pointers built nodes first, read on positions. -/
theorem nodes_first_toGraph (grow : Nat → Nat) (indices : List Int) (eops : List GraphOp)
    (g : AGraph) (heops : ∀ op ∈ eops, op.isAddNode = false)
    (h : applyOpsA grow AGraph.empty (indices.map GraphOp.addNode ++ eops) = some g) :
    applyOps Graph.empty (indices.map GraphOp.addNode ++ eops) = some g.toGraph ∧ g.live := by
  obtain ⟨a, b⟩ := applyOpsA_nodes_first grow indices eops heops
  rw [h] at a
  exact ⟨a.symm, b g h⟩

/-- C17, the claim as it stands fails when a node is added after an edge: the
calls `addNode(0)`, `addNode(1)`, `addEdge(0,1)`, `addNode(2)` leave the
pointers stored by `addEdge(0,1)` pointing into the buffer the vector has
left; a second `addEdge(0,1)` compares them with the new addresses, finds
nothing and appends again: the graph changes, the list of vertex `0` holds
two pointers, each the address of vertex `1` at the time of its `addEdge`,
every degree is `2` and the edge count is `2` after one edge was added
twice. -/
theorem mutators_interleaved_counterexample :
    applyOpsA doubling AGraph.empty interleavedOps = some interleavedGraph ∧
      edgeGraph.findNode 1 = some ⟨2, 1⟩ ∧
      interleavedGraph.findNode 1 = some ⟨3, 1⟩ ∧
      (interleavedGraph.addEdge 0 1).map (fun g => g.nodes.map ANode.neighbors)
        = some [[⟨2, 1⟩, ⟨3, 1⟩], [⟨2, 0⟩, ⟨3, 0⟩], []] ∧
      interleavedGraph.addEdge 0 1 ≠ some interleavedGraph ∧
      (interleavedGraph.addEdge 0 1).map AGraph.getEdgeCount = some 2 := by
  decide

/-- C17, corrected. Symmetry and no duplicates for graphs built nodes first:
in every graph reached from the empty graph by `addNode` calls followed by
`addEdge` and `removeEdge` calls that all succeed, the vector growing in any
way, every stored pointer points at a node of the vector in its buffer in
use, the pointer to the node in slot `u` is in the neighbour list of the node
in slot `v` exactly when the pointer to `v` is in the list of `u`, and no
neighbour list holds a pointer twice; on such a graph a repeated
`addEdge(i, j)`, or `addEdge(j, i)` after `addEdge(i, j)`, leaves the graph
unchanged. -/
theorem mutators_nodes_first (grow : Nat → Nat) (indices : List Int) (eops : List GraphOp)
    (g : AGraph) (heops : ∀ op ∈ eops, op.isAddNode = false)
    (h : applyOpsA grow AGraph.empty (indices.map GraphOp.addNode ++ eops) = some g) :
    (∀ n ∈ g.nodes, ∀ p ∈ n.neighbors, p.buf = g.buf ∧ p.slot < g.nodes.length) ∧
      (∀ u v, (⟨g.buf, u⟩ : Ptr) ∈ g.neighborsAt v ↔ (⟨g.buf, v⟩ : Ptr) ∈ g.neighborsAt u) ∧
      (∀ n ∈ g.nodes, n.neighbors.Nodup) ∧
      ∀ i j g1, g.addEdge i j = some g1 →
        g1.addEdge i j = some g1 ∧ g1.addEdge j i = some g1 := by
  obtain ⟨hpos, hl⟩ := nodes_first_toGraph grow indices eops g heops h
  obtain ⟨hsym, hnd⟩ := applyOps_invariant _ Graph.empty g.toGraph hpos
    (by intro u v huv; rw [neighborsAt_empty] at huv; simp at huv)
    (by intro p; rw [neighborsAt_empty]; exact List.nodup_nil)
  have hmem : ∀ u v, (⟨g.buf, v⟩ : Ptr) ∈ g.neighborsAt u ↔ v ∈ neighborsAt g.toGraph.nodes u := by
    intro u v
    rw [neighborsAt_toGraph]
    exact mem_slot _ _ _ (live_neighborsAt g hl u)
  refine ⟨?_, ?_, ?_, ?_⟩
  · intro n hn p hp
    refine ⟨hl n hn p hp, ?_⟩
    obtain ⟨u, hu, rfl⟩ := List.getElem_of_mem hn
    have hp1 : p.slot ∈ neighborsAt g.toGraph.nodes u := by
      rw [neighborsAt_toGraph]
      unfold AGraph.neighborsAt
      rw [List.getElem?_eq_getElem hu]
      exact List.mem_map_of_mem _ hp
    have := lt_of_mem_neighborsAt g.toGraph.nodes p.slot u (hsym u p.slot hp1)
    rw [toGraph_length] at this
    exact this
  · intro u v
    rw [hmem, hmem]
    exact ⟨hsym v u, hsym u v⟩
  · intro n hn
    obtain ⟨u, hu, rfl⟩ := List.getElem_of_mem hn
    have := hnd u
    rw [neighborsAt_toGraph] at this
    unfold AGraph.neighborsAt at this
    rw [List.getElem?_eq_getElem hu] at this
    exact List.Nodup.of_map _ this
  · intro i j g1 h1
    obtain ⟨e1, f1⟩ := toGraph_addEdge g i j hl
    obtain ⟨l1, c1, r1, _⟩ := f1 g1 h1
    rw [h1] at e1
    obtain ⟨t1, t2⟩ := addEdge_twice g.toGraph g1.toGraph i j e1.symm
    have again : ∀ a b, g1.toGraph.addEdge a b = some g1.toGraph → g1.addEdge a b = some g1 := by
      intro a b hab
      obtain ⟨e2, f2⟩ := toGraph_addEdge g1 a b l1
      rw [hab] at e2
      cases h2 : g1.addEdge a b with
      | none => rw [h2] at e2; simp at e2
      | some g2 =>
        rw [h2] at e2
        simp only [Option.map_some', Option.some.injEq] at e2
        obtain ⟨l2, c2, r2, _⟩ := f2 g2 h2
        rw [toGraph_inj g2 g1 l2 l1 c2 r2 e2]
    exact ⟨again i j t1, again j i t2⟩

/-- C17, corrected, on the calls `addNode 0..2`, `addEdge(1,2)`, `addEdge(2,1)`,
`addEdge(0,1)`, `removeEdge(1,0)` in a vector that doubles, which end in the
graph with the single edge `1 - 2`. -/
theorem mutators_nodes_first_witness :
    (∀ n ∈ sampleEdgeA.nodes, ∀ p ∈ n.neighbors,
        p.buf = sampleEdgeA.buf ∧ p.slot < sampleEdgeA.nodes.length) ∧
      (∀ u v, (⟨sampleEdgeA.buf, u⟩ : Ptr) ∈ sampleEdgeA.neighborsAt v ↔
        (⟨sampleEdgeA.buf, v⟩ : Ptr) ∈ sampleEdgeA.neighborsAt u) ∧
      (∀ n ∈ sampleEdgeA.nodes, n.neighbors.Nodup) ∧
      ∀ i j g1, sampleEdgeA.addEdge i j = some g1 →
        g1.addEdge i j = some g1 ∧ g1.addEdge j i = some g1 :=
  mutators_nodes_first doubling [0, 1, 2]
    [GraphOp.addEdge 1 2, GraphOp.addEdge 2 1, GraphOp.addEdge 0 1, GraphOp.removeEdge 1 0]
    sampleEdgeA (by decide) (by decide)

/-- C2, the claim as it stands fails when a node is added after an edge: in
the graph built by `addNode(0)`, `addNode(1)`, `addEdge(0,1)`, `addNode(2)`,
where `addEdge` joins two distinct existing indices, the pointers that make
`0` and `1` neighbours point into the buffer the vector has left;
`colorDSATUR` reads no color of a node of the graph through them and gives
the vertices `0` and `1` the same color `0`. -/
theorem colorDSATUR_interleaved_counterexample :
    applyOpsA doubling AGraph.empty interleavedOps = some interleavedGraph ∧
      GraphOp.addEdge 0 1 ∈ interleavedOps ∧
      (interleavedGraph.colorDSATUR 4).map (fun g => g.nodes.map ANode.color)
        = some [0, 0, 0] ∧
      (interleavedGraph.colorDSATUR 4).bind (fun g => g.colorOfIndex 0) = some 0 ∧
      (interleavedGraph.colorDSATUR 4).bind (fun g => g.colorOfIndex 1) = some 0 := by
  decide

/-- C2, corrected. Coloring validity for graphs built nodes first: let a
graph be built from the empty graph by `addNode` calls followed by `addEdge`
calls, each between two distinct existing indices, the vector growing in any
way.  Its neighbour relation is symmetric and irreflexive and no pointer
dangles, and `colorDSATUR` (with a budget above the node count) returns a
graph with the same indices and neighbour lists in which the two vertices of
every `addEdge` call have different colors, and in which the color read
through any neighbour pointer of a node differs from the color of that
node. -/
theorem colorDSATUR_valid_nodes_first (grow : Nat → Nat) (indices : List Int)
    (edges : List (Int × Int)) (g : AGraph) (fuel : Nat)
    (hne : ∀ e ∈ edges, e.1 ≠ e.2)
    (h : applyOpsA grow AGraph.empty
      (indices.map GraphOp.addNode ++ edges.map (fun e => GraphOp.addEdge e.1 e.2)) = some g)
    (hfuel : g.nodes.length < fuel) :
    ((∀ n ∈ g.nodes, ∀ p ∈ n.neighbors, p.buf = g.buf) ∧
      (∀ u v, (⟨g.buf, v⟩ : Ptr) ∈ g.neighborsAt u → (⟨g.buf, u⟩ : Ptr) ∈ g.neighborsAt v) ∧
      (∀ u, (⟨g.buf, u⟩ : Ptr) ∉ g.neighborsAt u)) ∧
    ∃ g1, g.colorDSATUR fuel = some g1 ∧
      g1.nodes.map ANode.index = g.nodes.map ANode.index ∧
      g1.nodes.map ANode.neighbors = g.nodes.map ANode.neighbors ∧
      (∀ e ∈ edges, ∃ c1 c2, g1.colorOfIndex e.1 = some c1 ∧
        g1.colorOfIndex e.2 = some c2 ∧ c1 ≠ c2) ∧
      ∀ n ∈ g1.nodes, ∀ p ∈ n.neighbors, g1.colorOf p ≠ n.color := by
  have heops : ∀ op ∈ edges.map (fun e => GraphOp.addEdge e.1 e.2), op.isAddNode = false := by
    intro op hop
    obtain ⟨e, _, rfl⟩ := List.mem_map.mp hop
    rfl
  obtain ⟨hpos, hl⟩ := nodes_first_toGraph grow indices _ g heops h
  obtain ⟨hsym, hirr, hnd, hdeg, hedges⟩ := nodes_first_adjacency indices edges g.toGraph hne hpos
  have hmem : ∀ u v, (⟨g.buf, v⟩ : Ptr) ∈ g.neighborsAt u ↔ v ∈ neighborsAt g.toGraph.nodes u := by
    intro u v
    rw [neighborsAt_toGraph]
    exact mem_slot _ _ _ (live_neighborsAt g hl u)
  refine ⟨⟨hl, ?_, ?_⟩, ?_⟩
  · intro u v
    rw [hmem, hmem]
    exact hsym u v
  · intro u
    rw [hmem]
    exact hirr u
  · have hlen := toGraph_length g
    obtain ⟨gp, hp1, _, hp2, hp3, _, _⟩ := colorDSATUR_some g.toGraph fuel (by omega)
      (fun n hn => by have := hdeg n hn; omega)
    have hproper := colorDSATUR_proper g.toGraph gp fuel hsym hirr hp1
    obtain ⟨e1, f1⟩ := toGraph_colorDSATUR fuel g hl
    rw [hp1] at e1
    cases hc : g.colorDSATUR fuel with
    | none => rw [hc] at e1; simp at e1
    | some g1 =>
      rw [hc] at e1
      simp only [Option.map_some', Option.some.injEq] at e1
      obtain ⟨l1, _, r1⟩ := f1 g1 hc
      obtain ⟨s1, s2⟩ := ptr_colorDSATUR_shape fuel g g1 hc
      have hnb : ∀ u, neighborsAt g1.toGraph.nodes u = neighborsAt g.toGraph.nodes u := by
        rw [e1]
        exact neighborsAt_of_map_eq _ _ hp3
      have hproper1 : ∀ u v, v ∈ neighborsAt g1.toGraph.nodes u →
          colorAt g1.toGraph.nodes u ≠ colorAt g1.toGraph.nodes v := by
        rw [e1]
        exact hproper
      refine ⟨g1, rfl, s1, s2, ?_, ?_⟩
      · intro e he
        obtain ⟨p1, p2, a, b, c⟩ := hedges e he
        have hfind : ∀ i, g1.toGraph.findNode i = g.toGraph.findNode i := by
          intro i
          apply findIdx?_index_congr
          rw [e1]
          exact hp2
        refine ⟨_, _, colorOfIndex_live g1 e.1 p1 ((hfind _).trans a),
          colorOfIndex_live g1 e.2 p2 ((hfind _).trans b), ?_⟩
        apply hproper1
        rw [hnb]
        exact c
      · intro n hn p hp
        obtain ⟨u, hu, rfl⟩ := List.getElem_of_mem hn
        have hpb := l1 _ (List.getElem_mem hu) p hp
        rw [ptr_colorOf_live g1 p hpb]
        have hcu : (g1.nodes[u]).color = colorAt g1.toGraph.nodes u := by
          rw [← ptr_colorAt_eq]
          unfold AGraph.colorAt
          rw [List.getElem?_eq_getElem hu]
        rw [hcu]
        apply Ne.symm
        apply hproper1
        rw [neighborsAt_toGraph]
        unfold AGraph.neighborsAt
        rw [List.getElem?_eq_getElem hu]
        exact List.mem_map_of_mem _ hp

/-- C2, corrected, on the path `0 - 1 - 2 - 3` built nodes first in a vector
that doubles. -/
theorem colorDSATUR_valid_nodes_first_witness :
    ((∀ n ∈ samplePathA.nodes, ∀ p ∈ n.neighbors, p.buf = samplePathA.buf) ∧
      (∀ u v, (⟨samplePathA.buf, v⟩ : Ptr) ∈ samplePathA.neighborsAt u →
        (⟨samplePathA.buf, u⟩ : Ptr) ∈ samplePathA.neighborsAt v) ∧
      (∀ u, (⟨samplePathA.buf, u⟩ : Ptr) ∉ samplePathA.neighborsAt u)) ∧
    ∃ g1, samplePathA.colorDSATUR 5 = some g1 ∧
      g1.nodes.map ANode.index = samplePathA.nodes.map ANode.index ∧
      g1.nodes.map ANode.neighbors = samplePathA.nodes.map ANode.neighbors ∧
      (∀ e ∈ [((0 : Int), (1 : Int)), (1, 2), (2, 3)], ∃ c1 c2, g1.colorOfIndex e.1 = some c1 ∧
        g1.colorOfIndex e.2 = some c2 ∧ c1 ≠ c2) ∧
      ∀ n ∈ g1.nodes, ∀ p ∈ n.neighbors, g1.colorOf p ≠ n.color :=
  colorDSATUR_valid_nodes_first doubling [0, 1, 2, 3] [(0, 1), (1, 2), (2, 3)] samplePathA 5
    (by decide) (by decide) (by decide)

/-- The colors of the path built with real pointers. -/
theorem samplePathA_colored :
    (samplePathA.colorDSATUR 5).map (fun g => g.nodes.map ANode.color) = some [1, 0, 1, 0] := by
  decide

/-! ## addEdge on an absent index -/

end MBMapSplitter
